import Mathlib

set_option maxHeartbeats 1000000
set_option maxRecDepth 100000

/-!
Verification of the policy-PDF pipeline (crawler, filter, ingestor).

Python strings are modelled as lists of Unicode scalar values (Lean Char).
Case mapping and character classes are modelled at ASCII scope, which is the
scope exercised by every keyword list and configuration constant in the
source. CPython library functions used by the source (urllib.parse and re)
are embedded directly below, each next to the source function that calls it.
-/

/-- Python str is modelled as a list of characters. -/
abbrev Str := List Char

/-- Coercion from a Lean string literal to the model type. -/
def str (s : String) : Str := s.data

/-- Decidable equality for the result type modelling fallible library
calls. -/
instance {α : Type} [DecidableEq α] : DecidableEq (Except Unit α) := fun a b =>
  match a, b with
  | .ok x, .ok y =>
    if h : x = y then isTrue (by rw [h])
    else isFalse (fun hh => by cases hh; exact h rfl)
  | .error x, .error y => isTrue (by cases x; cases y; rfl)
  | .ok _, .error _ => isFalse (fun hh => by cases hh)
  | .error _, .ok _ => isFalse (fun hh => by cases hh)

/-- Python str.lower at ASCII scope: map A-Z to a-z. -/
def lowerChar (c : Char) : Char :=
  if 65 ≤ c.toNat ∧ c.toNat ≤ 90 then Char.ofNat (c.toNat + 32) else c

/-- Python str.lower on a whole string. -/
def pyLower (s : Str) : Str := s.map lowerChar

/-- ASCII letter test (Python c.isascii() and c.isalpha()). -/
def isAsciiAlpha (c : Char) : Bool :=
  decide ((65 ≤ c.toNat ∧ c.toNat ≤ 90) ∨ (97 ≤ c.toNat ∧ c.toNat ≤ 122))

/-- ASCII digit test. -/
def isAsciiDigit (c : Char) : Bool :=
  decide (48 ≤ c.toNat ∧ c.toNat ≤ 57)

/-- Python str.strip character class: ASCII whitespace. -/
def isPySpace (c : Char) : Bool :=
  decide (c.toNat = 32 ∨ c.toNat = 9 ∨ c.toNat = 10 ∨ c.toNat = 13 ∨
          c.toNat = 11 ∨ c.toNat = 12)

/-- Python str.strip(): drop whitespace from both ends. -/
def pyStrip (s : Str) : Str :=
  ((s.dropWhile isPySpace).reverse.dropWhile isPySpace).reverse

/-- Split a string at the first occurrence of a character, if any. -/
def splitFirst (c : Char) : Str → Option (Str × Str)
  | [] => none
  | x :: xs =>
    if x = c then some ([], xs)
    else match splitFirst c xs with
      | none => none
      | some (a, b) => some (x :: a, b)

/-- Accumulator loop of splitAll; the accumulator holds the reversed
current field. -/
def splitAllAux (c : Char) : Str → Str → List Str
  | [], acc => [acc.reverse]
  | x :: xs, acc =>
    if x = c then acc.reverse :: splitAllAux c xs []
    else splitAllAux c xs (x :: acc)

/-- Python str.split(sep) for a one-character separator. -/
def splitAll (c : Char) (s : Str) : List Str := splitAllAux c s []

/-- Split a string at the last occurrence of a character, if any. -/
def splitLast (c : Char) (s : Str) : Option (Str × Str) :=
  match splitFirst c s.reverse with
  | none => none
  | some (a, b) => some (b.reverse, a.reverse)

/-- Does the needle occur at the head of the haystack. -/
def leadMatch : Str → Str → Bool
  | [], _ => true
  | _ :: _, [] => false
  | a :: as, b :: bs => a = b && leadMatch as bs

/-- Python substring membership: needle in hay. -/
def strHas (hay needle : Str) : Bool :=
  match hay with
  | [] => leadMatch needle []
  | x :: t => leadMatch needle (x :: t) || strHas t needle

/-- Python str.endswith. -/
def endsW (s suf : Str) : Bool := leadMatch suf.reverse s.reverse

/-- Character membership in a string. -/
def hasChar (c : Char) (s : Str) : Bool := decide (c ∈ s)

/-- Decimal digit character. -/
def digitChar (n : Nat) : Char := Char.ofNat (48 + n)

/-- Fuel-indexed digit loop of natToStr; the fuel always suffices because a
number shrinks when divided by ten. -/
def natToStrAux : Nat → Nat → Str
  | 0, _ => []
  | fuel + 1, n =>
    if n < 10 then [digitChar n]
    else natToStrAux fuel (n / 10) ++ [digitChar (n % 10)]

/-- Python str(n) for a nonnegative integer. -/
def natToStr (n : Nat) : Str := natToStrAux (n + 1) n

/-!
Embedding of urllib.parse.urlparse of CPython 3.11, as called by the
source. The function first strips leading control characters and spaces and
removes tabs and newlines, then splits off the scheme, then the authority
after a double slash (raising ValueError on a mismatched square bracket in
the authority), then the fragment, then the query, then the semicolon
parameters of the last path segment. The additional 3.11 validation of a
well-bracketed IPv6 authority and the ValueError raised by the NFKC check
on a non-ASCII authority are outside the modelled scope: no theorem below
touches a URL with a balanced bracket pair, and the one totality theorem
(claim C6) is restricted to all-ASCII input, where the CPython check
returns without inspecting anything and the parser agrees with this model.
-/

/-- C0 control characters and space, stripped from the front of a URL. -/
def isC0OrSpace (c : Char) : Bool := decide (c.toNat ≤ 32)

/-- Tab, carriage return and line feed, removed everywhere in a URL. -/
def isTRN (c : Char) : Bool :=
  decide (c.toNat = 9 ∨ c.toNat = 13 ∨ c.toNat = 10)

/-- Sanitizing step of urlsplit. -/
def cleanUrl (u : Str) : Str :=
  (u.dropWhile isC0OrSpace).filter (fun c => !isTRN c)

/-- Characters permitted in a URL scheme. -/
def isSchemeChar (c : Char) : Bool :=
  isAsciiAlpha c || isAsciiDigit c || decide (c = '+') || decide (c = '-') ||
    decide (c = '.')

/-- Result record of urlparse. -/
structure UrlParts where
  scheme : Str
  netloc : Str
  path : Str
  params : Str
  query : Str
  fragment : Str
deriving DecidableEq

/-- Scheme split of urlsplit: a colon preceded by a nonempty run of scheme
characters starting with an ASCII letter separates the lowercased scheme. -/
def splitScheme (u : Str) : Str × Str :=
  match splitFirst ':' u with
  | none => ([], u)
  | some (pre, post) =>
    match pre with
    | [] => ([], u)
    | c :: cs =>
      if isAsciiAlpha c && (c :: cs).all isSchemeChar
      then (pyLower (c :: cs), post) else ([], u)

/-- Characters that terminate the authority component. -/
def notNetlocDelim (c : Char) : Bool :=
  !(decide (c = '/') || decide (c = '?') || decide (c = '#'))

/-- Authority split of urlsplit: after a leading double slash, the authority
runs to the first slash, question mark or hash. -/
def splitNetloc (u : Str) : Str × Str :=
  if u.take 2 = ['/', '/'] then
    ((u.drop 2).takeWhile notNetlocDelim, (u.drop 2).dropWhile notNetlocDelim)
  else ([], u)

/-- Mismatched square bracket test on the authority (Invalid IPv6 URL). -/
def brackBad (nl : Str) : Bool :=
  (hasChar '[' nl && !hasChar ']' nl) || (hasChar ']' nl && !hasChar '[' nl)

/-- Split at the first occurrence of a character, keeping everything when the
character is absent. -/
def splitAtFirst (c : Char) (u : Str) : Str × Str :=
  match splitFirst c u with
  | none => (u, [])
  | some (a, b) => (a, b)

/-- Parameter split of urlparse: the part of the last path segment after its
first semicolon. -/
def splitPar (p : Str) : Str × Str :=
  match splitLast '/' p with
  | some (a, seg) =>
    match splitFirst ';' seg with
    | none => (p, [])
    | some (s1, s2) => (a ++ '/' :: s1, s2)
  | none =>
    match splitFirst ';' p with
    | none => (p, [])
    | some (a, b) => (a, b)

/-- Embedding of urllib.parse.urlparse; the error value models the
ValueError raised on a mismatched bracket in the authority. -/
def urlparse (u : Str) : Except Unit UrlParts :=
  let sp := splitScheme (cleanUrl u)
  let nlp := splitNetloc sp.2
  if brackBad nlp.1 then .error () else
  let fp := splitAtFirst '#' nlp.2
  let qp := splitAtFirst '?' fp.1
  let pp := splitPar qp.1
  .ok ⟨sp.1, nlp.1, pp.1, pp.2, qp.2, fp.2⟩

/-!
Crawler helpers from src/policy_url_crawler.py.
-/

/-- Tracking query parameters removed by normalize_url. -/
def TRACKING_PARAMS : List Str :=
  [str "utm_source", str "utm_medium", str "utm_campaign", str "utm_content",
   str "utm_term", str "gclid", str "fbclid", str "v", str "version",
   str "ref", str "download", str "format"]

/-- Path keywords a crawled page must contain one of. -/
def ALLOWED_PATH_KEYWORDS : List Str :=
  [str "/insurance", str "/policy", str "/policies", str "/documents",
   str "/pds", str "/product-disclosure"]

/-- Path keywords that block crawling a page. -/
def DENY_PATH_KEYWORDS : List Str :=
  [str "/drivers/", str "/membership/", str "/travel/", str "/home-services/",
   str "/about/", str "/careers/", str "/site-info/", str "/news/",
   str "/media/", str "/blog/", str "/events/", str "/rewards/",
   str "/partners/"]

/-- Embedding of is_pdf: the lowercased URL up to the first question mark and
hash must end in .pdf. -/
def is_pdf (u : Str) : Bool :=
  endsW (((pyLower u).takeWhile (fun c => !decide (c = '?'))).takeWhile
          (fun c => !decide (c = '#'))) (str ".pdf")

/-- Embedding of normalize_domain: lowercase, then python lstrip with the
character set of the string www. (every leading w or dot is dropped). -/
def normalize_domain (d : Str) : Str :=
  (pyLower d).dropWhile (fun c => decide (c = 'w') || decide (c = '.'))

/-- Embedding of same_domain: compare normalized authorities; the parse of
either URL can raise. -/
def same_domain (seed u : Str) : Except Unit Bool := do
  let ps ← urlparse seed
  let pu ← urlparse u
  pure (decide (normalize_domain ps.netloc = normalize_domain pu.netloc))

/-- Embedding of is_allowed_path: lowercase the whole URL, reject on any deny
keyword, then require an allowed keyword. -/
def is_allowed_path (u : Str) : Bool :=
  let l := pyLower u
  if DENY_PATH_KEYWORDS.any (fun d => strHas l d) then false
  else ALLOWED_PATH_KEYWORDS.any (fun k => strHas l k)

/-!
Filter stage from src/policy_url_filter.py.
-/

/-- Keep keywords of the filter stage. -/
def KEEP_KEYWORDS : List Str :=
  [str "policy", str "pds", str "product-disclosure", str "tmd",
   str "policy-wording", str "policy-document", str "schedule",
   str "insurance"]

/-- Drop keywords of the filter stage. -/
def DROP_KEYWORDS : List Str :=
  [str "form", str "application", str "claim", str "guide", str "fsg",
   str "brochure", str "fact-sheet", str "statement", str "authority",
   str "privacy", str "terms", str "cookies", str "media", str "news",
   str "blog"]

/-- Embedding of extract_filename: the lowercased last slash-separated
segment of the parsed path, or empty for an empty path. -/
def extract_filename (u : Str) : Except Unit Str := do
  let p ← urlparse u
  pure (if p.path ≠ [] then pyLower ((splitAll '/' p.path).getLastD []) else [])

/-- Embedding of should_keep: require a .pdf filename, no drop keyword, and
at least one keep keyword. -/
def should_keep (u : Str) : Except Unit Bool := do
  let fn ← extract_filename u
  if !endsW fn (str ".pdf") then pure false
  else if DROP_KEYWORDS.any (fun d => strHas fn d) then pure false
  else pure (KEEP_KEYWORDS.any (fun k => strHas fn k))

/-- Embedding of the routing loop of the filter main: accepted URLs are
appended to the policy stream, rejected ones to the filtered stream. -/
def filterRun (urls : List Str) : Except Unit (List Str × List Str) :=
  urls.foldlM
    (fun acc u => do
      let k ← should_keep u
      pure (if k then (acc.1 ++ [u], acc.2) else (acc.1, acc.2 ++ [u])))
    ([], [])

/-!
Ingestor filename derivation from src/admin_pdf_ingestor_v2.py.
-/

/-- Word character of the re module at ASCII scope. -/
def isWordChar (c : Char) : Bool :=
  isAsciiAlpha c || isAsciiDigit c || decide (c = '_')

/-- Characters outside this class are replaced by safe_filename. -/
def keepChar (c : Char) : Bool :=
  isWordChar c || decide (c = '.') || decide (c = '-')

/-- Substitution character of re.sub applied by safe_filename: characters
other than word characters, dot and hyphen become underscores. -/
def subNonWord (c : Char) : Char :=
  if keepChar c then c else '_'

/-- Last slash-separated segment of the raw URL, defaulting to document.pdf
when the segment is empty. -/
def rawName (u : Str) : Str :=
  let last := (splitAll '/' u).getLastD []
  if last = [] then str "document.pdf" else last

/-- Filename derived by safe_filename before the final truncation. -/
def preTruncName (u : Str) : Str :=
  let f := (pyLower (rawName u)).map subNonWord
  if endsW f (str ".pdf") then f else f ++ str ".pdf"

/-- Embedding of safe_filename: lowercase, substitute, force the suffix, then
truncate to 200 characters. -/
def safe_filename (u : Str) : Str := (preTruncName u).take 200

/-!
Embedding of the query-string machinery of urllib.parse used by
normalize_url: parse_qs with keep_blank_values, urlencode with doseq, and
the quote_plus and unquote codecs over UTF-8 bytes. The byte pipeline below
is exact for ASCII input; for non-ASCII input the per-ASCII-chunk decode of
CPython is merged into one decode over the whole byte string.
-/

/-- UTF-8 encoding of one scalar value. -/
def utf8EncodeChar (c : Char) : List Nat :=
  let v := c.toNat
  if v < 128 then [v]
  else if v < 2048 then [192 + v / 64, 128 + v % 64]
  else if v < 65536 then [224 + v / 4096, 128 + (v / 64) % 64, 128 + v % 64]
  else [240 + v / 262144, 128 + (v / 4096) % 64, 128 + (v / 64) % 64,
        128 + v % 64]

/-- UTF-8 encoding of a string as a byte list. -/
def utf8Encode (s : Str) : List Nat :=
  (s.map utf8EncodeChar).foldr (· ++ ·) []

/-- Unicode replacement character produced by errors equal to replace. -/
def replChar : Char := Char.ofNat 65533

/-- Continuation byte test. -/
def contB (b : Nat) : Bool := decide (128 ≤ b ∧ b ≤ 191)

/-- First continuation constraint of a three-byte lead. -/
def cont3 (b b1 : Nat) : Bool :=
  if b = 224 then decide (160 ≤ b1 ∧ b1 ≤ 191)
  else if b = 237 then decide (128 ≤ b1 ∧ b1 ≤ 159)
  else contB b1

/-- First continuation constraint of a four-byte lead. -/
def cont4 (b b1 : Nat) : Bool :=
  if b = 240 then decide (144 ≤ b1 ∧ b1 ≤ 191)
  else if b = 244 then decide (128 ≤ b1 ∧ b1 ≤ 143)
  else contB b1

/-- UTF-8 decoding with the replace error handler, one replacement character
per maximal subpart of an ill-formed sequence. -/
def utf8DecodeReplace : List Nat → Str
  | [] => []
  | b :: bs =>
    if b ≤ 127 then Char.ofNat b :: utf8DecodeReplace bs
    else if 194 ≤ b ∧ b ≤ 223 then
      match bs with
      | [] => [replChar]
      | b1 :: bs1 =>
        if contB b1 then
          Char.ofNat ((b - 192) * 64 + (b1 - 128)) :: utf8DecodeReplace bs1
        else replChar :: utf8DecodeReplace (b1 :: bs1)
    else if 224 ≤ b ∧ b ≤ 239 then
      match bs with
      | [] => [replChar]
      | b1 :: bs1 =>
        if cont3 b b1 then
          match bs1 with
          | [] => [replChar]
          | b2 :: bs2 =>
            if contB b2 then
              Char.ofNat ((b - 224) * 4096 + (b1 - 128) * 64 + (b2 - 128)) ::
                utf8DecodeReplace bs2
            else replChar :: utf8DecodeReplace (b2 :: bs2)
        else replChar :: utf8DecodeReplace (b1 :: bs1)
    else if 240 ≤ b ∧ b ≤ 244 then
      match bs with
      | [] => [replChar]
      | b1 :: bs1 =>
        if cont4 b b1 then
          match bs1 with
          | [] => [replChar]
          | b2 :: bs2 =>
            if contB b2 then
              match bs2 with
              | [] => [replChar]
              | b3 :: bs3 =>
                if contB b3 then
                  Char.ofNat ((b - 240) * 262144 + (b1 - 128) * 4096 +
                      (b2 - 128) * 64 + (b3 - 128)) :: utf8DecodeReplace bs3
                else replChar :: utf8DecodeReplace (b3 :: bs3)
            else replChar :: utf8DecodeReplace (b2 :: bs2)
        else replChar :: utf8DecodeReplace (b1 :: bs1)
    else replChar :: utf8DecodeReplace bs

/-- Hexadecimal digit byte test, both cases. -/
def isHexB (b : Nat) : Bool :=
  decide ((48 ≤ b ∧ b ≤ 57) ∨ (65 ≤ b ∧ b ≤ 70) ∨ (97 ≤ b ∧ b ≤ 102))

/-- Value of a hexadecimal digit byte. -/
def hexVal (b : Nat) : Nat :=
  if b ≤ 57 then b - 48 else if b ≤ 70 then b - 55 else b - 87

/-- Percent decoding over bytes: a percent byte followed by two hexadecimal
digits collapses to one byte, anything else is copied. -/
def percentDecode : List Nat → List Nat
  | 37 :: h1 :: h2 :: rest =>
    if isHexB h1 && isHexB h2 then
      (hexVal h1 * 16 + hexVal h2) :: percentDecode rest
    else 37 :: percentDecode (h1 :: h2 :: rest)
  | b :: rest => b :: percentDecode rest
  | [] => []

/-- Embedding of urllib.parse.unquote with UTF-8 and replace. -/
def unquoteStr (s : Str) : Str :=
  utf8DecodeReplace (percentDecode (utf8Encode s))

/-- Python str.replace of plus by space, as applied by parse_qsl. -/
def plusToSpace (s : Str) : Str :=
  s.map (fun c => if c = '+' then ' ' else c)

/-- Byte kept literal by quote: ASCII alphanumerics and underscore, dot,
hyphen, tilde. -/
def isSafeByte (b : Nat) : Bool :=
  decide ((65 ≤ b ∧ b ≤ 90) ∨ (97 ≤ b ∧ b ≤ 122) ∨ (48 ≤ b ∧ b ≤ 57) ∨
          b = 95 ∨ b = 46 ∨ b = 45 ∨ b = 126)

/-- Uppercase hexadecimal digit character. -/
def hexDigitU (n : Nat) : Char :=
  if n < 10 then Char.ofNat (48 + n) else Char.ofNat (55 + n)

/-- Image of one byte under quote_plus with an empty safe set: space becomes
plus, safe bytes stay literal, the rest are percent escaped. -/
def quoteByte (b : Nat) : Str :=
  if b = 32 then ['+']
  else if isSafeByte b then [Char.ofNat b]
  else ['%', hexDigitU (b / 16), hexDigitU (b % 16)]

/-- Embedding of urllib.parse.quote_plus with an empty safe set, the
quote_via used by urlencode. -/
def quotePlus (s : Str) : Str :=
  ((utf8Encode s).map quoteByte).foldr (· ++ ·) []

/-- Decoding applied by parse_qsl to each name and value. -/
def unqPart (s : Str) : Str := unquoteStr (plusToSpace s)

/-- Embedding of parse_qsl with keep_blank_values and the ampersand
separator: split on ampersands, skip empty fields, split each field at its
first equals sign, decode both sides. -/
def parse_qsl (qs : Str) : List (Str × Str) :=
  (splitAll '&' qs).filterMap fun field =>
    if field = [] then none
    else some (match splitFirst '=' field with
      | some nv => (unqPart nv.1, unqPart nv.2)
      | none => (unqPart field, []))

/-- Append one binding to an insertion-ordered multi-map, as the dict loop
of parse_qs does. -/
def addPair (d : List (Str × List Str)) (k : Str) (v : Str) :
    List (Str × List Str) :=
  match d with
  | [] => [(k, [v])]
  | (k1, vs) :: rest =>
    if k1 = k then (k1, vs ++ [v]) :: rest else (k1, vs) :: addPair rest k v

/-- Embedding of parse_qs: group the pair list into an insertion-ordered
multi-map. -/
def parse_qs (qs : Str) : List (Str × List Str) :=
  (parse_qsl qs).foldl (fun d p => addPair d p.1 p.2) []

/-- Flat encoded key equals value fragments of urlencode with doseq. -/
def encPairs (d : List (Str × List Str)) : List Str :=
  d.foldr (fun kv acc =>
    kv.2.map (fun v => quotePlus kv.1 ++ '=' :: quotePlus v) ++ acc) []

/-- Join fragments with ampersands. -/
def joinAmp : List Str → Str
  | [] => []
  | [x] => x
  | x :: y :: rest => x ++ '&' :: joinAmp (y :: rest)

/-- Embedding of urlencode with doseq over the multi-map. -/
def urlencode (d : List (Str × List Str)) : Str := joinAmp (encPairs d)

/-- Schemes that carry an authority, from urllib.parse of CPython 3.11. -/
def USES_NETLOC : List Str :=
  [str "", str "ftp", str "http", str "gopher", str "nntp", str "telnet",
   str "imap", str "wais", str "file", str "mms", str "https", str "shttp",
   str "snews", str "prospero", str "rtsp", str "rtsps", str "rtspu",
   str "rsync", str "svn", str "svn+ssh", str "sftp", str "nfs", str "git",
   str "git+ssh", str "ws", str "wss"]

/-- Embedding of urlunparse composed with urlunsplit of CPython 3.11: the
double slash is emitted for a nonempty authority, and also for an empty one
when the scheme carries an authority and the path does not already begin
with a double slash. -/
def urlunparse (p : UrlParts) : Str :=
  let u0 := if p.params = [] then p.path else p.path ++ ';' :: p.params
  let u1 := if p.netloc ≠ [] ∨
      (p.scheme ≠ [] ∧ p.scheme ∈ USES_NETLOC ∧ u0.take 2 ≠ ['/', '/']) then
      '/' :: '/' :: (p.netloc ++
        (if u0 ≠ [] ∧ u0.head? ≠ some '/' then '/' :: u0 else u0))
    else u0
  let u2 := if p.scheme = [] then u1 else p.scheme ++ ':' :: u1
  let u3 := if p.query = [] then u2 else u2 ++ '?' :: p.query
  if p.fragment = [] then u3 else u3 ++ '#' :: p.fragment

/-- Query pairs surviving the tracking filter of normalize_url. -/
def filteredParams (q : Str) : List (Str × List Str) :=
  (parse_qs q).filter (fun kv => !decide (pyLower kv.1 ∈ TRACKING_PARAMS))

/-- Embedding of normalize_url: re-encode the non-tracking query pairs and
reassemble without the fragment. -/
def normalize_url (u : Str) : Except Unit Str := do
  let p ← urlparse u
  let query : Str :=
    if p.query ≠ [] then
      let d := filteredParams p.query
      if d ≠ [] then urlencode d else []
    else []
  pure (urlunparse ⟨p.scheme, p.netloc, p.path, p.params, query, []⟩)

/-!
Operational model of the crawl loop of src/policy_url_crawler.py. The HTTP
fetch and the HTML link extraction are external capabilities: a fetch
function maps a URL to either a response (its status code together with the
href targets that the BeautifulSoup loop would yield) or one of the caught
exception classes. urljoin is likewise an injected capability and every
theorem quantifies over it. Each in-memory seen set is modelled next to the
durable append-only file it mirrors; the fetched field records each URL
passed to requests.get in order, and errors records each add_error category
in order. Running out of fuel returns the state reached so far; theorems
either hold for every fuel or assume enough fuel.
-/

/-- Outcome of one requests.get call, as classified by the crawler. -/
inductive FetchResult where
  | response (status : Nat) (hrefs : List Str)
  | excTimeout
  | excConn
  | excHTTP
  | excOther

/-- Mutable state of one crawl process together with its durable files. -/
structure CrawlState where
  seenPages : List Str
  seenPagesLog : List Str
  seenPdfs : List Str
  seenPdfsLog : List Str
  output : List Str
  fetched : List Str
  totalPages : Nat
  totalPdfs : Nat
  errors : List Str
deriving DecidableEq

/-- Embedding of CrawlStats.add_error: record the category. -/
def addError (st : CrawlState) (e : Str) : CrawlState :=
  { st with errors := st.errors ++ [e] }

/-- Embedding of the link loop over one fetched page: each href is stripped,
joined, and routed to the PDF sink or the frontier; a ValueError from
normalize_url aborts the remaining links of the page and is reported as an
exception to the caller. -/
def processLinks (join : Str → Str → Str) (page : Str) (st : CrawlState)
    (queue : List Str) : List Str → CrawlState × List Str × Bool
  | [] => (st, queue, false)
  | h :: rest =>
    let full := join page (pyStrip h)
    if is_pdf full then
      match normalize_url full with
      | .error _ => (st, queue, true)
      | .ok normd =>
        if normd ∈ st.seenPdfs then processLinks join page st queue rest
        else
          processLinks join page
            { st with seenPdfs := normd :: st.seenPdfs,
                      seenPdfsLog := st.seenPdfsLog ++ [normd],
                      output := st.output ++ [normd],
                      totalPdfs := st.totalPdfs + 1 } queue rest
    else if is_allowed_path full ∧ full ∉ st.seenPages then
      processLinks join page st (queue ++ [full]) rest
    else processLinks join page st queue rest

/-- Embedding of the per-seed while loop: pop the frontier head, skip seen
or foreign URLs, record the page before fetching, then classify the
response. An uncaught ValueError from same_domain aborts the whole crawl. -/
def crawlLoop (join : Str → Str → Str) (fetch : Str → FetchResult)
    (seed : Str) (cap : Nat) :
    Nat → List Str → Nat → CrawlState → Except Unit CrawlState
  | 0, _, _, st => .ok st
  | _ + 1, [], _, st => .ok st
  | fuel + 1, url :: rest, pages, st =>
    if pages < cap then
      if url ∈ st.seenPages then crawlLoop join fetch seed cap fuel rest pages st
      else match same_domain seed url with
        | .error e => .error e
        | .ok false => crawlLoop join fetch seed cap fuel rest pages st
        | .ok true =>
          let st1 := { st with
            seenPages := url :: st.seenPages,
            seenPagesLog := st.seenPagesLog ++ [url],
            totalPages := st.totalPages + 1,
            fetched := st.fetched ++ [url] }
          match fetch url with
          | .response status hrefs =>
            if status ≠ 200 then
              crawlLoop join fetch seed cap fuel rest (pages + 1)
                (addError st1 (str "HTTP " ++ natToStr status))
            else
              let r := processLinks join url st1 rest hrefs
              crawlLoop join fetch seed cap fuel r.2.1 (pages + 1)
                (if r.2.2 then addError r.1 (str "Other error") else r.1)
          | .excTimeout =>
            crawlLoop join fetch seed cap fuel rest (pages + 1)
              (addError st1 (str "Timeout"))
          | .excConn =>
            crawlLoop join fetch seed cap fuel rest (pages + 1)
              (addError st1 (str "Connection error"))
          | .excHTTP =>
            crawlLoop join fetch seed cap fuel rest (pages + 1)
              (addError st1 (str "HTTP error"))
          | .excOther =>
            crawlLoop join fetch seed cap fuel rest (pages + 1)
              (addError st1 (str "Other error"))
    else .ok st

/-- Embedding of the outer seed loop of crawl: each seed is parsed for the
log line, then crawled from a fresh frontier and page counter over the
shared state. -/
def crawlSeeds (join : Str → Str → Str) (fetch : Str → FetchResult)
    (cap fuel : Nat) : List Str → CrawlState → Except Unit CrawlState
  | [], st => .ok st
  | seed :: rest, st => do
    let _ ← urlparse seed
    let st1 ← crawlLoop join fetch seed cap fuel [seed] 0 st
    crawlSeeds join fetch cap fuel rest st1

/-- Crawl state at first ever startup: empty stores, empty files. -/
def initState : CrawlState := ⟨[], [], [], [], [], [], 0, 0, []⟩

/-- Crawl state at the start of a later run: the seen sets and the durable
files persist, the per-run statistics and fetch record start fresh. -/
def resumeState (st : CrawlState) : CrawlState :=
  { st with fetched := [], totalPages := 0, totalPdfs := 0, errors := [] }

/-!
Concrete capabilities used to instantiate the crawl model in theorems.
-/

/-- Join capability for scenarios whose hrefs are already absolute. -/
def joinAbs : Str → Str → Str := fun _ h => h

/-- Page k of a synthetic infinite-link domain: the seed is page 0 and each
page extends the path by one more allowed segment. -/
def synthPage : Nat → Str
  | 0 => str "http://x.com/policy"
  | k + 1 => synthPage k ++ str "/policy"

/-- Fetch capability of the synthetic infinite-link domain: every page
responds 200 with a single link to the next page. -/
def synthFetch (u : Str) : FetchResult := .response 200 [u ++ str "/policy"]

/-- Fetch capability of the dedup scenario: the seed page carries the same
PDF in two spellings that normalize identically; all other pages are
empty. -/
def twoSpellFetch (u : Str) : FetchResult :=
  if u = str "http://x.com/policy" then
    .response 200 [str "http://x.com/p.pdf?utm_source=a",
                   str "http://x.com/p.pdf#frag"]
  else .response 200 []

/-!
Derived notions used to state the parse lemmas.
-/

/-- Last slash-separated segment of a path, the unit inspected by the
parameter split. -/
def lastSeg (p : Str) : Str :=
  match splitLast '/' p with
  | some pr => pr.2
  | none => p

/-- Shape of a multi-map produced by parse_qs: keys are distinct and every
value list is nonempty. -/
def GoodDict (d : List (Str × List Str)) : Prop :=
  (d.map Prod.fst).Nodup ∧ ∀ kv ∈ d, kv.2 ≠ []

/-- Character class of the quote_plus output alphabet. -/
def qpChar (c : Char) : Bool :=
  isSafeByte c.toNat || decide (c = '+') || decide (c = '%')

/-- Character class of the urlencode output alphabet. -/
def encChar (c : Char) : Bool :=
  qpChar c || decide (c = '=') || decide (c = '&')

/-- One encoded key equals value field of urlencode. -/
def encField (p : Str × Str) : Str := quotePlus p.1 ++ '=' :: quotePlus p.2

/-- The flat key value pair list underlying a multi-map. -/
def flatPairs (d : List (Str × List Str)) : List (Str × Str) :=
  d.foldr (fun kv acc => kv.2.map (fun v => (kv.1, v)) ++ acc) []

/-- Invariant of the PDF sink: the output stream is duplicate-free and
contained in the in-memory seen set, and everything recorded in the seen
set, the durable seen file or the output stream is the normalize_url image
of some URL. -/
def PdfInv (st : CrawlState) : Prop :=
  st.output.Nodup ∧
  (∀ v ∈ st.output, v ∈ st.seenPdfs) ∧
  (∀ v, v ∈ st.seenPdfs ∨ v ∈ st.seenPdfsLog ∨ v ∈ st.output →
    ∃ u0, normalize_url u0 = .ok v)

/-!
Basic lemmas about the character and string model.
-/

theorem splitFirst_length {c : Char} :
    ∀ {s a b : Str}, splitFirst c s = some (a, b) → b.length < s.length := by
  intro s
  induction s with
  | nil => intro a b h; simp [splitFirst] at h
  | cons x xs ih =>
    intro a b h
    simp only [splitFirst] at h
    by_cases hx : x = c
    · simp [hx] at h
      simp [← h.2, List.length_cons]
    · simp [hx] at h
      cases hsp : splitFirst c xs with
      | none => rw [hsp] at h; simp at h
      | some p =>
        rw [hsp] at h
        simp at h
        have := ih (a := p.1) (b := p.2) (by rw [hsp])
        simp [← h.2, List.length_cons]; omega

theorem char_toNat_ofNat {n : Nat} (h : n.isValidChar) :
    (Char.ofNat n).toNat = n := by
  rw [Char.ofNat, dif_pos h]; rfl

theorem lowerChar_toNat (c : Char) :
    (lowerChar c).toNat =
      if 65 ≤ c.toNat ∧ c.toNat ≤ 90 then c.toNat + 32 else c.toNat := by
  unfold lowerChar
  split
  · next h => exact char_toNat_ofNat (Or.inl (by omega))
  · rfl

theorem lowerChar_idem (c : Char) : lowerChar (lowerChar c) = lowerChar c := by
  by_cases h : 65 ≤ c.toNat ∧ c.toNat ≤ 90
  · have ht : (lowerChar c).toNat = c.toNat + 32 := by
      rw [lowerChar_toNat, if_pos h]
    rw [lowerChar, if_neg (by omega)]
  · have hc : lowerChar c = c := by rw [lowerChar, if_neg h]
    rw [hc, hc]

theorem map_fix {f : Char → Char} :
    ∀ {l : Str}, (∀ c ∈ l, f c = c) → l.map f = l := by
  intro l
  induction l with
  | nil => intro _; rfl
  | cons x xs ih =>
    intro h
    simp only [List.map_cons]
    rw [h x (by simp), ih (fun c hc => h c (by simp [hc]))]

theorem pyLower_idem (s : Str) : pyLower (pyLower s) = pyLower s := by
  unfold pyLower
  apply map_fix
  intro c hc
  obtain ⟨d, _, rfl⟩ := List.mem_map.mp hc
  exact lowerChar_idem d

theorem leadMatch_refl_append : ∀ (x y : Str), leadMatch x (x ++ y) = true := by
  intro x
  induction x with
  | nil => intro y; rfl
  | cons a as ih => intro y; simp [leadMatch, ih]

theorem endsW_append (a b : Str) : endsW (a ++ b) b = true := by
  unfold endsW
  rw [List.reverse_append]
  exact leadMatch_refl_append _ _

theorem keepChar_subNonWord (c : Char) : keepChar (subNonWord c) = true := by
  unfold subNonWord
  split
  · next h => exact h
  · decide

theorem lowerChar_fix_subNonWord (c : Char) :
    lowerChar (subNonWord (lowerChar c)) = subNonWord (lowerChar c) := by
  unfold subNonWord
  split
  · exact lowerChar_idem c
  · decide

/-!
Properties of the ingestor filename derivation (claim C9).
-/

theorem preTruncName_chars (u : Str) :
    ∀ c ∈ preTruncName u, keepChar c = true ∧ lowerChar c = c := by
  intro c hc
  simp only [preTruncName] at hc
  have hmem : c ∈ (pyLower (rawName u)).map subNonWord ∨ c ∈ str ".pdf" := by
    split at hc
    · exact Or.inl hc
    · rcases List.mem_append.mp hc with h | h
      exacts [Or.inl h, Or.inr h]
  rcases hmem with h | h
  · obtain ⟨d, hd, rfl⟩ := List.mem_map.mp h
    exact ⟨keepChar_subNonWord _, by
      unfold pyLower at hd
      obtain ⟨e, _, rfl⟩ := List.mem_map.mp hd
      exact lowerChar_fix_subNonWord _⟩
  · exact (by decide : ∀ x ∈ str ".pdf", keepChar x = true ∧ lowerChar x = x) c h

theorem preTruncName_endsW (u : Str) :
    endsW (preTruncName u) (str ".pdf") = true := by
  simp only [preTruncName]
  split
  · next h => exact h
  · exact endsW_append _ _

theorem exc_bind_ok {α β : Type} (a : α) (f : α → Except Unit β) :
    (Except.ok a >>= f) = f a := rfl

theorem exc_bind_error {α β : Type} (f : α → Except Unit β) :
    ((Except.error () : Except Unit α) >>= f) = Except.error () := rfl

theorem exc_pure {α : Type} (a : α) : (pure a : Except Unit α) = Except.ok a := rfl

/-!
Characterization of the filter stage (claim C8).
-/

theorem should_keep_eq (u : Str) (fn : Str) (h : extract_filename u = .ok fn) :
    should_keep u = .ok (endsW fn (str ".pdf") &&
      !DROP_KEYWORDS.any (fun d => strHas fn d) &&
      KEEP_KEYWORDS.any (fun k => strHas fn k)) := by
  unfold should_keep
  rw [h, exc_bind_ok]
  cases hE : endsW fn (str ".pdf")
  · simp [hE, exc_pure]
  · cases hD : DROP_KEYWORDS.any (fun d => strHas fn d)
    · simp [hE, hD, exc_pure]
    · simp [hE, hD, exc_pure]

theorem filterRun_go :
    ∀ (urls : List Str) (acc kd : List Str × List Str),
      urls.foldlM (fun acc u => do
        let k ← should_keep u
        pure (if k then (acc.1 ++ [u], acc.2) else (acc.1, acc.2 ++ [u]))) acc
        = .ok kd →
      kd.1 = acc.1 ++ urls.filter (fun u => decide (should_keep u = .ok true)) ∧
      kd.2 = acc.2 ++ urls.filter (fun u => decide (should_keep u = .ok false)) := by
  intro urls
  induction urls with
  | nil =>
    intro acc kd h
    simp only [List.foldlM_nil] at h
    cases h
    simp
  | cons u rest ih =>
    intro acc kd h
    simp only [List.foldlM_cons] at h
    cases hk : should_keep u with
    | error e =>
      rw [hk] at h
      cases e
      rw [exc_bind_error] at h
      cases h
    | ok b =>
      rw [hk, exc_bind_ok, exc_pure, exc_bind_ok] at h
      cases b
      · have hr := ih _ _ h
        have h1 : (decide (should_keep u = .ok true)) = false := by
          simp [hk]
        have h2 : (decide (should_keep u = .ok false)) = true := by
          simp [hk]
        rw [List.filter_cons, List.filter_cons, h1, h2]
        simp only [if_false, if_true]
        refine ⟨hr.1, ?_⟩
        rw [hr.2]
        simp
      · have hr := ih _ _ h
        have h1 : (decide (should_keep u = .ok true)) = true := by
          simp [hk]
        have h2 : (decide (should_keep u = .ok false)) = false := by
          simp [hk]
        rw [List.filter_cons, List.filter_cons, h1, h2]
        simp only [if_false, if_true]
        refine ⟨?_, hr.2⟩
        rw [hr.1]
        simp

/-- C3: evaluation of the code at the failing inputs: normalize_domain uses
python lstrip with the character set of the string www. and therefore drops
every leading w or dot, mangling hosts that merely begin with those
characters; the intended www case still happens to work, which marks the
lstrip call as a slip rather than a design choice. -/
theorem c3_normalize_domain_lstrip_bug :
    normalize_domain (str "web.com") = str "eb.com" ∧
    normalize_domain (str "wwww.example.com") = str "example.com" ∧
    normalize_domain (str "www.acme.com") = normalize_domain (str "acme.com") := by
  refine ⟨by decide, by decide, by decide⟩

/-- C8 (amended): the filter stage extracts the lowercased final path
segment of the parsed path as the filename and accepts a URL exactly when
that filename ends in .pdf, contains no drop keyword and contains at least
one keep keyword; the run loop routes accepted URLs to the policy stream
and all others to the filtered stream, both in input order. -/
theorem c8_filter_keyword_rule :
    (∀ u fn, extract_filename u = .ok fn →
      should_keep u = .ok (endsW fn (str ".pdf") &&
        !DROP_KEYWORDS.any (fun d => strHas fn d) &&
        KEEP_KEYWORDS.any (fun k => strHas fn k))) ∧
    (∀ urls kd, filterRun urls = .ok kd →
      kd.1 = urls.filter (fun u => decide (should_keep u = .ok true)) ∧
      kd.2 = urls.filter (fun u => decide (should_keep u = .ok false))) := by
  constructor
  · exact should_keep_eq
  · intro urls kd h
    have hg := filterRun_go urls ([], []) kd h
    simpa using hg

/-- C8 witness: the keyword rule evaluated on a concrete accepted URL. -/
theorem c8_witness :
    should_keep (str "https://x.com/home-policy.pdf") =
      .ok (endsW (str "home-policy.pdf") (str ".pdf") &&
        !DROP_KEYWORDS.any (fun d => strHas (str "home-policy.pdf") d) &&
        KEEP_KEYWORDS.any (fun k => strHas (str "home-policy.pdf") k)) :=
  c8_filter_keyword_rule.1 (str "https://x.com/home-policy.pdf")
    (str "home-policy.pdf") (by decide)

/-- C8 counterexample: a filename that carries a keep keyword and no drop
keyword is still rejected because it does not end in .pdf, refuting the
claimed if-and-only-if. -/
theorem c8_counterexample :
    should_keep (str "https://x.com/policy") = .ok false ∧
    extract_filename (str "https://x.com/policy") = .ok (str "policy") ∧
    KEEP_KEYWORDS.any (fun k => strHas (str "policy") k) = true ∧
    DROP_KEYWORDS.any (fun d => strHas (str "policy") d) = false := by
  refine ⟨by decide, by decide, by decide, by decide⟩

/-- C9 (amended): the filename derived by safe_filename is lowercase,
consists only of word characters, dots and hyphens, and is at most 200
characters long; it moreover ends in .pdf whenever the name before the
final truncation fits within the 200-character cap. Because the code
truncates after appending the suffix, a longer name can lose the forced
suffix. -/
theorem c9_safe_filename_amended (u : Str) :
    (safe_filename u).length ≤ 200 ∧
    (∀ c ∈ safe_filename u, keepChar c = true) ∧
    pyLower (safe_filename u) = safe_filename u ∧
    ((preTruncName u).length ≤ 200 →
      endsW (safe_filename u) (str ".pdf") = true) := by
  have hsub : ∀ c ∈ safe_filename u, keepChar c = true ∧ lowerChar c = c :=
    fun c hc => preTruncName_chars u c (List.take_subset _ _ hc)
  refine ⟨?_, fun c hc => (hsub c hc).1, ?_, ?_⟩
  · unfold safe_filename
    rw [List.length_take]
    exact Nat.min_le_left _ _
  · exact map_fix (fun c hc => (hsub c hc).2)
  · intro hlen
    unfold safe_filename
    rw [List.take_of_length_le hlen]
    exact preTruncName_endsW u

/-- C9 witness: the amended properties evaluated on a concrete URL whose
untruncated name fits the cap. -/
theorem c9_witness :
    (preTruncName (str "http://x.com/a.pdf")).length ≤ 200 ∧
    endsW (safe_filename (str "http://x.com/a.pdf")) (str ".pdf") = true :=
  ⟨by decide, (c9_safe_filename_amended (str "http://x.com/a.pdf")).2.2.2 (by decide)⟩

/-- C9 counterexample: a URL whose final segment has 250 characters yields
a 200-character filename that does not end in .pdf, refuting the claimed
simultaneity of the forced suffix and the length cap. -/
theorem c9_counterexample :
    endsW (safe_filename (List.replicate 250 'h')) (str ".pdf") = false ∧
    (safe_filename (List.replicate 250 'h')).length = 200 := by
  refine ⟨by decide, by decide⟩

/-!
Foundational lemmas about the string splitters.
-/

theorem splitFirst_some {c : Char} :
    ∀ {s a b : Str}, splitFirst c s = some (a, b) → s = a ++ c :: b ∧ c ∉ a := by
  intro s
  induction s with
  | nil => intro a b h; simp [splitFirst] at h
  | cons x xs ih =>
    intro a b h
    simp only [splitFirst] at h
    by_cases hx : x = c
    · simp [hx] at h
      obtain ⟨rfl, rfl⟩ := h
      exact ⟨by simp [hx], by simp⟩
    · simp [hx] at h
      cases hsp : splitFirst c xs with
      | none => rw [hsp] at h; simp at h
      | some p =>
        rw [hsp] at h
        simp at h
        obtain ⟨hs, hna⟩ := ih (a := p.1) (b := p.2) (by rw [hsp])
        constructor
        · rw [← h.1, ← h.2]
          simp [hs]
        · rw [← h.1]
          simp [hna]
          intro hcx
          exact hx hcx.symm

theorem splitFirst_of_parts {c : Char} :
    ∀ {a : Str} (b : Str), c ∉ a → splitFirst c (a ++ c :: b) = some (a, b) := by
  intro a
  induction a with
  | nil => intro b _; simp [splitFirst]
  | cons x xs ih =>
    intro b h
    have hx : ¬(x = c) := fun hh => h (by simp [hh])
    simp only [List.cons_append, splitFirst, if_neg hx]
    simp only [List.append_eq]
    rw [ih b (fun hh => h (by simp [hh]))]

theorem splitFirst_none_of_not_mem {c : Char} :
    ∀ {s : Str}, c ∉ s → splitFirst c s = none := by
  intro s
  induction s with
  | nil => intro _; rfl
  | cons x xs ih =>
    intro h
    have hx : ¬(x = c) := fun hh => h (by simp [hh])
    simp only [splitFirst, if_neg hx]
    rw [ih (fun hh => h (by simp [hh]))]

theorem splitFirst_none_mem {c : Char} :
    ∀ {s : Str}, splitFirst c s = none → c ∉ s := by
  intro s
  induction s with
  | nil => intro _ h; simp at h
  | cons x xs ih =>
    intro h hc
    simp only [splitFirst] at h
    by_cases hx : x = c
    · simp [hx] at h
    · simp [hx] at h
      cases hsp : splitFirst c xs with
      | none =>
        rcases List.mem_cons.mp hc with h1 | h1
        · exact hx h1.symm
        · exact ih hsp h1
      | some p => rw [hsp] at h; simp at h

theorem splitAtFirst_no {c : Char} {s : Str} (h : c ∉ s) :
    splitAtFirst c s = (s, []) := by
  unfold splitAtFirst
  rw [splitFirst_none_of_not_mem h]

theorem splitAtFirst_parts {c : Char} {a : Str} (b : Str) (h : c ∉ a) :
    splitAtFirst c (a ++ c :: b) = (a, b) := by
  unfold splitAtFirst
  rw [splitFirst_of_parts b h]

theorem splitLast_some {c : Char} {s a b : Str}
    (h : splitLast c s = some (a, b)) : s = a ++ c :: b ∧ c ∉ b := by
  unfold splitLast at h
  cases hsp : splitFirst c s.reverse with
  | none => rw [hsp] at h; simp at h
  | some p =>
    rw [hsp] at h
    simp at h
    obtain ⟨hs, hna⟩ := splitFirst_some hsp
    have : s = p.2.reverse ++ c :: p.1.reverse := by
      have := congrArg List.reverse hs
      simpa [List.reverse_append] using this
    constructor
    · rw [← h.1, ← h.2]; exact this
    · rw [← h.2]; simpa using hna

theorem splitLast_none {c : Char} {s : Str} (h : splitLast c s = none) :
    c ∉ s := by
  unfold splitLast at h
  cases hsp : splitFirst c s.reverse with
  | none =>
    intro hc
    exact splitFirst_none_mem hsp (by simpa using hc)
  | some p => rw [hsp] at h; simp at h

theorem takeWhile_all {p : Char → Bool} :
    ∀ {s : Str}, (∀ c ∈ s, p c = true) →
      s.takeWhile p = s ∧ s.dropWhile p = [] := by
  intro s
  induction s with
  | nil => intro _; exact ⟨rfl, rfl⟩
  | cons x xs ih =>
    intro h
    have hx : p x = true := h x (by simp)
    have := ih (fun c hc => h c (by simp [hc]))
    simp [List.takeWhile_cons, List.dropWhile_cons, hx, this.1, this.2]

theorem takeWhile_middle {p : Char → Bool} {a : Str} {c : Char} (b : Str)
    (ha : ∀ x ∈ a, p x = true) (hc : p c = false) :
    (a ++ c :: b).takeWhile p = a ∧ (a ++ c :: b).dropWhile p = c :: b := by
  induction a with
  | nil => simp [List.takeWhile_cons, List.dropWhile_cons, hc]
  | cons x xs ih =>
    have hx : p x = true := ha x (by simp)
    have := ih (fun y hy => ha y (by simp [hy]))
    simp [List.takeWhile_cons, List.dropWhile_cons, hx, this.1, this.2]

theorem splitNetloc_cons (rest : Str) :
    splitNetloc ('/' :: '/' :: rest) =
      (rest.takeWhile notNetlocDelim, rest.dropWhile notNetlocDelim) := by
  unfold splitNetloc
  rw [if_pos (show List.take 2 ('/' :: '/' :: rest) = ['/', '/'] from rfl)]
  rfl

theorem splitNetloc_not {u : Str} (h : u.take 2 ≠ ['/', '/']) :
    splitNetloc u = ([], u) := by
  unfold splitNetloc
  rw [if_neg h]

theorem leadMatch_mem :
    ∀ {d h : Str}, leadMatch d h = true → ∀ c ∈ d, c ∈ h := by
  intro d
  induction d with
  | nil => intro h _ c hc; simp at hc
  | cons x xs ih =>
    intro h hm c hc
    cases h with
    | nil => simp [leadMatch] at hm
    | cons y ys =>
      simp only [leadMatch, Bool.and_eq_true] at hm
      have hxy : x = y := of_decide_eq_true hm.1
      rcases List.mem_cons.mp hc with h1 | h1
      · simp [h1, ← hxy]
      · exact List.mem_cons_of_mem _ (ih hm.2 c h1)

theorem strHas_sub :
    ∀ {s d : Str}, strHas s d = true → ∀ c ∈ d, c ∈ s := by
  intro s
  induction s with
  | nil =>
    intro d h c hc
    cases d with
    | nil => simp at hc
    | cons x xs => simp [strHas, leadMatch] at h
  | cons x xs ih =>
    intro d h c hc
    simp only [strHas, Bool.or_eq_true] at h
    rcases h with h | h
    · exact leadMatch_mem h c hc
    · exact List.mem_cons_of_mem _ (ih h c hc)

theorem strHas_false_of_missing {s d : Str} {c : Char} (hc : c ∈ d)
    (hn : c ∉ s) : strHas s d = false := by
  cases h : strHas s d
  · rfl
  · exact absurd (strHas_sub h c hc) hn

theorem strHas_nil : ∀ b : Str, strHas b [] = true := by
  intro b
  cases b with
  | nil => rfl
  | cons x t => simp [strHas, leadMatch]

theorem strHas_contains (a d b : Str) : strHas (a ++ (d ++ b)) d = true := by
  induction a with
  | nil =>
    cases d with
    | nil => simp [strHas_nil]
    | cons x xs =>
      simp only [List.nil_append, List.cons_append, strHas]
      have : leadMatch (x :: xs) (x :: (xs ++ b)) = true := by
        have := leadMatch_refl_append (x :: xs) b
        simpa using this
      simp [this]
  | cons y ys ih =>
    simp only [List.cons_append, strHas]
    simp [ih]

/-!
Reassembly lemmas for the parser components.
-/

theorem splitScheme_parts {c0 : Char} {cs rest : Str}
    (h2 : isAsciiAlpha c0 = true) (h3 : ((c0 :: cs).all isSchemeChar) = true) :
    splitScheme ((c0 :: cs) ++ ':' :: rest) = (pyLower (c0 :: cs), rest) := by
  have hnotin : ':' ∉ (c0 :: cs) := by
    intro hmem
    have := List.all_eq_true.mp h3 _ hmem
    simp [isSchemeChar, isAsciiAlpha, isAsciiDigit] at this
  unfold splitScheme
  rw [splitFirst_of_parts rest hnotin]
  simp [h2, h3]

theorem splitPar_no_semi {p : Str} (h : ';' ∉ p) : splitPar p = (p, []) := by
  unfold splitPar
  cases hsl : splitLast '/' p with
  | none =>
    rw [splitFirst_none_of_not_mem h]
  | some pr =>
    obtain ⟨a, seg⟩ := pr
    have hseg : ';' ∉ seg := by
      intro hmem
      obtain ⟨hp, _⟩ := splitLast_some hsl
      exact h (by rw [hp]; simp [hmem])
    simp [splitFirst_none_of_not_mem hseg]

/-!
Facts about the synthetic infinite-link domain (claim C5).
-/

theorem synthPage_decomp (k : Nat) :
    ∃ t, synthPage k = str "http://x.com" ++ (str "/policy" ++ t) ∧
      ∀ c ∈ t, c ∈ str "/policy" := by
  induction k with
  | zero => exact ⟨[], by decide, by intro c hc; simp at hc⟩
  | succ k ih =>
    obtain ⟨t, ht, hc⟩ := ih
    refine ⟨t ++ str "/policy", ?_, ?_⟩
    · rw [synthPage, ht]
      simp [List.append_assoc]
    · intro c hmem
      rcases List.mem_append.mp hmem with h | h
      · exact hc c h
      · exact h

theorem synthPage_chars (k : Nat) :
    ∀ c ∈ synthPage k, c ∈ str "http://x.com/policy" := by
  obtain ⟨t, ht, hc⟩ := synthPage_decomp k
  intro c hmem
  rw [ht] at hmem
  rcases List.mem_append.mp hmem with h | h
  · exact (by decide : ∀ x ∈ str "http://x.com", x ∈ str "http://x.com/policy") c h
  · rcases List.mem_append.mp h with h1 | h1
    · exact (by decide : ∀ x ∈ str "/policy", x ∈ str "http://x.com/policy") c h1
    · exact (by decide : ∀ x ∈ str "/policy", x ∈ str "http://x.com/policy") c (hc c h1)

theorem synthPage_head (k : Nat) :
    ∃ t, synthPage k = 'h' :: t := by
  obtain ⟨t, ht, _⟩ := synthPage_decomp k
  exact ⟨str "ttp://x.com" ++ (str "/policy" ++ t), by rw [ht]; rfl⟩

theorem synthPage_rev (k : Nat) :
    ∃ t, (synthPage k).reverse = 'y' :: t := by
  induction k with
  | zero => exact ⟨str "cilop/moc.x//:ptth", by decide⟩
  | succ k ih =>
    exact ⟨str "cilop/" ++ (synthPage k).reverse, by
      rw [synthPage, List.reverse_append]; rfl⟩

theorem synthPage_length (k : Nat) : (synthPage k).length = 19 + 7 * k := by
  induction k with
  | zero => decide
  | succ k ih =>
    rw [synthPage, List.length_append, ih]
    simp [str]
    omega

theorem synthPage_ne {j k : Nat} (h : j ≠ k) : synthPage j ≠ synthPage k := by
  intro heq
  have := congrArg List.length heq
  rw [synthPage_length, synthPage_length] at this
  omega

theorem synthPage_clean (k : Nat) : cleanUrl (synthPage k) = synthPage k := by
  unfold cleanUrl
  obtain ⟨t, ht⟩ := synthPage_head k
  have hdrop : (synthPage k).dropWhile isC0OrSpace = synthPage k := by
    rw [ht, List.dropWhile_cons]
    simp [show isC0OrSpace 'h' = false by decide]
  rw [hdrop]
  rw [List.filter_eq_self.mpr]
  intro c hc
  exact (by decide : ∀ x ∈ str "http://x.com/policy", (!isTRN x) = true) c
    (synthPage_chars k c hc)

theorem synthPage_lower (k : Nat) : pyLower (synthPage k) = synthPage k := by
  apply map_fix
  intro c hc
  exact (by decide : ∀ x ∈ str "http://x.com/policy", lowerChar x = x) c
    (synthPage_chars k c hc)

theorem synthPage_strip (k : Nat) : pyStrip (synthPage k) = synthPage k := by
  unfold pyStrip
  obtain ⟨t, hh⟩ := synthPage_head k
  obtain ⟨r, hr⟩ := synthPage_rev k
  have h1 : (synthPage k).dropWhile isPySpace = synthPage k := by
    rw [hh, List.dropWhile_cons]
    simp [show isPySpace 'h' = false by decide]
  rw [h1, hr, List.dropWhile_cons]
  simp only [show isPySpace 'y' = false by decide, Bool.false_eq_true, if_false]
  rw [← hr, List.reverse_reverse]

theorem synthPage_not_pdf (k : Nat) : is_pdf (synthPage k) = false := by
  obtain ⟨t, hrev⟩ := synthPage_rev k
  unfold is_pdf
  rw [synthPage_lower]
  have h1 : (synthPage k).takeWhile (fun c => !decide (c = '?')) = synthPage k :=
    (takeWhile_all (fun c hc =>
      (by decide : ∀ x ∈ str "http://x.com/policy", (!decide (x = '?')) = true)
        c (synthPage_chars k c hc))).1
  rw [h1]
  have h2 : (synthPage k).takeWhile (fun c => !decide (c = '#')) = synthPage k :=
    (takeWhile_all (fun c hc =>
      (by decide : ∀ x ∈ str "http://x.com/policy", (!decide (x = '#')) = true)
        c (synthPage_chars k c hc))).1
  rw [h2]
  unfold endsW
  rw [hrev]
  show leadMatch ['f', 'd', 'p', '.'] ('y' :: t) = false
  simp [leadMatch]

theorem synthPage_allowed (k : Nat) : is_allowed_path (synthPage k) = true := by
  have hmiss : ∀ c0 : Char, c0 ∉ str "http://x.com/policy" → c0 ∉ synthPage k :=
    fun c0 hn hmem => hn (synthPage_chars k c0 hmem)
  simp only [is_allowed_path]
  rw [synthPage_lower]
  have hdeny : DENY_PATH_KEYWORDS.any (fun d => strHas (synthPage k) d) = false := by
    apply List.any_eq_false.mpr
    intro d hd
    rw [Bool.not_eq_true]
    simp only [DENY_PATH_KEYWORDS, List.mem_cons, List.not_mem_nil, or_false] at hd
    rcases hd with rfl | rfl | rfl | rfl | rfl | rfl | rfl | rfl | rfl | rfl | rfl | rfl | rfl
    · refine strHas_false_of_missing (c := 'e') ?_ (hmiss 'e' ?_) <;> decide
    · refine strHas_false_of_missing (c := 'e') ?_ (hmiss 'e' ?_) <;> decide
    · refine strHas_false_of_missing (c := 'e') ?_ (hmiss 'e' ?_) <;> decide
    · refine strHas_false_of_missing (c := 'e') ?_ (hmiss 'e' ?_) <;> decide
    · refine strHas_false_of_missing (c := 'b') ?_ (hmiss 'b' ?_) <;> decide
    · refine strHas_false_of_missing (c := 'e') ?_ (hmiss 'e' ?_) <;> decide
    · refine strHas_false_of_missing (c := 'e') ?_ (hmiss 'e' ?_) <;> decide
    · refine strHas_false_of_missing (c := 'e') ?_ (hmiss 'e' ?_) <;> decide
    · refine strHas_false_of_missing (c := 'e') ?_ (hmiss 'e' ?_) <;> decide
    · refine strHas_false_of_missing (c := 'b') ?_ (hmiss 'b' ?_) <;> decide
    · refine strHas_false_of_missing (c := 'e') ?_ (hmiss 'e' ?_) <;> decide
    · refine strHas_false_of_missing (c := 'e') ?_ (hmiss 'e' ?_) <;> decide
    · refine strHas_false_of_missing (c := 'e') ?_ (hmiss 'e' ?_) <;> decide
  rw [hdeny]
  simp only [Bool.false_eq_true, if_false]
  apply List.any_eq_true.mpr
  refine ⟨str "/policy", by simp [ALLOWED_PATH_KEYWORDS], ?_⟩
  obtain ⟨t, ht, _⟩ := synthPage_decomp k
  rw [ht]
  exact strHas_contains _ _ _

theorem synthPage_parse (k : Nat) :
    ∃ pa, urlparse (synthPage k) =
      .ok ⟨str "http", str "x.com", pa, [], [], []⟩ := by
  obtain ⟨t, ht, hc⟩ := synthPage_decomp k
  have hchars : ∀ c0 : Char, c0 ∈ ('/' :: (str "policy" ++ t) : Str) →
      c0 ∈ str "/policy" := by
    intro c0 hc0
    rcases List.mem_cons.mp hc0 with h | h
    · rw [h]; decide
    · rcases List.mem_append.mp h with h1 | h1
      · exact (by decide : ∀ x ∈ str "policy", x ∈ str "/policy") c0 h1
      · exact hc c0 h1
  have hscheme : splitScheme (synthPage k) =
      (str "http", str "//x.com" ++ (str "/policy" ++ t)) := by
    have hform : synthPage k =
        ('h' :: str "ttp") ++ ':' :: (str "//x.com" ++ (str "/policy" ++ t)) := by
      rw [ht]; rfl
    rw [hform]
    have h2 := @splitScheme_parts 'h' (str "ttp")
      (str "//x.com" ++ (str "/policy" ++ t)) (by decide) (by decide)
    rw [show pyLower ('h' :: str "ttp") = str "http" by decide] at h2
    exact h2
  have hnl : splitNetloc (str "//x.com" ++ (str "/policy" ++ t)) =
      (str "x.com", '/' :: (str "policy" ++ t)) := by
    show splitNetloc
      ('/' :: '/' :: (str "x.com" ++ '/' :: (str "policy" ++ t))) = _
    obtain ⟨h1, h2⟩ := takeWhile_middle (p := notNetlocDelim) (a := str "x.com")
      (c := '/') (str "policy" ++ t) (by decide) (by decide)
    rw [splitNetloc_cons]
    rw [h1, h2]
  have hfrag : splitAtFirst '#' ('/' :: (str "policy" ++ t)) =
      ('/' :: (str "policy" ++ t), []) :=
    splitAtFirst_no (fun hmem => absurd (hchars '#' hmem) (by decide))
  have hq : splitAtFirst '?' ('/' :: (str "policy" ++ t)) =
      ('/' :: (str "policy" ++ t), []) :=
    splitAtFirst_no (fun hmem => absurd (hchars '?' hmem) (by decide))
  have hpar : splitPar ('/' :: (str "policy" ++ t)) =
      ('/' :: (str "policy" ++ t), []) :=
    splitPar_no_semi (fun hmem => absurd (hchars ';' hmem) (by decide))
  refine ⟨'/' :: (str "policy" ++ t), ?_⟩
  unfold urlparse
  rw [synthPage_clean, hscheme]
  simp only
  rw [hnl]
  simp only
  rw [show brackBad (str "x.com") = false by decide]
  simp only [Bool.false_eq_true, if_false]
  rw [hfrag]
  simp only
  rw [hq]
  simp only
  rw [hpar]

theorem synthPage_same_domain (k : Nat) :
    same_domain (synthPage 0) (synthPage k) = .ok true := by
  obtain ⟨pa0, h0⟩ := synthPage_parse 0
  obtain ⟨pak, hk⟩ := synthPage_parse k
  unfold same_domain
  rw [h0, exc_bind_ok, hk, exc_bind_ok]
  simp [exc_pure]

theorem synth_loop (n : Nat) :
    ∀ (N k fuel : Nat) (st : CrawlState), N - k = n → k ≤ N → n ≤ fuel →
    st.seenPages = ((List.range k).map synthPage).reverse →
    ∃ st2, crawlLoop joinAbs synthFetch (synthPage 0) N fuel [synthPage k] k st
        = .ok st2 ∧
      st2.totalPages = st.totalPages + n ∧
      st2.fetched.length = st.fetched.length + n := by
  induction n with
  | zero =>
    intro N k fuel st hn hk _ _
    cases fuel with
    | zero => exact ⟨st, rfl, by omega, by omega⟩
    | succ f =>
      refine ⟨st, ?_, by omega, by omega⟩
      simp only [crawlLoop]
      rw [if_neg (by omega : ¬ k < N)]
  | succ n ih =>
    intro N k fuel st hn hk hfuel hseen
    have hkN : k < N := by omega
    cases fuel with
    | zero => omega
    | succ f =>
      have hnotseen : synthPage k ∉ st.seenPages := by
        rw [hseen]
        intro hmem
        rw [List.mem_reverse] at hmem
        obtain ⟨i, hi, heq⟩ := List.mem_map.mp hmem
        simp only [List.mem_range] at hi
        exact synthPage_ne (by omega : i ≠ k) heq
      set st1 : CrawlState := { st with
        seenPages := synthPage k :: st.seenPages,
        seenPagesLog := st.seenPagesLog ++ [synthPage k],
        totalPages := st.totalPages + 1,
        fetched := st.fetched ++ [synthPage k] } with hst1
      have hnot1 : synthPage (k + 1) ∉ st1.seenPages := by
        rw [hst1]
        intro hmem
        simp only [List.mem_cons] at hmem
        rcases hmem with h | h
        · exact synthPage_ne (by omega : k + 1 ≠ k) h
        · rw [hseen] at h
          rw [List.mem_reverse] at h
          obtain ⟨i, hi, heq⟩ := List.mem_map.mp h
          simp only [List.mem_range] at hi
          exact synthPage_ne (by omega : i ≠ k + 1) heq
      have hpl : processLinks joinAbs (synthPage k) st1 [] [synthPage (k + 1)] =
          (st1, [synthPage (k + 1)], false) := by
        simp only [processLinks, joinAbs]
        rw [synthPage_strip (k + 1), synthPage_not_pdf (k + 1)]
        simp only [Bool.false_eq_true, if_false]
        rw [if_pos ⟨synthPage_allowed (k + 1), hnot1⟩]
        simp only [processLinks, List.nil_append]
      have hstep : crawlLoop joinAbs synthFetch (synthPage 0) N (f + 1)
          [synthPage k] k st =
          crawlLoop joinAbs synthFetch (synthPage 0) N f
            [synthPage (k + 1)] (k + 1) st1 := by
        simp only [crawlLoop]
        rw [if_pos hkN, if_neg hnotseen, synthPage_same_domain k]
        show crawlLoop joinAbs synthFetch (synthPage 0) N f
            (processLinks joinAbs (synthPage k) st1 []
              [synthPage k ++ str "/policy"]).2.1 (k + 1)
            (if (processLinks joinAbs (synthPage k) st1 []
                [synthPage k ++ str "/policy"]).2.2 then
              addError (processLinks joinAbs (synthPage k) st1 []
                [synthPage k ++ str "/policy"]).1 (str "Other error")
            else (processLinks joinAbs (synthPage k) st1 []
                [synthPage k ++ str "/policy"]).1) = _
        rw [show (synthPage k ++ str "/policy" : Str) = synthPage (k + 1) from rfl]
        rw [hpl]
        simp
      obtain ⟨st2, hrec, ht, hf⟩ := ih N (k + 1) f st1 (by omega) (by omega)
        (by omega) (by rw [hst1]; simp [hseen, List.range_succ])
      refine ⟨st2, ?_, ?_, ?_⟩
      · rw [hstep]; exact hrec
      · rw [ht]
        simp only [hst1]
        omega
      · rw [hf]
        simp only [hst1, List.length_append, List.length_cons, List.length_nil]
        omega

/-- C5: crawling the synthetic infinite-link domain, whose every page yields
one further in-domain allowed link, with per-domain page cap N visits
exactly N pages: the loop increments the page counter once per processed
page, stops as soon as the counter reaches the cap, and issues exactly N
fetches. -/
theorem c5_domain_cap_exact (N fuel : Nat) (hfuel : N ≤ fuel) :
    ∃ st, crawlSeeds joinAbs synthFetch N fuel [synthPage 0] initState
        = .ok st ∧
      st.totalPages = N ∧ st.fetched.length = N := by
  obtain ⟨st2, hloop, ht, hf⟩ := synth_loop N N 0 fuel initState
    (by omega) (by omega) (by omega) (by simp [initState])
  refine ⟨st2, ?_, by simpa [initState] using ht, by simpa [initState] using hf⟩
  simp only [crawlSeeds]
  obtain ⟨pa, hp⟩ := synthPage_parse 0
  rw [hp, exc_bind_ok, hloop, exc_bind_ok]

/-- C5 witness: the cap theorem applied at cap two with fuel three. -/
theorem c5_witness :
    ∃ st, crawlSeeds joinAbs synthFetch 2 3 [synthPage 0] initState
        = .ok st ∧
      st.totalPages = 2 ∧ st.fetched.length = 2 :=
  c5_domain_cap_exact 2 3 (by decide)

/-- C10: a popped, unseen, same-domain page whose fetch returns any status
other than 200, including other 2xx codes, yields zero links and zero new
PDFs: the loop records the page, tallies the classified error category
HTTP status, leaves the PDF store, the output stream and the frontier
untouched, and continues with the next frontier entry. -/
theorem c10_non_200_yields_no_links
    (join : Str → Str → Str) (fetch : Str → FetchResult) (seed url : Str)
    (rest : List Str) (cap fuel pages : Nat) (st : CrawlState)
    (status : Nat) (hrefs : List Str)
    (hcap : pages < cap) (hseen : url ∉ st.seenPages)
    (hdom : same_domain seed url = .ok true)
    (hfetch : fetch url = .response status hrefs) (hst : status ≠ 200) :
    ∃ st1,
      crawlLoop join fetch seed cap (fuel + 1) (url :: rest) pages st =
        crawlLoop join fetch seed cap fuel rest (pages + 1) st1 ∧
      st1.seenPdfs = st.seenPdfs ∧ st1.seenPdfsLog = st.seenPdfsLog ∧
      st1.output = st.output ∧
      st1.errors = st.errors ++ [str "HTTP " ++ natToStr status] ∧
      st1.seenPages = url :: st.seenPages ∧
      st1.fetched = st.fetched ++ [url] := by
  refine ⟨addError { st with
      seenPages := url :: st.seenPages,
      seenPagesLog := st.seenPagesLog ++ [url],
      totalPages := st.totalPages + 1,
      fetched := st.fetched ++ [url] } (str "HTTP " ++ natToStr status),
    ?_, rfl, rfl, rfl, rfl, rfl, rfl⟩
  simp only [crawlLoop]
  rw [if_pos hcap, if_neg hseen, hdom, hfetch]
  simp only
  rw [if_pos hst]

/-- C10 witness: the theorem applied to a 201 response. -/
theorem c10_witness :
    ∃ st1,
      crawlLoop joinAbs (fun _ => FetchResult.response 201 [])
          (str "http://x.com/policy") 1 1 [str "http://x.com/policy"] 0
          initState =
        crawlLoop joinAbs (fun _ => FetchResult.response 201 [])
          (str "http://x.com/policy") 1 0 [] 1 st1 ∧
      st1.seenPdfs = initState.seenPdfs ∧
      st1.seenPdfsLog = initState.seenPdfsLog ∧
      st1.output = initState.output ∧
      st1.errors = initState.errors ++ [str "HTTP " ++ natToStr 201] ∧
      st1.seenPages = str "http://x.com/policy" :: initState.seenPages ∧
      st1.fetched = initState.fetched ++ [str "http://x.com/policy"] :=
  c10_non_200_yields_no_links joinAbs (fun _ => FetchResult.response 201 [])
    (str "http://x.com/policy") (str "http://x.com/policy") [] 1 0 0 initState
    201 [] (by decide) (by decide) (by decide) rfl (by decide)

/-!
Invariants of the crawl loop (claims C1 and C2).
-/

theorem processLinks_keeps (join : Str → Str → Str) (page : Str) :
    ∀ (hrefs : List Str) (st : CrawlState) (queue : List Str),
      (processLinks join page st queue hrefs).1.seenPages = st.seenPages ∧
      (processLinks join page st queue hrefs).1.seenPagesLog = st.seenPagesLog ∧
      (processLinks join page st queue hrefs).1.fetched = st.fetched := by
  intro hrefs
  induction hrefs with
  | nil => intro st queue; exact ⟨rfl, rfl, rfl⟩
  | cons h rest ih =>
    intro st queue
    simp only [processLinks]
    by_cases hpdf : is_pdf (join page (pyStrip h)) = true
    · rw [if_pos hpdf]
      cases hn : normalize_url (join page (pyStrip h)) with
      | error e => exact ⟨rfl, rfl, rfl⟩
      | ok normd =>
        dsimp only
        by_cases hel : normd ∈ st.seenPdfs
        · rw [if_pos hel]; exact ih st queue
        · rw [if_neg hel]; exact ih _ queue
    · rw [if_neg hpdf]
      by_cases hq : is_allowed_path (join page (pyStrip h)) = true ∧
          join page (pyStrip h) ∉ st.seenPages
      · rw [if_pos hq]; exact ih st _
      · rw [if_neg hq]; exact ih st queue

theorem same_domain_self {s : Str} {b : Bool}
    (h : same_domain s s = .ok b) : b = true := by
  unfold same_domain at h
  cases hp : urlparse s with
  | error e => rw [hp] at h; cases e; rw [exc_bind_error] at h; cases h
  | ok p =>
    rw [hp, exc_bind_ok, exc_bind_ok] at h
    simp [exc_pure] at h
    simp [h]

theorem nodup_append_single {α : Type} {l : List α} {a : α} (h : l.Nodup)
    (hn : a ∉ l) : (l ++ [a]).Nodup := by
  rw [List.nodup_append]
  refine ⟨h, List.nodup_singleton a, ?_⟩
  intro x hx hxa
  rw [List.mem_singleton] at hxa
  subst hxa
  exact hn hx

theorem crawlLoop_main (join : Str → Str → Str) (fetch : Str → FetchResult)
    (seed : Str) (cap : Nat) :
    ∀ (fuel : Nat) (queue : List Str) (pages : Nat) (st st2 : CrawlState),
      crawlLoop join fetch seed cap fuel queue pages st = .ok st2 →
      (∀ u ∈ st.seenPages, u ∈ st2.seenPages) ∧
      ((st.fetched.Nodup ∧
          ∀ u ∈ st.fetched, u ∈ st.seenPages ∧ u ∈ st.seenPagesLog) →
        (st2.fetched.Nodup ∧
          ∀ u ∈ st2.fetched, u ∈ st2.seenPages ∧ u ∈ st2.seenPagesLog)) := by
  intro fuel
  induction fuel with
  | zero =>
    intro queue pages st st2 h
    simp only [crawlLoop] at h
    cases h
    exact ⟨fun u hu => hu, fun hi => hi⟩
  | succ f ih =>
    intro queue pages st st2 h
    cases queue with
    | nil =>
      simp only [crawlLoop] at h
      cases h
      exact ⟨fun u hu => hu, fun hi => hi⟩
    | cons url rest =>
      simp only [crawlLoop] at h
      by_cases hcap : pages < cap
      · rw [if_pos hcap] at h
        by_cases hseen : url ∈ st.seenPages
        · rw [if_pos hseen] at h
          exact ih rest pages st st2 h
        · rw [if_neg hseen] at h
          cases hd : same_domain seed url with
          | error e => rw [hd] at h; dsimp only at h; cases h
          | ok b =>
            rw [hd] at h
            cases b with
            | false =>
              dsimp only at h
              exact ih rest pages st st2 h
            | true =>
              dsimp only at h
              have key : ∀ (st3 : CrawlState) (q3 : List Str),
                  st3.seenPages = url :: st.seenPages →
                  st3.seenPagesLog = st.seenPagesLog ++ [url] →
                  st3.fetched = st.fetched ++ [url] →
                  crawlLoop join fetch seed cap f q3 (pages + 1) st3
                    = .ok st2 →
                  (∀ u ∈ st.seenPages, u ∈ st2.seenPages) ∧
                  ((st.fetched.Nodup ∧
                      ∀ u ∈ st.fetched,
                        u ∈ st.seenPages ∧ u ∈ st.seenPagesLog) →
                    (st2.fetched.Nodup ∧
                      ∀ u ∈ st2.fetched,
                        u ∈ st2.seenPages ∧ u ∈ st2.seenPagesLog)) := by
                intro st3 q3 h1 h2 h3 hrec
                obtain ⟨m, invt⟩ := ih q3 (pages + 1) st3 st2 hrec
                constructor
                · intro u hu
                  exact m u (by rw [h1]; exact List.mem_cons_of_mem _ hu)
                · rintro ⟨hnd, hmem⟩
                  apply invt
                  constructor
                  · rw [h3]
                    exact nodup_append_single hnd
                      (fun hf => hseen (hmem url hf).1)
                  · intro u hu
                    rw [h3] at hu
                    rcases List.mem_append.mp hu with hu1 | hu1
                    · obtain ⟨ha, hb⟩ := hmem u hu1
                      exact ⟨by rw [h1]; exact List.mem_cons_of_mem _ ha,
                        by rw [h2]; exact List.mem_append_left _ hb⟩
                    · rw [List.mem_singleton] at hu1
                      subst hu1
                      exact ⟨by rw [h1]; simp, by rw [h2]; simp⟩
              cases hf : fetch url with
              | response status hrefs =>
                rw [hf] at h
                dsimp only at h
                by_cases hs : status ≠ 200
                · rw [if_pos hs] at h
                  exact key _ _ rfl rfl rfl h
                · rw [if_neg hs] at h
                  obtain ⟨k1, k2, k3⟩ := processLinks_keeps join url hrefs
                    { st with
                      seenPages := url :: st.seenPages,
                      seenPagesLog := st.seenPagesLog ++ [url],
                      totalPages := st.totalPages + 1,
                      fetched := st.fetched ++ [url] } rest
                  cases hexc : (processLinks join url
                      { st with
                        seenPages := url :: st.seenPages,
                        seenPagesLog := st.seenPagesLog ++ [url],
                        totalPages := st.totalPages + 1,
                        fetched := st.fetched ++ [url] } rest hrefs).2.2 with
                  | false =>
                    rw [hexc] at h
                    simp only [Bool.false_eq_true, if_false] at h
                    exact key _ _ k1 k2 k3 h
                  | true =>
                    rw [hexc] at h
                    simp only [if_true] at h
                    refine key _ _ ?_ ?_ ?_ h
                    · exact k1
                    · exact k2
                    · exact k3
              | excTimeout =>
                rw [hf] at h
                dsimp only at h
                exact key _ _ rfl rfl rfl h
              | excConn =>
                rw [hf] at h
                dsimp only at h
                exact key _ _ rfl rfl rfl h
              | excHTTP =>
                rw [hf] at h
                dsimp only at h
                exact key _ _ rfl rfl rfl h
              | excOther =>
                rw [hf] at h
                dsimp only at h
                exact key _ _ rfl rfl rfl h
      · rw [if_neg hcap] at h
        cases h
        exact ⟨fun u hu => hu, fun hi => hi⟩

theorem crawlLoop_sees_head (join : Str → Str → Str)
    (fetch : Str → FetchResult) (seed : Str) (cap : Nat) (f : Nat)
    (q : List Str) (st st2 : CrawlState)
    (h : crawlLoop join fetch seed cap (f + 1) (seed :: q) 0 st = .ok st2)
    (hcap : 0 < cap) : seed ∈ st2.seenPages := by
  simp only [crawlLoop] at h
  rw [if_pos hcap] at h
  by_cases hseen : seed ∈ st.seenPages
  · rw [if_pos hseen] at h
    exact (crawlLoop_main join fetch seed cap f q 0 st st2 h).1 seed hseen
  · rw [if_neg hseen] at h
    cases hd : same_domain seed seed with
    | error e => rw [hd] at h; dsimp only at h; cases h
    | ok b =>
      have hb := same_domain_self hd
      subst hb
      rw [hd] at h
      dsimp only at h
      have key2 : ∀ (st3 : CrawlState) (q3 : List Str),
          st3.seenPages = seed :: st.seenPages →
          crawlLoop join fetch seed cap f q3 1 st3 = .ok st2 →
          seed ∈ st2.seenPages := by
        intro st3 q3 h1 hrec
        exact (crawlLoop_main join fetch seed cap f q3 1 st3 st2 hrec).1 seed
          (by rw [h1]; simp)
      cases hf : fetch seed with
      | response status hrefs =>
        rw [hf] at h
        dsimp only at h
        by_cases hs : status ≠ 200
        · rw [if_pos hs] at h
          exact key2 _ _ rfl h
        · rw [if_neg hs] at h
          obtain ⟨k1, _, _⟩ := processLinks_keeps join seed hrefs
            { st with
              seenPages := seed :: st.seenPages,
              seenPagesLog := st.seenPagesLog ++ [seed],
              totalPages := st.totalPages + 1,
              fetched := st.fetched ++ [seed] } q
          cases hexc : (processLinks join seed
              { st with
                seenPages := seed :: st.seenPages,
                seenPagesLog := st.seenPagesLog ++ [seed],
                totalPages := st.totalPages + 1,
                fetched := st.fetched ++ [seed] } q hrefs).2.2 with
          | false =>
            rw [hexc] at h
            simp only [Bool.false_eq_true, if_false] at h
            exact key2 _ _ k1 h
          | true =>
            rw [hexc] at h
            simp only [if_true] at h
            refine key2 _ _ ?_ h
            exact k1
      | excTimeout =>
        rw [hf] at h
        dsimp only at h
        exact key2 _ _ rfl h
      | excConn =>
        rw [hf] at h
        dsimp only at h
        exact key2 _ _ rfl h
      | excHTTP =>
        rw [hf] at h
        dsimp only at h
        exact key2 _ _ rfl h
      | excOther =>
        rw [hf] at h
        dsimp only at h
        exact key2 _ _ rfl h

theorem crawlLoop_noop (join : Str → Str → Str) (fetch : Str → FetchResult)
    (seed : Str) (cap fuel : Nat) (st : CrawlState)
    (h : seed ∈ st.seenPages ∨ cap = 0 ∨ fuel = 0) :
    crawlLoop join fetch seed cap fuel [seed] 0 st = .ok st := by
  cases fuel with
  | zero => rfl
  | succ f =>
    simp only [crawlLoop]
    by_cases hcap : 0 < cap
    · rw [if_pos hcap]
      have hseen : seed ∈ st.seenPages := by
        rcases h with h | h | h
        · exact h
        · omega
        · omega
      rw [if_pos hseen]
      cases f with
      | zero => rfl
      | succ f2 => rfl
    · rw [if_neg hcap]

theorem crawlSeeds_main (join : Str → Str → Str) (fetch : Str → FetchResult)
    (cap fuel : Nat) :
    ∀ (seeds : List Str) (st s1 : CrawlState),
      crawlSeeds join fetch cap fuel seeds st = .ok s1 →
      (∀ u ∈ st.seenPages, u ∈ s1.seenPages) ∧
      ((st.fetched.Nodup ∧
          ∀ u ∈ st.fetched, u ∈ st.seenPages ∧ u ∈ st.seenPagesLog) →
        (s1.fetched.Nodup ∧
          ∀ u ∈ s1.fetched, u ∈ s1.seenPages ∧ u ∈ s1.seenPagesLog)) ∧
      (∀ seed ∈ seeds, (∃ p, urlparse seed = .ok p) ∧
        (0 < cap → 0 < fuel → seed ∈ s1.seenPages)) := by
  intro seeds
  induction seeds with
  | nil =>
    intro st s1 h
    simp only [crawlSeeds] at h
    cases h
    exact ⟨fun u hu => hu, fun hi => hi, by simp⟩
  | cons seed rest ih =>
    intro st s1 h
    simp only [crawlSeeds] at h
    cases hp : urlparse seed with
    | error e => rw [hp] at h; cases e; rw [exc_bind_error] at h; cases h
    | ok p =>
      rw [hp, exc_bind_ok] at h
      cases hl : crawlLoop join fetch seed cap fuel [seed] 0 st with
      | error e => rw [hl] at h; cases e; rw [exc_bind_error] at h; cases h
      | ok stm =>
        rw [hl, exc_bind_ok] at h
        obtain ⟨m1, i1⟩ :=
          crawlLoop_main join fetch seed cap fuel [seed] 0 st stm hl
        obtain ⟨m2, i2, hs⟩ := ih stm s1 h
        refine ⟨fun u hu => m2 u (m1 u hu), fun hi => i2 (i1 hi), ?_⟩
        intro sd hsd
        rcases List.mem_cons.mp hsd with rfl | hmem
        · refine ⟨⟨p, hp⟩, fun hcap hfuel => ?_⟩
          obtain ⟨f, rfl⟩ : ∃ f, fuel = f + 1 := ⟨fuel - 1, by omega⟩
          exact m2 _ (crawlLoop_sees_head join fetch sd cap f [] st stm hl hcap)
        · exact hs sd hmem

theorem crawlSeeds_resume (join : Str → Str → Str)
    (fetch : Str → FetchResult) (cap fuel : Nat) :
    ∀ (seeds : List Str) (st : CrawlState),
      (∀ seed ∈ seeds, (∃ p, urlparse seed = .ok p) ∧
        (seed ∈ st.seenPages ∨ cap = 0 ∨ fuel = 0)) →
      crawlSeeds join fetch cap fuel seeds st = .ok st := by
  intro seeds
  induction seeds with
  | nil => intro st _; rfl
  | cons seed rest ih =>
    intro st hcond
    obtain ⟨⟨p, hp⟩, hnoop⟩ := hcond seed (by simp)
    simp only [crawlSeeds]
    rw [hp, exc_bind_ok,
      crawlLoop_noop join fetch seed cap fuel st hnoop, exc_bind_ok]
    exact ih st (fun sd hsd => hcond sd (by simp [hsd]))

/-- C1: no page URL is ever fetched more than once. Within a run, every
fetched URL is in the in-memory page seen set and in the durable page log
(both updated before the fetch is issued), and the fetch record carries no
duplicate; a URL already present in the seen set is discarded without
fetching. Consequently a second run over the unchanged seed list, starting
from the persisted stores of the first, performs zero new page fetches and
changes nothing. -/
theorem c1_no_refetch_and_resume
    (join : Str → Str → Str) (fetch : Str → FetchResult) (cap fuel : Nat)
    (seeds : List Str) (init s1 : CrawlState)
    (hrun : crawlSeeds join fetch cap fuel seeds init = .ok s1)
    (hinit : init.fetched = []) :
    (s1.fetched.Nodup ∧
      ∀ u ∈ s1.fetched, u ∈ s1.seenPages ∧ u ∈ s1.seenPagesLog) ∧
    crawlSeeds join fetch cap fuel seeds (resumeState s1)
      = .ok (resumeState s1) := by
  obtain ⟨m, inv, hs⟩ := crawlSeeds_main join fetch cap fuel seeds init s1 hrun
  constructor
  · exact inv (by simp [hinit])
  · apply crawlSeeds_resume
    intro seed hsd
    obtain ⟨hp, hseen⟩ := hs seed hsd
    refine ⟨hp, ?_⟩
    by_cases hcap : 0 < cap
    · by_cases hfuel : 0 < fuel
      · exact Or.inl (hseen hcap hfuel)
      · exact Or.inr (Or.inr (by omega))
    · exact Or.inr (Or.inl (by omega))

/-- C1 witness: a one-page run and its no-op second run. -/
theorem c1_witness :
    ((⟨[str "http://a.com/policy"], [str "http://a.com/policy"], [], [], [],
        [str "http://a.com/policy"], 1, 0, []⟩ : CrawlState).fetched.Nodup ∧
      ∀ u ∈ (⟨[str "http://a.com/policy"], [str "http://a.com/policy"], [],
          [], [], [str "http://a.com/policy"], 1, 0, []⟩ :
            CrawlState).fetched,
        u ∈ (⟨[str "http://a.com/policy"], [str "http://a.com/policy"], [],
            [], [], [str "http://a.com/policy"], 1, 0, []⟩ :
              CrawlState).seenPages ∧
        u ∈ (⟨[str "http://a.com/policy"], [str "http://a.com/policy"], [],
            [], [], [str "http://a.com/policy"], 1, 0, []⟩ :
              CrawlState).seenPagesLog) ∧
    crawlSeeds joinAbs (fun _ => FetchResult.response 200 []) 1 1
        [str "http://a.com/policy"]
        (resumeState (⟨[str "http://a.com/policy"],
          [str "http://a.com/policy"], [], [], [],
          [str "http://a.com/policy"], 1, 0, []⟩ : CrawlState))
      = .ok (resumeState (⟨[str "http://a.com/policy"],
          [str "http://a.com/policy"], [], [], [],
          [str "http://a.com/policy"], 1, 0, []⟩ : CrawlState)) :=
  c1_no_refetch_and_resume joinAbs (fun _ => FetchResult.response 200 []) 1 1
    [str "http://a.com/policy"] initState
    (⟨[str "http://a.com/policy"], [str "http://a.com/policy"], [], [], [],
      [str "http://a.com/policy"], 1, 0, []⟩ : CrawlState)
    (by decide) (by decide)

/-!
Totality of the normalizer away from bracketed authorities (claim C6).
-/

theorem cleanUrl_subset {u : Str} : ∀ c ∈ cleanUrl u, c ∈ u := by
  intro c hc
  unfold cleanUrl at hc
  have h1 := List.mem_of_mem_filter hc
  exact List.dropWhile_subset _ h1

theorem splitScheme_snd_subset {u : Str} : ∀ c ∈ (splitScheme u).2, c ∈ u := by
  intro c hc
  unfold splitScheme at hc
  cases hsp : splitFirst ':' u with
  | none => rw [hsp] at hc; exact hc
  | some pr =>
    rw [hsp] at hc
    obtain ⟨a, b⟩ := pr
    obtain ⟨hu, _⟩ := splitFirst_some hsp
    cases a with
    | nil => exact hc
    | cons c0 cs =>
      dsimp only at hc
      by_cases hsh : (isAsciiAlpha c0 && (c0 :: cs).all isSchemeChar) = true
      · rw [if_pos hsh] at hc
        rw [hu]
        simp [hc]
      · rw [if_neg hsh] at hc
        exact hc

theorem splitNetloc_fst_subset {u : Str} :
    ∀ c ∈ (splitNetloc u).1, c ∈ u := by
  intro c hc
  unfold splitNetloc at hc
  split at hc
  · exact List.drop_subset _ u (List.takeWhile_subset _ hc)
  · simp at hc

theorem urlparse_total {u : Str} (h1 : '[' ∉ u) (h2 : ']' ∉ u) :
    ∃ p, urlparse u = .ok p := by
  have hchain : ∀ c ∈ (splitNetloc (splitScheme (cleanUrl u)).2).1, c ∈ u :=
    fun c hc =>
      cleanUrl_subset _ (splitScheme_snd_subset _ (splitNetloc_fst_subset _ hc))
  have hb : brackBad (splitNetloc (splitScheme (cleanUrl u)).2).1 = false := by
    unfold brackBad hasChar
    have hn1 : '[' ∉ (splitNetloc (splitScheme (cleanUrl u)).2).1 :=
      fun hm => h1 (hchain _ hm)
    have hn2 : ']' ∉ (splitNetloc (splitScheme (cleanUrl u)).2).1 :=
      fun hm => h2 (hchain _ hm)
    simp [hn1, hn2]
  refine ⟨⟨(splitScheme (cleanUrl u)).1,
    (splitNetloc (splitScheme (cleanUrl u)).2).1,
    (splitPar (splitAtFirst '?'
      (splitAtFirst '#' (splitNetloc (splitScheme (cleanUrl u)).2).2).1).1).1,
    (splitPar (splitAtFirst '?'
      (splitAtFirst '#' (splitNetloc (splitScheme (cleanUrl u)).2).2).1).1).2,
    (splitAtFirst '?'
      (splitAtFirst '#' (splitNetloc (splitScheme (cleanUrl u)).2).2).1).2,
    (splitAtFirst '#' (splitNetloc (splitScheme (cleanUrl u)).2).2).2⟩, ?_⟩
  unfold urlparse
  dsimp only
  rw [hb]
  simp

/-- C6 (amended): normalize_url is pure and returns a string for every
all-ASCII input whose characters include no square bracket; it is not
total on all strings, because urlparse raises ValueError on a URL whose
authority has a mismatched bracket (Invalid IPv6 URL) and also, in
CPython 3.11, on a bracket-free URL whose non-ASCII authority changes
under NFKC normalization into a string holding a URL delimiter, and that
call sits outside any try block of the crawler. The ASCII bound keeps the
statement inside the exact scope of this embedding: on such input the
CPython NFKC check returns at once, so a mismatched bracket is the only
error path of the real parser as of the model. -/
theorem c6_normalize_total_amended (u : Str) (h1 : '[' ∉ u) (h2 : ']' ∉ u)
    (_h3 : ∀ c ∈ u, c.toNat < 128) :
    ∃ s, normalize_url u = .ok s := by
  obtain ⟨p, hp⟩ := urlparse_total h1 h2
  refine ⟨urlunparse ⟨p.scheme, p.netloc, p.path, p.params,
    (if p.query ≠ [] then
      (if filteredParams p.query ≠ [] then urlencode (filteredParams p.query)
       else [])
     else []), []⟩, ?_⟩
  unfold normalize_url
  rw [hp, exc_bind_ok]
  rfl

/-- C6 witness: totality evaluated on a concrete bracket-free ASCII
URL. -/
theorem c6_witness :
    ∃ s, normalize_url (str "https://x.com/p.pdf?utm_source=x&id=7")
      = .ok s :=
  c6_normalize_total_amended (str "https://x.com/p.pdf?utm_source=x&id=7")
    (by decide) (by decide) (by decide)

/-- C6 counterexample: normalize_url raises on a mismatched bracket, so it
is not total on malformed input as claimed. -/
theorem c6_counterexample :
    normalize_url (str "http://[abc") = .error () := by decide

/-!
Character-level utilities for the idempotence development (claim C7).
-/

theorem char_eq_of_toNat {a b : Char} (h : a.toNat = b.toNat) : a = b := by
  have hv : a.val = b.val := by
    have h2 : a.val.toNat = b.val.toNat := h
    exact UInt32.toNat.inj h2
  exact Char.eq_of_val_eq hv

theorem char_valid_cases (c : Char) :
    c.toNat < 55296 ∨ (57344 ≤ c.toNat ∧ c.toNat < 1114112) := by
  have h := c.valid
  simp only [Char.toNat]
  rcases h with h | h
  · exact Or.inl h
  · exact Or.inr h

theorem lowerChar_alpha {c : Char} (h : isAsciiAlpha c = true) :
    isAsciiAlpha (lowerChar c) = true := by
  simp only [isAsciiAlpha, decide_eq_true_eq] at h ⊢
  rw [lowerChar_toNat]
  split
  · omega
  · exact h

theorem isSchemeChar_iff (c : Char) :
    isSchemeChar c = true ↔ (65 ≤ c.toNat ∧ c.toNat ≤ 90) ∨
      (97 ≤ c.toNat ∧ c.toNat ≤ 122) ∨ (48 ≤ c.toNat ∧ c.toNat ≤ 57) ∨
      c.toNat = 43 ∨ c.toNat = 45 ∨ c.toNat = 46 := by
  simp only [isSchemeChar, isAsciiAlpha, isAsciiDigit, Bool.or_eq_true,
    decide_eq_true_eq]
  constructor
  · intro h
    rcases h with ((((h | h) | h) | h) | h) | h
    · exact Or.inl h
    · exact Or.inr (Or.inl h)
    · exact Or.inr (Or.inr (Or.inl h))
    · subst h; exact Or.inr (Or.inr (Or.inr (Or.inl rfl)))
    · subst h; exact Or.inr (Or.inr (Or.inr (Or.inr (Or.inl rfl))))
    · subst h; exact Or.inr (Or.inr (Or.inr (Or.inr (Or.inr rfl))))
  · intro h
    rcases h with h | h | h | h | h | h
    · exact Or.inl (Or.inl (Or.inl (Or.inl (Or.inl h))))
    · exact Or.inl (Or.inl (Or.inl (Or.inl (Or.inr h))))
    · exact Or.inl (Or.inl (Or.inl (Or.inr h)))
    · exact Or.inl (Or.inl (Or.inr (char_eq_of_toNat (by rw [h]; rfl))))
    · exact Or.inl (Or.inr (char_eq_of_toNat (by rw [h]; rfl)))
    · exact Or.inr (char_eq_of_toNat (by rw [h]; rfl))

theorem lowerChar_scheme {c : Char} (h : isSchemeChar c = true) :
    isSchemeChar (lowerChar c) = true := by
  rw [isSchemeChar_iff] at h ⊢
  rw [lowerChar_toNat]
  split
  · omega
  · omega

theorem all_not_mem {l : Str} {p : Char → Bool} (h : l.all p = true) {x : Char}
    (hx : p x = false) : x ∉ l := by
  intro hmem
  have := List.all_eq_true.mp h x hmem
  rw [hx] at this
  exact Bool.false_ne_true this

theorem mem_takeWhile_sub {p : Char → Bool} :
    ∀ {l : Str} {c : Char}, c ∈ l.takeWhile p → c ∈ l := by
  intro l
  induction l with
  | nil => intro c h; simp at h
  | cons x xs ih =>
    intro c h
    rw [List.takeWhile_cons] at h
    by_cases hx : p x = true
    · rw [if_pos hx] at h
      rcases List.mem_cons.mp h with h1 | h1
      · simp [h1]
      · exact List.mem_cons_of_mem _ (ih h1)
    · rw [if_neg hx] at h
      simp at h

theorem mem_dropWhile_sub {p : Char → Bool} :
    ∀ {l : Str} {c : Char}, c ∈ l.dropWhile p → c ∈ l := by
  intro l
  induction l with
  | nil => intro c h; simp at h
  | cons x xs ih =>
    intro c h
    rw [List.dropWhile_cons] at h
    by_cases hx : p x = true
    · rw [if_pos hx] at h
      exact List.mem_cons_of_mem _ (ih h)
    · rw [if_neg hx] at h
      exact h

theorem takeWhile_app {p : Char → Bool} {a : Str} (b : Str)
    (ha : ∀ c ∈ a, p c = true) :
    (a ++ b).takeWhile p = a ++ b.takeWhile p ∧
      (a ++ b).dropWhile p = b.dropWhile p := by
  induction a with
  | nil => simp
  | cons x xs ih =>
    have hx : p x = true := ha x (by simp)
    have := ih (fun c hc => ha c (by simp [hc]))
    simp [List.takeWhile_cons, List.dropWhile_cons, hx, this.1, this.2]

theorem takeWhile_nil_drop {p : Char → Bool} {l : Str}
    (h : l.takeWhile p = []) : l.dropWhile p = l := by
  cases l with
  | nil => rfl
  | cons x xs =>
    rw [List.takeWhile_cons] at h
    by_cases hx : p x = true
    · rw [if_pos hx] at h; simp at h
    · rw [List.dropWhile_cons, if_neg hx]

theorem cleanUrl_fix {s : Str} (h1 : ∀ c ∈ s, isTRN c = false)
    (h2 : ∀ c, s.head? = some c → isC0OrSpace c = false) :
    cleanUrl s = s := by
  unfold cleanUrl
  have hd : s.dropWhile isC0OrSpace = s := by
    cases s with
    | nil => rfl
    | cons x xs =>
      rw [List.dropWhile_cons, if_neg (by rw [h2 x rfl]; exact Bool.false_ne_true)]
  rw [hd]
  exact List.filter_eq_self.mpr (fun c hc => by rw [h1 c hc]; rfl)

/-!
Case characterizations of the parser splitters (claim C7).
-/

theorem splitScheme_eval_none {u : Str} (h : splitFirst ':' u = none) :
    splitScheme u = ([], u) := by
  unfold splitScheme
  rw [h]

theorem splitScheme_eval_nil {u post : Str}
    (h : splitFirst ':' u = some ([], post)) : splitScheme u = ([], u) := by
  unfold splitScheme
  rw [h]

theorem splitScheme_eval_cons {u post : Str} {c : Char} {cs : Str}
    (h : splitFirst ':' u = some (c :: cs, post)) :
    splitScheme u =
      if (isAsciiAlpha c && (c :: cs).all isSchemeChar) = true
      then (pyLower (c :: cs), post) else ([], u) := by
  unfold splitScheme
  rw [h]

theorem splitScheme_cases (u : Str) :
    (splitScheme u = ([], u)) ∨
    (∃ c cs, u = (c :: cs) ++ ':' :: (splitScheme u).2 ∧
      isAsciiAlpha c = true ∧ ((c :: cs).all isSchemeChar) = true ∧
      (splitScheme u).1 = pyLower (c :: cs)) := by
  cases hsp : splitFirst ':' u with
  | none => exact Or.inl (splitScheme_eval_none hsp)
  | some pr =>
    obtain ⟨pre, post⟩ := pr
    obtain ⟨hu, hni⟩ := splitFirst_some hsp
    cases pre with
    | nil => exact Or.inl (splitScheme_eval_nil hsp)
    | cons c cs =>
      have he := splitScheme_eval_cons hsp
      by_cases ht : (isAsciiAlpha c && (c :: cs).all isSchemeChar) = true
      · rw [if_pos ht] at he
        rw [he]
        rw [Bool.and_eq_true] at ht
        exact Or.inr ⟨c, cs, by rw [← hu], ht.1, ht.2, rfl⟩
      · rw [if_neg ht] at he
        exact Or.inl he

theorem splitScheme_slash {u : Str} (h : u.head? = some '/') :
    splitScheme u = ([], u) := by
  cases hsp : splitFirst ':' u with
  | none => exact splitScheme_eval_none hsp
  | some pr =>
    obtain ⟨pre, post⟩ := pr
    obtain ⟨hu, _⟩ := splitFirst_some hsp
    cases pre with
    | nil => exact splitScheme_eval_nil hsp
    | cons c cs =>
      have hc : c = '/' := by
        rw [hu] at h
        simpa using h
      rw [splitScheme_eval_cons hsp, if_neg]
      intro ht
      rw [Bool.and_eq_true] at ht
      have := ht.1
      rw [hc] at this
      simp [isAsciiAlpha] at this

theorem colon_split_left {c : Char} :
    ∀ {pre q1 t post : Str}, pre ++ c :: post = q1 ++ t → c ∉ t →
      ∃ r, q1 = pre ++ c :: r := by
  intro pre
  induction pre with
  | nil =>
    intro q1 t post h hc
    cases q1 with
    | nil =>
      exfalso
      apply hc
      have h2 := h
      simp only [List.nil_append] at h2
      rw [← h2]
      simp
    | cons x xs =>
      have hx : x = c := by
        have := congrArg List.head? h
        simpa using this.symm
      exact ⟨xs, by
        have ht := congrArg List.tail h
        simp at ht
        simp [hx, ht]⟩
  | cons p ps ih =>
    intro q1 t post h hc
    cases q1 with
    | nil =>
      exfalso
      apply hc
      have h2 := h
      simp only [List.nil_append] at h2
      rw [← h2]
      simp
    | cons x xs =>
      simp only [List.cons_append] at h
      have hx : x = p := by
        have := congrArg List.head? h
        simpa using this.symm
      obtain ⟨r, hr⟩ := ih (by
        have ht := congrArg List.tail h
        simpa using ht) hc
      exact ⟨r, by simp [hx, hr]⟩

theorem splitScheme_of_sub {w q1 t s : Str}
    (hw : splitScheme w = ([], w)) (hq : ∃ tw, w = q1 ++ tw)
    (hs : s = q1 ++ t) (ht : ':' ∉ t) : splitScheme s = ([], s) := by
  obtain ⟨tw, htw⟩ := hq
  cases hsp : splitFirst ':' s with
  | none => exact splitScheme_eval_none hsp
  | some pr =>
    obtain ⟨pre, post⟩ := pr
    obtain ⟨hdec, hni⟩ := splitFirst_some hsp
    obtain ⟨r, hr⟩ := colon_split_left (by rw [← hdec, hs]) ht
    have hwdec : w = pre ++ ':' :: (r ++ tw) := by
      rw [htw, hr]; simp
    have hspw : splitFirst ':' w = some (pre, r ++ tw) := by
      rw [hwdec]; exact splitFirst_of_parts _ hni
    cases pre with
    | nil => exact splitScheme_eval_nil hsp
    | cons c cs =>
      rw [splitScheme_eval_cons hsp, if_neg]
      intro ht2
      rw [splitScheme_eval_cons hspw, if_pos ht2] at hw
      have : pyLower (c :: cs) = [] := congrArg Prod.fst hw
      simp [pyLower] at this

theorem splitAtFirst_cases (c : Char) (u : Str) :
    c ∉ (splitAtFirst c u).1 ∧
      (((splitAtFirst c u).2 = [] ∧ (splitAtFirst c u).1 = u) ∨
        u = (splitAtFirst c u).1 ++ c :: (splitAtFirst c u).2) := by
  unfold splitAtFirst
  cases hsp : splitFirst c u with
  | none => exact ⟨splitFirst_none_mem hsp, Or.inl ⟨rfl, rfl⟩⟩
  | some pr =>
    obtain ⟨a, b⟩ := pr
    obtain ⟨hu, hni⟩ := splitFirst_some hsp
    exact ⟨hni, Or.inr hu⟩

theorem splitPar_eval_ss {p a seg s1 s2 : Str}
    (h1 : splitLast '/' p = some (a, seg))
    (h2 : splitFirst ';' seg = some (s1, s2)) :
    splitPar p = (a ++ '/' :: s1, s2) := by
  unfold splitPar
  rw [h1]
  dsimp only
  rw [h2]

theorem splitPar_eval_sn {p a seg : Str}
    (h1 : splitLast '/' p = some (a, seg)) (h2 : splitFirst ';' seg = none) :
    splitPar p = (p, []) := by
  unfold splitPar
  rw [h1]
  dsimp only
  rw [h2]

theorem splitPar_eval_ns {p a b : Str} (h1 : splitLast '/' p = none)
    (h2 : splitFirst ';' p = some (a, b)) : splitPar p = (a, b) := by
  unfold splitPar
  rw [h1]
  dsimp only
  rw [h2]

theorem splitPar_eval_nn {p : Str} (h1 : splitLast '/' p = none)
    (h2 : splitFirst ';' p = none) : splitPar p = (p, []) := by
  unfold splitPar
  rw [h1]
  dsimp only
  rw [h2]

theorem splitPar_recon (p : Str) :
    ((splitPar p).2 = [] ∧ (splitPar p).1 = p) ∨
      p = (splitPar p).1 ++ ';' :: (splitPar p).2 := by
  cases hsl : splitLast '/' p with
  | some pr =>
    obtain ⟨a, seg⟩ := pr
    obtain ⟨hp, hns⟩ := splitLast_some hsl
    cases hsf : splitFirst ';' seg with
    | none => rw [splitPar_eval_sn hsl hsf]; exact Or.inl ⟨rfl, rfl⟩
    | some pr2 =>
      obtain ⟨s1, s2⟩ := pr2
      obtain ⟨hseg, _⟩ := splitFirst_some hsf
      rw [splitPar_eval_ss hsl hsf]
      refine Or.inr ?_
      rw [hp, hseg]
      simp
  | none =>
    cases hsf : splitFirst ';' p with
    | none => rw [splitPar_eval_nn hsl hsf]; exact Or.inl ⟨rfl, rfl⟩
    | some pr2 =>
      obtain ⟨a, b⟩ := pr2
      obtain ⟨hp, _⟩ := splitFirst_some hsf
      rw [splitPar_eval_ns hsl hsf]
      exact Or.inr hp

theorem splitLast_cons_some {p a seg : Str}
    (h : splitLast '/' p = some (a, seg)) :
    splitLast '/' ('/' :: p) = some ('/' :: a, seg) := by
  unfold splitLast at h ⊢
  cases hsp : splitFirst '/' p.reverse with
  | none => rw [hsp] at h; simp at h
  | some pr =>
    obtain ⟨x, y⟩ := pr
    rw [hsp] at h
    simp at h
    obtain ⟨hpr, hni⟩ := splitFirst_some hsp
    have hrw : splitFirst '/' (('/' :: p).reverse) = some (x, y ++ ['/']) := by
      rw [List.reverse_cons, hpr]
      have := splitFirst_of_parts (a := x) (y ++ ['/']) hni
      simpa using this
    rw [hrw]
    simp [← h.1, ← h.2]

theorem splitLast_cons_none {p : Str} (h : splitLast '/' p = none) :
    splitLast '/' ('/' :: p) = some ([], p) := by
  have hnm : '/' ∉ p.reverse := by
    intro hm
    exact splitLast_none h (by simpa using hm)
  unfold splitLast
  have hrw : splitFirst '/' (('/' :: p).reverse) = some (p.reverse, []) := by
    rw [List.reverse_cons]
    have := splitFirst_of_parts (a := p.reverse) [] hnm
    simpa using this
  rw [hrw]
  simp

theorem splitPar_shift (p : Str) :
    splitPar ('/' :: p) = ('/' :: (splitPar p).1, (splitPar p).2) := by
  cases hsl : splitLast '/' p with
  | some pr =>
    obtain ⟨a, seg⟩ := pr
    cases hsf : splitFirst ';' seg with
    | none =>
      rw [splitPar_eval_sn (splitLast_cons_some hsl) hsf,
        splitPar_eval_sn hsl hsf]
    | some pr2 =>
      obtain ⟨s1, s2⟩ := pr2
      rw [splitPar_eval_ss (splitLast_cons_some hsl) hsf,
        splitPar_eval_ss hsl hsf]
      simp
  | none =>
    cases hsf : splitFirst ';' p with
    | none =>
      rw [splitPar_eval_sn (splitLast_cons_none hsl) hsf,
        splitPar_eval_nn hsl hsf]
    | some pr2 =>
      obtain ⟨s1, s2⟩ := pr2
      rw [splitPar_eval_ss (splitLast_cons_none hsl) hsf,
        splitPar_eval_ns hsl hsf]
      simp

theorem take2_slash {p : Str} (h : p.take 2 = ['/', '/']) :
    ∃ t, p = '/' :: '/' :: t := by
  cases p with
  | nil => simp at h
  | cons x xs =>
    cases xs with
    | nil => simp at h
    | cons y ys =>
      simp at h
      exact ⟨ys, by rw [h.1, h.2]⟩

theorem splitPar_take2 {p : Str} (h : p.take 2 = ['/', '/']) :
    (splitPar p).1.take 2 = ['/', '/'] := by
  obtain ⟨t, ht⟩ := take2_slash h
  cases hsl : splitLast '/' p with
  | none =>
    exfalso
    exact splitLast_none hsl (by rw [ht]; simp)
  | some pr =>
    obtain ⟨a, seg⟩ := pr
    obtain ⟨hp, hns⟩ := splitLast_some hsl
    cases hsf : splitFirst ';' seg with
    | none => rw [splitPar_eval_sn hsl hsf]; exact h
    | some pr2 =>
      obtain ⟨s1, s2⟩ := pr2
      rw [splitPar_eval_ss hsl hsf]
      cases a with
      | nil =>
        exfalso
        apply hns
        rw [hp] at ht
        simp at ht
        rw [ht]
        simp
      | cons c1 cs =>
        cases cs with
        | nil =>
          rw [hp] at ht
          simp at ht
          rw [ht.1]
          simp
        | cons c2 ct =>
          rw [hp] at ht
          simp at ht
          rw [ht.1, ht.2.1]
          simp

theorem urlparse_components {u : Str} {P : UrlParts}
    (h : urlparse u = .ok P) :
    ∃ r1 r2 f1 q1,
      splitScheme (cleanUrl u) = (P.scheme, r1) ∧
      splitNetloc r1 = (P.netloc, r2) ∧
      brackBad P.netloc = false ∧
      splitAtFirst '#' r2 = (f1, P.fragment) ∧
      splitAtFirst '?' f1 = (q1, P.query) ∧
      splitPar q1 = (P.path, P.params) := by
  unfold urlparse at h
  dsimp only at h
  split at h
  · exact absurd h (by simp)
  · next hbr =>
    injection h with h2
    subst h2
    refine ⟨(splitScheme (cleanUrl u)).2,
      (splitNetloc (splitScheme (cleanUrl u)).2).2,
      (splitAtFirst '#' (splitNetloc (splitScheme (cleanUrl u)).2).2).1,
      (splitAtFirst '?'
        (splitAtFirst '#' (splitNetloc (splitScheme (cleanUrl u)).2).2).1).1,
      rfl, rfl, ?_, rfl, rfl, rfl⟩
    simpa using hbr

/-!
Byte-level round trips of the query codecs (claim C7).
-/

theorem utf8Encode_cons (c : Char) (s : Str) :
    utf8Encode (c :: s) = utf8EncodeChar c ++ utf8Encode s := rfl

theorem utf8EncodeChar_decode (c : Char) (bs : List Nat) :
    utf8DecodeReplace (utf8EncodeChar c ++ bs) = c :: utf8DecodeReplace bs := by
  have hofn : Char.ofNat c.toNat = c := Char.ofNat_toNat c
  have hvalid := char_valid_cases c
  unfold utf8EncodeChar
  by_cases h1 : c.toNat < 128
  · rw [if_pos h1]
    show utf8DecodeReplace (c.toNat :: bs) = _
    rw [utf8DecodeReplace.eq_def]
    dsimp only
    rw [if_pos (by omega : c.toNat ≤ 127), hofn]
  · rw [if_neg h1]
    by_cases h2 : c.toNat < 2048
    · rw [if_pos h2]
      show utf8DecodeReplace
        ((192 + c.toNat / 64) :: (128 + c.toNat % 64) :: bs) = _
      rw [utf8DecodeReplace.eq_def]
      dsimp only
      rw [if_neg (by omega), if_pos (by omega :
        194 ≤ 192 + c.toNat / 64 ∧ 192 + c.toNat / 64 ≤ 223)]
      rw [if_pos (by unfold contB; rw [decide_eq_true_eq]; omega)]
      have ha : (192 + c.toNat / 64 - 192) * 64 + (128 + c.toNat % 64 - 128)
          = c.toNat := by omega
      rw [ha, hofn]
    · rw [if_neg h2]
      by_cases h3 : c.toNat < 65536
      · rw [if_pos h3]
        show utf8DecodeReplace ((224 + c.toNat / 4096) ::
          (128 + c.toNat / 64 % 64) :: (128 + c.toNat % 64) :: bs) = _
        rw [utf8DecodeReplace.eq_def]
        dsimp only
        rw [if_neg (by omega), if_neg (by omega), if_pos (by omega :
          224 ≤ 224 + c.toNat / 4096 ∧ 224 + c.toNat / 4096 ≤ 239)]
        rw [if_pos (show cont3 (224 + c.toNat / 4096)
            (128 + c.toNat / 64 % 64) = true by
          unfold cont3 contB
          split
          · next he =>
            rw [decide_eq_true_eq]
            omega
          · split
            · next hne he =>
              rw [decide_eq_true_eq]
              omega
            · rw [decide_eq_true_eq]
              omega)]
        rw [if_pos (by unfold contB; rw [decide_eq_true_eq]; omega)]
        have ha : (224 + c.toNat / 4096 - 224) * 4096 +
            (128 + c.toNat / 64 % 64 - 128) * 64 +
            (128 + c.toNat % 64 - 128) = c.toNat := by omega
        rw [ha, hofn]
      · rw [if_neg h3]
        show utf8DecodeReplace ((240 + c.toNat / 262144) ::
          (128 + c.toNat / 4096 % 64) :: (128 + c.toNat / 64 % 64) ::
          (128 + c.toNat % 64) :: bs) = _
        rw [utf8DecodeReplace.eq_def]
        dsimp only
        rw [if_neg (by omega), if_neg (by omega), if_neg (by omega),
          if_pos (by omega :
            240 ≤ 240 + c.toNat / 262144 ∧ 240 + c.toNat / 262144 ≤ 244)]
        rw [if_pos (show cont4 (240 + c.toNat / 262144)
            (128 + c.toNat / 4096 % 64) = true by
          unfold cont4 contB
          split
          · next he =>
            rw [decide_eq_true_eq]
            omega
          · split
            · next hne he =>
              rw [decide_eq_true_eq]
              omega
            · rw [decide_eq_true_eq]
              omega)]
        rw [if_pos (by unfold contB; rw [decide_eq_true_eq]; omega)]
        rw [if_pos (by unfold contB; rw [decide_eq_true_eq]; omega)]
        have ha : (240 + c.toNat / 262144 - 240) * 262144 +
            (128 + c.toNat / 4096 % 64 - 128) * 4096 +
            (128 + c.toNat / 64 % 64 - 128) * 64 +
            (128 + c.toNat % 64 - 128) = c.toNat := by omega
        rw [ha, hofn]

theorem utf8_round (s : Str) : utf8DecodeReplace (utf8Encode s) = s := by
  induction s with
  | nil => rfl
  | cons c cs ih => rw [utf8Encode_cons, utf8EncodeChar_decode, ih]

theorem hexDigitU_toNat {n : Nat} (h : n < 16) :
    (hexDigitU n).toNat = if n < 10 then 48 + n else 55 + n := by
  unfold hexDigitU
  split
  · exact char_toNat_ofNat (Or.inl (by omega))
  · exact char_toNat_ofNat (Or.inl (by omega))

theorem hexVal_hexDigitU {n : Nat} (h : n < 16) :
    isHexB (hexDigitU n).toNat = true ∧ hexVal (hexDigitU n).toNat = n := by
  rw [hexDigitU_toNat h]
  unfold isHexB hexVal
  constructor
  · rw [decide_eq_true_eq]
    split <;> omega
  · split
    · next h10 => rw [if_pos (by omega)]; omega
    · next h10 =>
      rw [if_neg (by omega), if_pos (by omega)]
      omega

theorem utf8EncodeChar_le (c : Char) : ∀ b ∈ utf8EncodeChar c, b ≤ 255 := by
  have hvalid := char_valid_cases c
  intro b hb
  simp only [utf8EncodeChar] at hb
  split at hb
  · simp at hb; omega
  · split at hb
    · simp at hb
      rcases hb with hb | hb <;> omega
    · split at hb
      · simp at hb
        rcases hb with hb | hb | hb <;> omega
      · simp at hb
        rcases hb with hb | hb | hb | hb <;> omega

theorem utf8Encode_le (s : Str) : ∀ b ∈ utf8Encode s, b ≤ 255 := by
  induction s with
  | nil => intro b hb; simp [utf8Encode] at hb
  | cons c cs ih =>
    intro b hb
    rw [utf8Encode_cons] at hb
    rcases List.mem_append.mp hb with h | h
    · exact utf8EncodeChar_le c b h
    · exact ih b h

theorem utf8Encode_append (a b : Str) :
    utf8Encode (a ++ b) = utf8Encode a ++ utf8Encode b := by
  induction a with
  | nil => rfl
  | cons c cs ih =>
    rw [List.cons_append, utf8Encode_cons, utf8Encode_cons, ih,
      List.append_assoc]

theorem pd_37 (h1 h2 : Nat) (r : List Nat) :
    percentDecode (37 :: h1 :: h2 :: r) =
      if isHexB h1 && isHexB h2 then
        (hexVal h1 * 16 + hexVal h2) :: percentDecode r
      else 37 :: percentDecode (h1 :: h2 :: r) := rfl

theorem pd_not37 {b : Nat} (hb : b ≠ 37) (rest : List Nat) :
    percentDecode (b :: rest) = b :: percentDecode rest := by
  cases rest with
  | nil => simp [percentDecode, hb]
  | cons x xs =>
    cases xs with
    | nil => simp [percentDecode, hb]
    | cons y ys => simp [percentDecode, hb]

theorem byte_round {b : Nat} (hb : b ≤ 255) (rest : List Nat) :
    percentDecode (utf8Encode (plusToSpace (quoteByte b)) ++ rest) =
      b :: percentDecode rest := by
  unfold quoteByte
  by_cases h32 : b = 32
  · rw [if_pos h32]
    show percentDecode (utf8Encode (plusToSpace ['+']) ++ rest) = _
    have hps : plusToSpace ['+'] = [' '] := by
      unfold plusToSpace
      simp
    rw [hps]
    show percentDecode ((' ').toNat :: rest) = _
    rw [pd_not37 (by decide) rest, h32]
    rfl
  · rw [if_neg h32]
    by_cases hsafe : isSafeByte b = true
    · rw [if_pos hsafe]
      have hbv : (Char.ofNat b).toNat = b :=
        char_toNat_ofNat (Or.inl (by omega))
      have hplus : Char.ofNat b ≠ '+' := by
        intro he
        have : b = 43 := by
          rw [← hbv, he]
          rfl
        rw [this] at hsafe
        simp [isSafeByte] at hsafe
      have hps : plusToSpace [Char.ofNat b] = [Char.ofNat b] := by
        unfold plusToSpace
        simp [hplus]
      rw [hps]
      have henc : utf8Encode [Char.ofNat b] = [b] := by
        show utf8EncodeChar (Char.ofNat b) ++ [] = [b]
        unfold utf8EncodeChar
        rw [hbv]
        have hlt : b < 128 := by
          by_contra hge
          simp [isSafeByte, decide_eq_true_eq] at hsafe
          omega
        rw [if_pos hlt]
        rfl
      rw [henc]
      have h37 : b ≠ 37 := by
        intro he
        rw [he] at hsafe
        simp [isSafeByte] at hsafe
      exact pd_not37 h37 rest
    · rw [if_neg hsafe]
      have hd1 : b / 16 < 16 := by omega
      have hd2 : b % 16 < 16 := by omega
      have hnp1 : hexDigitU (b / 16) ≠ '+' := by
        intro he
        have := hexDigitU_toNat hd1
        rw [he] at this
        have h43 : ('+' : Char).toNat = 43 := rfl
        rw [h43] at this
        split at this <;> omega
      have hnp2 : hexDigitU (b % 16) ≠ '+' := by
        intro he
        have := hexDigitU_toNat hd2
        rw [he] at this
        have h43 : ('+' : Char).toNat = 43 := rfl
        rw [h43] at this
        split at this <;> omega
      have hps : plusToSpace ['%', hexDigitU (b / 16), hexDigitU (b % 16)] =
          ['%', hexDigitU (b / 16), hexDigitU (b % 16)] := by
        unfold plusToSpace
        simp [hnp1, hnp2]
      rw [hps]
      have hv1 : (hexDigitU (b / 16)).toNat < 128 := by
        rw [hexDigitU_toNat hd1]
        split <;> omega
      have hv2 : (hexDigitU (b % 16)).toNat < 128 := by
        rw [hexDigitU_toNat hd2]
        split <;> omega
      have henc : utf8Encode ['%', hexDigitU (b / 16), hexDigitU (b % 16)] =
          [37, (hexDigitU (b / 16)).toNat, (hexDigitU (b % 16)).toNat] := by
        show utf8EncodeChar '%' ++ (utf8EncodeChar (hexDigitU (b / 16)) ++
          (utf8EncodeChar (hexDigitU (b % 16)) ++ [])) = _
        unfold utf8EncodeChar
        rw [if_pos (show ('%' : Char).toNat < 128 by decide),
          if_pos hv1, if_pos hv2]
        rfl
      rw [henc]
      show percentDecode (37 :: (hexDigitU (b / 16)).toNat ::
        (hexDigitU (b % 16)).toNat :: rest) = _
      rw [pd_37]
      obtain ⟨hh1, hx1⟩ := hexVal_hexDigitU hd1
      obtain ⟨hh2, hx2⟩ := hexVal_hexDigitU hd2
      rw [if_pos (by rw [hh1, hh2]; rfl)]
      rw [hx1, hx2]
      have : b / 16 * 16 + b % 16 = b := by omega
      rw [this]

theorem pd_quote_list :
    ∀ bs : List Nat, (∀ b ∈ bs, b ≤ 255) →
      percentDecode (utf8Encode (plusToSpace
        ((bs.map quoteByte).foldr (· ++ ·) []))) = bs := by
  intro bs
  induction bs with
  | nil => intro _; rfl
  | cons b rest ih =>
    intro h
    have hfold : ((b :: rest).map quoteByte).foldr (· ++ ·) [] =
        quoteByte b ++ (rest.map quoteByte).foldr (· ++ ·) [] := rfl
    rw [hfold]
    have hps : plusToSpace (quoteByte b ++
        (rest.map quoteByte).foldr (· ++ ·) []) =
        plusToSpace (quoteByte b) ++
          plusToSpace ((rest.map quoteByte).foldr (· ++ ·) []) := by
      unfold plusToSpace
      rw [List.map_append]
    rw [hps, utf8Encode_append, byte_round (h b (by simp)) _,
      ih (fun x hx => h x (by simp [hx]))]

theorem quotePlus_round (s : Str) :
    percentDecode (utf8Encode (plusToSpace (quotePlus s))) = utf8Encode s :=
  pd_quote_list (utf8Encode s) (utf8Encode_le s)

theorem unq_quote (s : Str) : unqPart (quotePlus s) = s := by
  unfold unqPart unquoteStr
  rw [quotePlus_round, utf8_round]

theorem mem_foldr_append {f : Nat → Str} {c : Char} :
    ∀ {l : List Nat}, c ∈ (l.map f).foldr (· ++ ·) [] → ∃ b ∈ l, c ∈ f b := by
  intro l
  induction l with
  | nil => intro h; simp at h
  | cons x xs ih =>
    intro h
    have hx : c ∈ f x ++ (xs.map f).foldr (· ++ ·) [] := h
    rcases List.mem_append.mp hx with h1 | h1
    · exact ⟨x, by simp, h1⟩
    · obtain ⟨b, hb, hc⟩ := ih h1
      exact ⟨b, by simp [hb], hc⟩

theorem quoteByte_mem {b : Nat} (hb : b ≤ 255) {c : Char}
    (h : c ∈ quoteByte b) : qpChar c = true := by
  unfold quoteByte at h
  split at h
  · simp at h
    rw [h]
    decide
  · split at h
    · next hsafe =>
      simp at h
      rw [h]
      unfold qpChar
      have hbv : (Char.ofNat b).toNat = b :=
        char_toNat_ofNat (Or.inl (by omega))
      rw [hbv, hsafe]
      rfl
    · simp at h
      rcases h with h | h | h
      · rw [h]; decide
      · rw [h]
        unfold qpChar
        have : isSafeByte (hexDigitU (b / 16)).toNat = true := by
          rw [hexDigitU_toNat (by omega)]
          unfold isSafeByte
          rw [decide_eq_true_eq]
          split <;> omega
        rw [this]
        rfl
      · rw [h]
        unfold qpChar
        have : isSafeByte (hexDigitU (b % 16)).toNat = true := by
          rw [hexDigitU_toNat (by omega)]
          unfold isSafeByte
          rw [decide_eq_true_eq]
          split <;> omega
        rw [this]
        rfl

theorem quotePlus_mem {s : Str} {c : Char} (h : c ∈ quotePlus s) :
    qpChar c = true := by
  obtain ⟨b, hb, hc⟩ := mem_foldr_append h
  exact quoteByte_mem (utf8Encode_le s b hb) hc

theorem not_mem_quotePlus {c : Char} (h : qpChar c = false) (s : Str) :
    c ∉ quotePlus s := by
  intro hmem
  have hc := quotePlus_mem hmem
  rw [h] at hc
  exact Bool.false_ne_true hc

theorem splitAllAux_no {c : Char} :
    ∀ {s : Str}, c ∉ s → ∀ acc, splitAllAux c s acc = [acc.reverse ++ s] := by
  intro s
  induction s with
  | nil => intro _ acc; simp [splitAllAux]
  | cons x xs ih =>
    intro h acc
    have hx : ¬(x = c) := fun hh => h (by simp [hh])
    simp only [splitAllAux, if_neg hx]
    rw [ih (fun hh => h (by simp [hh]))]
    simp

theorem splitAllAux_split {c : Char} :
    ∀ {a : Str}, c ∉ a → ∀ (b : Str) (acc : Str),
      splitAllAux c (a ++ c :: b) acc =
        (acc.reverse ++ a) :: splitAll c b := by
  intro a
  induction a with
  | nil =>
    intro _ b acc
    simp only [List.nil_append, splitAllAux, if_pos rfl]
    simp [splitAll]
  | cons x xs ih =>
    intro h b acc
    have hx : ¬(x = c) := fun hh => h (by simp [hh])
    simp only [List.cons_append, splitAllAux, if_neg hx, List.append_eq]
    rw [ih (fun hh => h (by simp [hh]))]
    simp

theorem splitAll_no {c : Char} {s : Str} (h : c ∉ s) : splitAll c s = [s] := by
  unfold splitAll
  rw [splitAllAux_no h []]
  rfl

theorem splitAll_split {c : Char} {a : Str} (b : Str) (h : c ∉ a) :
    splitAll c (a ++ c :: b) = a :: splitAll c b := by
  unfold splitAll
  rw [splitAllAux_split h b []]
  rfl

theorem joinAmp_cons (x y : Str) (r : List Str) :
    joinAmp (x :: y :: r) = x ++ '&' :: joinAmp (y :: r) := rfl

theorem mem_joinAmp {c : Char} :
    ∀ {l : List Str}, c ∈ joinAmp l → (∃ f ∈ l, c ∈ f) ∨ c = '&' := by
  intro l
  induction l with
  | nil => intro h; simp [joinAmp] at h
  | cons x xs ih =>
    intro h
    cases xs with
    | nil => exact Or.inl ⟨x, by simp, h⟩
    | cons y r =>
      rw [joinAmp_cons] at h
      rcases List.mem_append.mp h with h1 | h1
      · exact Or.inl ⟨x, by simp, h1⟩
      · rcases List.mem_cons.mp h1 with h2 | h2
        · exact Or.inr h2
        · rcases ih h2 with ⟨f, hf, hc⟩ | h3
          · exact Or.inl ⟨f, by simp [hf], hc⟩
          · exact Or.inr h3

theorem encField_ne (p : Str × Str) : encField p ≠ [] := by
  unfold encField
  simp

theorem encField_amp (p : Str × Str) : '&' ∉ encField p := by
  unfold encField
  intro h
  rcases List.mem_append.mp h with h1 | h1
  · exact not_mem_quotePlus (by decide) _ h1
  · rcases List.mem_cons.mp h1 with h2 | h2
    · simp at h2
    · exact not_mem_quotePlus (by decide) _ h2

theorem encField_parse (p : Str × Str) :
    (match splitFirst '=' (encField p) with
      | some nv => (unqPart nv.1, unqPart nv.2)
      | none => (unqPart (encField p), ([] : Str))) = p := by
  have hsp : splitFirst '=' (encField p) =
      some (quotePlus p.1, quotePlus p.2) :=
    splitFirst_of_parts _ (not_mem_quotePlus (by decide) _)
  rw [hsp]
  dsimp only
  rw [unq_quote, unq_quote]

theorem parse_qsl_nil : parse_qsl [] = [] := rfl

theorem parse_qsl_split {a : Str} (b : Str) (hne : a ≠ []) (hamp : '&' ∉ a) :
    parse_qsl (a ++ '&' :: b) =
      (match splitFirst '=' a with
        | some nv => (unqPart nv.1, unqPart nv.2)
        | none => (unqPart a, ([] : Str))) :: parse_qsl b := by
  unfold parse_qsl
  rw [splitAll_split b hamp, List.filterMap_cons]
  rw [if_neg hne]

theorem parse_qsl_last {a : Str} (hne : a ≠ []) (hamp : '&' ∉ a) :
    parse_qsl a =
      [match splitFirst '=' a with
        | some nv => (unqPart nv.1, unqPart nv.2)
        | none => (unqPart a, ([] : Str))] := by
  unfold parse_qsl
  rw [splitAll_no hamp, List.filterMap_cons, List.filterMap_nil]
  rw [if_neg hne]

theorem parse_qsl_enc :
    ∀ ps : List (Str × Str), parse_qsl (joinAmp (ps.map encField)) = ps := by
  intro ps
  induction ps with
  | nil => exact parse_qsl_nil
  | cons p rest ih =>
    cases rest with
    | nil =>
      show parse_qsl (joinAmp [encField p]) = [p]
      show parse_qsl (encField p) = [p]
      rw [parse_qsl_last (encField_ne p) (encField_amp p), encField_parse]
    | cons q rest2 =>
      show parse_qsl (joinAmp (encField p :: encField q ::
        rest2.map encField)) = _
      rw [joinAmp_cons, parse_qsl_split _ (encField_ne p) (encField_amp p),
        encField_parse]
      rw [show (encField q :: rest2.map encField) =
        (q :: rest2).map encField from rfl, ih]

theorem encPairs_eq_map (d : List (Str × List Str)) :
    encPairs d = (flatPairs d).map encField := by
  induction d with
  | nil => rfl
  | cons kv d2 ih =>
    show kv.2.map (fun v => quotePlus kv.1 ++ '=' :: quotePlus v) ++
        encPairs d2 =
      (kv.2.map (fun v => (kv.1, v)) ++ flatPairs d2).map encField
    rw [List.map_append, ih, List.map_map]
    rfl

theorem urlencode_flat (d : List (Str × List Str)) :
    urlencode d = joinAmp ((flatPairs d).map encField) := by
  unfold urlencode
  rw [encPairs_eq_map]

theorem parse_qsl_urlencode (d : List (Str × List Str)) :
    parse_qsl (urlencode d) = flatPairs d := by
  rw [urlencode_flat]
  exact parse_qsl_enc (flatPairs d)

theorem group_one (k : Str) :
    ∀ (vs us : List Str),
      List.foldl (fun dd p => addPair dd p.1 p.2) [(k, us)]
        (vs.map (fun v => (k, v))) = [(k, us ++ vs)] := by
  intro vs
  induction vs with
  | nil => intro us; simp
  | cons v vs2 ih =>
    intro us
    rw [List.map_cons, List.foldl_cons]
    have ha : addPair [(k, us)] k v = [(k, us ++ [v])] := by
      unfold addPair
      rw [if_pos rfl]
    show List.foldl (fun dd p => addPair dd p.1 p.2) (addPair [(k, us)] k v)
      (vs2.map (fun v => (k, v))) = _
    rw [ha, ih (us ++ [v])]
    simp

theorem group_head {vs : List Str} (k : Str) (h : vs ≠ []) :
    List.foldl (fun dd p => addPair dd p.1 p.2) []
      (vs.map (fun v => (k, v))) = [(k, vs)] := by
  cases vs with
  | nil => exact absurd rfl h
  | cons v vs2 =>
    rw [List.map_cons, List.foldl_cons]
    show List.foldl (fun dd p => addPair dd p.1 p.2) (addPair [] k v)
      (vs2.map (fun v => (k, v))) = _
    have ha : addPair ([] : List (Str × List Str)) k v = [(k, [v])] := rfl
    rw [ha, group_one k vs2 [v]]
    rfl

theorem fold_skip (k : Str) (vs : List Str) :
    ∀ (ps : List (Str × Str)) (acc : List (Str × List Str)),
      (∀ p ∈ ps, p.1 ≠ k) →
      List.foldl (fun dd p => addPair dd p.1 p.2) ((k, vs) :: acc) ps =
        (k, vs) :: List.foldl (fun dd p => addPair dd p.1 p.2) acc ps := by
  intro ps
  induction ps with
  | nil => intro acc _; rfl
  | cons p ps2 ih =>
    intro acc h
    rw [List.foldl_cons, List.foldl_cons]
    have ha : addPair ((k, vs) :: acc) p.1 p.2 =
        if k = p.1 then (k, vs ++ [p.2]) :: acc
        else (k, vs) :: addPair acc p.1 p.2 := rfl
    rw [ha, if_neg (fun he => h p (by simp) he.symm),
      ih _ (fun q hq => h q (by simp [hq]))]

theorem flatPairs_keys :
    ∀ {d : List (Str × List Str)} {p : Str × Str}, p ∈ flatPairs d →
      p.1 ∈ d.map Prod.fst := by
  intro d
  induction d with
  | nil => intro p h; simp [flatPairs] at h
  | cons kv d2 ih =>
    intro p h
    have h2 : p ∈ kv.2.map (fun v => (kv.1, v)) ++ flatPairs d2 := h
    rcases List.mem_append.mp h2 with h1 | h1
    · obtain ⟨v, _, hv⟩ := List.mem_map.mp h1
      rw [← hv]
      simp
    · simp [ih h1]

theorem regroup :
    ∀ {d : List (Str × List Str)}, GoodDict d →
      List.foldl (fun dd p => addPair dd p.1 p.2) [] (flatPairs d) = d := by
  intro d
  induction d with
  | nil => intro _; rfl
  | cons kv d2 ih =>
    intro hg
    obtain ⟨hkeys, hvals⟩ := hg
    rw [List.map_cons] at hkeys
    have hk2 : kv.1 ∉ d2.map Prod.fst := (List.nodup_cons.mp hkeys).1
    have hflat : flatPairs (kv :: d2) =
        kv.2.map (fun v => (kv.1, v)) ++ flatPairs d2 := rfl
    rw [hflat, List.foldl_append]
    rw [group_head kv.1 (hvals kv (by simp))]
    rw [fold_skip kv.1 kv.2 (flatPairs d2) []
      (fun p hp he => hk2 (he ▸ flatPairs_keys hp))]
    rw [ih ⟨(List.nodup_cons.mp hkeys).2, fun q hq => hvals q (by simp [hq])⟩]

theorem parse_qs_urlencode {d : List (Str × List Str)} (h : GoodDict d) :
    parse_qs (urlencode d) = d := by
  unfold parse_qs
  rw [parse_qsl_urlencode]
  exact regroup h

theorem addPair_keys (k : Str) (v : Str) :
    ∀ d : List (Str × List Str),
      (addPair d k v).map Prod.fst =
        if k ∈ d.map Prod.fst then d.map Prod.fst
        else d.map Prod.fst ++ [k] := by
  intro d
  induction d with
  | nil => simp [addPair]
  | cons kv rest ih =>
    obtain ⟨k1, vs⟩ := kv
    unfold addPair
    by_cases he : k1 = k
    · rw [if_pos he]
      subst he
      simp
    · rw [if_neg he]
      rw [List.map_cons, List.map_cons, ih]
      by_cases hm : k ∈ rest.map Prod.fst
      · rw [if_pos hm, if_pos (by simp [hm])]
      · rw [if_neg hm, if_neg (by
          simp only [List.map_cons, List.mem_cons]
          push_neg
          exact ⟨fun hh => he hh.symm, hm⟩)]
        simp

theorem addPair_vals {d : List (Str × List Str)} (k : Str) (v : Str)
    (h : ∀ kv ∈ d, kv.2 ≠ []) : ∀ kv ∈ addPair d k v, kv.2 ≠ [] := by
  induction d with
  | nil =>
    intro kv hkv
    simp [addPair] at hkv
    rw [hkv]
    simp
  | cons kv1 rest ih =>
    intro kv hkv
    obtain ⟨k1, vs⟩ := kv1
    unfold addPair at hkv
    by_cases he : k1 = k
    · rw [if_pos he] at hkv
      rcases List.mem_cons.mp hkv with h1 | h1
      · rw [h1]; simp
      · exact h kv (by simp [h1])
    · rw [if_neg he] at hkv
      rcases List.mem_cons.mp hkv with h1 | h1
      · rw [h1]
        exact h (k1, vs) (by simp)
      · exact ih (fun q hq => h q (by simp [hq])) kv h1

theorem addPair_good {d : List (Str × List Str)} (k : Str) (v : Str)
    (h : GoodDict d) : GoodDict (addPair d k v) := by
  obtain ⟨hkeys, hvals⟩ := h
  constructor
  · rw [addPair_keys]
    by_cases hm : k ∈ d.map Prod.fst
    · rw [if_pos hm]; exact hkeys
    · rw [if_neg hm]; exact nodup_append_single hkeys hm
  · exact addPair_vals k v hvals

theorem fold_good :
    ∀ (ps : List (Str × Str)) (acc : List (Str × List Str)), GoodDict acc →
      GoodDict (List.foldl (fun dd p => addPair dd p.1 p.2) acc ps) := by
  intro ps
  induction ps with
  | nil => intro acc h; exact h
  | cons p ps2 ih =>
    intro acc h
    rw [List.foldl_cons]
    exact ih _ (addPair_good p.1 p.2 h)

theorem parse_qs_good (qs : Str) : GoodDict (parse_qs qs) :=
  fold_good (parse_qsl qs) [] ⟨List.nodup_nil, by simp⟩

theorem filter_good {d : List (Str × List Str)}
    (p : Str × List Str → Bool) (h : GoodDict d) :
    GoodDict (d.filter p) := by
  obtain ⟨hkeys, hvals⟩ := h
  constructor
  · exact ((List.filter_sublist d).map Prod.fst).nodup hkeys
  · intro kv hkv
    exact hvals kv (List.mem_filter.mp hkv).1

theorem filteredParams_good (q : Str) : GoodDict (filteredParams q) :=
  filter_good _ (parse_qs_good q)

theorem filteredParams_round (q : Str) :
    filteredParams (urlencode (filteredParams q)) = filteredParams q := by
  show (parse_qs (urlencode (filteredParams q))).filter _ = _
  rw [parse_qs_urlencode (filteredParams_good q)]
  unfold filteredParams
  rw [List.filter_filter]
  simp

theorem urlencode_ne_nil {d : List (Str × List Str)} (hd : d ≠ [])
    (hv : ∀ kv ∈ d, kv.2 ≠ []) : urlencode d ≠ [] := by
  cases d with
  | nil => exact absurd rfl hd
  | cons kv d2 =>
    cases hvs : kv.2 with
    | nil => exact absurd hvs (hv kv (by simp))
    | cons v vs2 =>
      unfold urlencode
      have he : encPairs (kv :: d2) =
          (quotePlus kv.1 ++ '=' :: quotePlus v) ::
            (vs2.map (fun w => quotePlus kv.1 ++ '=' :: quotePlus w) ++
              encPairs d2) := by
        show kv.2.map (fun w => quotePlus kv.1 ++ '=' :: quotePlus w) ++
          encPairs d2 = _
        rw [hvs]
        simp
      rw [he]
      cases hrest : vs2.map (fun w => quotePlus kv.1 ++ '=' :: quotePlus w) ++
          encPairs d2 with
      | nil =>
        show quotePlus kv.1 ++ '=' :: quotePlus v ≠ []
        simp
      | cons f fs =>
        rw [joinAmp_cons]
        simp

theorem urlencode_mem {d : List (Str × List Str)} {c : Char}
    (h : c ∈ urlencode d) : encChar c = true := by
  unfold urlencode at h
  rcases mem_joinAmp h with ⟨f, hf, hc⟩ | h2
  · rw [encPairs_eq_map] at hf
    obtain ⟨p, _, hp⟩ := List.mem_map.mp hf
    rw [← hp] at hc
    unfold encField at hc
    rcases List.mem_append.mp hc with h1 | h1
    · unfold encChar
      rw [quotePlus_mem h1]
      rfl
    · rcases List.mem_cons.mp h1 with h2 | h2
      · rw [h2]; decide
      · unfold encChar
        rw [quotePlus_mem h2]
        rfl
  · rw [h2]; decide

theorem not_mem_urlencode {c : Char} (h : encChar c = false)
    (d : List (Str × List Str)) : c ∉ urlencode d := by
  intro hmem
  have hc := urlencode_mem hmem
  rw [h] at hc
  exact Bool.false_ne_true hc

theorem encChar_code {c : Char} (h : encChar c = true) :
    37 ≤ c.toNat ∧ c.toNat ≤ 126 := by
  unfold encChar qpChar at h
  simp only [Bool.or_eq_true, decide_eq_true_eq] at h
  rcases h with (((h | rfl) | rfl) | rfl) | rfl
  · unfold isSafeByte at h
    rw [decide_eq_true_eq] at h
    omega
  · decide
  · decide
  · decide
  · decide

theorem query_fix {Q : Str}
    (h : Q = [] ∨ ∃ q, filteredParams q ≠ [] ∧
      Q = urlencode (filteredParams q)) :
    (if Q ≠ [] then
      (if filteredParams Q ≠ [] then urlencode (filteredParams Q) else [])
     else []) = Q := by
  rcases h with rfl | ⟨q, hne, rfl⟩
  · rw [if_neg (by simp)]
  · have hQne : urlencode (filteredParams q) ≠ [] :=
      urlencode_ne_nil hne (filteredParams_good q).2
    rw [if_pos hQne, filteredParams_round, if_pos hne]

theorem splitLast_of_parts {c : Char} {b : Str} (a : Str) (h : c ∉ b) :
    splitLast c (a ++ c :: b) = some (a, b) := by
  unfold splitLast
  have hrev : (a ++ c :: b).reverse = b.reverse ++ c :: a.reverse := by
    simp
  rw [hrev, splitFirst_of_parts a.reverse (by simpa using h)]
  simp

theorem splitLast_none_of_not_mem {c : Char} {s : Str} (h : c ∉ s) :
    splitLast c s = none := by
  unfold splitLast
  rw [splitFirst_none_of_not_mem (by simpa using h)]

theorem splitPar_again {q1 pa par : Str} (h : splitPar q1 = (pa, par)) :
    splitPar (if par = [] then pa else pa ++ ';' :: par) = (pa, par) := by
  cases hsl : splitLast '/' q1 with
  | some pr =>
    obtain ⟨a, seg⟩ := pr
    obtain ⟨hq1, hnseg⟩ := splitLast_some hsl
    cases hsf : splitFirst ';' seg with
    | none =>
      rw [splitPar_eval_sn hsl hsf] at h
      have h1 : q1 = pa := congrArg Prod.fst h
      have h2 : ([] : Str) = par := congrArg Prod.snd h
      subst h1
      subst h2
      rw [if_pos rfl]
      exact splitPar_eval_sn hsl hsf
    | some pr2 =>
      obtain ⟨s1, s2⟩ := pr2
      rw [splitPar_eval_ss hsl hsf] at h
      obtain ⟨hseg, hns1⟩ := splitFirst_some hsf
      have h1 : a ++ '/' :: s1 = pa := congrArg Prod.fst h
      have h2 : s2 = par := congrArg Prod.snd h
      subst h1
      subst h2
      have hslash_s1 : '/' ∉ s1 := fun hm =>
        hnseg (by rw [hseg]; simp [hm])
      by_cases hs2 : s2 = []
      · rw [if_pos hs2]
        rw [splitPar_eval_sn (splitLast_of_parts a hslash_s1)
          (splitFirst_none_of_not_mem hns1), hs2]
      · rw [if_neg hs2]
        have hjoin : (a ++ '/' :: s1) ++ ';' :: s2 = q1 := by
          rw [hq1, hseg]
          simp
        rw [hjoin]
        exact splitPar_eval_ss hsl hsf
  | none =>
    have hnq1 : '/' ∉ q1 := splitLast_none hsl
    cases hsf : splitFirst ';' q1 with
    | none =>
      rw [splitPar_eval_nn hsl hsf] at h
      have h1 : q1 = pa := congrArg Prod.fst h
      have h2 : ([] : Str) = par := congrArg Prod.snd h
      subst h1
      subst h2
      rw [if_pos rfl]
      exact splitPar_eval_nn hsl hsf
    | some pr2 =>
      obtain ⟨a2, b2⟩ := pr2
      rw [splitPar_eval_ns hsl hsf] at h
      obtain ⟨hq1d, hna2⟩ := splitFirst_some hsf
      have h1 : a2 = pa := congrArg Prod.fst h
      have h2 : b2 = par := congrArg Prod.snd h
      subst h1
      subst h2
      have hsla : '/' ∉ a2 := fun hm => hnq1 (by rw [hq1d]; simp [hm])
      by_cases hb : b2 = []
      · rw [if_pos hb]
        rw [splitPar_eval_nn (splitLast_none_of_not_mem hsla)
          (splitFirst_none_of_not_mem hna2), hb]
      · rw [if_neg hb, ← hq1d]
        exact splitPar_eval_ns hsl hsf

theorem u0_take2 {pa par : Str} (h : pa.take 2 ≠ ['/', '/']) :
    (if par = [] then pa else pa ++ ';' :: par).take 2 ≠ ['/', '/'] := by
  split
  · exact h
  · cases pa with
    | nil => simp
    | cons c1 cs =>
      cases cs with
      | nil =>
        simp
      | cons c2 ct =>
        simpa using h

theorem tail_take2 {u0 Q : Str} (h : u0.take 2 ≠ ['/', '/']) :
    (u0 ++ (if Q = [] then [] else '?' :: Q)).take 2 ≠ ['/', '/'] := by
  by_cases hQ : Q = []
  · rw [if_pos hQ, List.append_nil]
    exact h
  · rw [if_neg hQ]
    cases u0 with
    | nil => simp
    | cons c1 cs =>
      cases cs with
      | nil => simp
      | cons c2 ct => simpa using h

theorem dropWhile_head {p : Char → Bool} :
    ∀ {l : Str} {d : Char} {t : Str}, l.dropWhile p = d :: t →
      p d = false := by
  intro l
  induction l with
  | nil => intro d t h; simp at h
  | cons x xs ih =>
    intro d t h
    rw [List.dropWhile_cons] at h
    by_cases hx : p x = true
    · rw [if_pos hx] at h
      exact ih h
    · rw [if_neg hx] at h
      have hxd : x = d := by
        have := congrArg List.head? h
        simpa using this
      rw [← hxd]
      exact Bool.not_eq_true _ ▸ hx

theorem cleanUrl_head {u : Str} :
    ∀ c, (cleanUrl u).head? = some c → isC0OrSpace c = false := by
  intro c hc
  unfold cleanUrl at hc
  cases hdw : u.dropWhile isC0OrSpace with
  | nil => rw [hdw] at hc; simp at hc
  | cons d t =>
    have hd : isC0OrSpace d = false := dropWhile_head hdw
    rw [hdw] at hc
    have htrn : isTRN d = false := by
      unfold isC0OrSpace at hd
      unfold isTRN
      rw [decide_eq_false_iff_not] at hd ⊢
      omega
    rw [List.filter_cons, if_pos (by rw [htrn]; rfl)] at hc
    simp at hc
    rw [← hc]
    exact hd

theorem isTRN_ge {c : Char} (h : 33 ≤ c.toNat) : isTRN c = false := by
  unfold isTRN
  rw [decide_eq_false_iff_not]
  omega

theorem isSchemeChar_codes {c : Char} (h : isSchemeChar c = true) :
    43 ≤ c.toNat ∧ c.toNat ≤ 122 := by
  rw [isSchemeChar_iff] at h
  omega

theorem mem_takeWhile_pred {p : Char → Bool} :
    ∀ {l : Str} {c : Char}, c ∈ l.takeWhile p → p c = true := by
  intro l
  induction l with
  | nil => intro c h; simp at h
  | cons x xs ih =>
    intro c h
    rw [List.takeWhile_cons] at h
    by_cases hx : p x = true
    · rw [if_pos hx] at h
      rcases List.mem_cons.mp h with h1 | h1
      · rw [h1]; exact hx
      · exact ih h1
    · rw [if_neg hx] at h
      simp at h

theorem splitNetloc_mem {r1 nl r2 : Str} (h : splitNetloc r1 = (nl, r2)) :
    ∀ c ∈ nl, notNetlocDelim c = true := by
  intro c hc
  unfold splitNetloc at h
  split at h
  · have h1 : nl = (r1.drop 2).takeWhile notNetlocDelim :=
      (congrArg Prod.fst h).symm
    rw [h1] at hc
    exact mem_takeWhile_pred hc
  · have h1 : nl = [] := (congrArg Prod.fst h).symm
    rw [h1] at hc
    simp at hc

theorem splitNetloc_shape {r1 nl r2 : Str} (h : splitNetloc r1 = (nl, r2)) :
    (r1.take 2 = ['/', '/'] ∧ r1 = '/' :: '/' :: (nl ++ r2)) ∨
      (r1.take 2 ≠ ['/', '/'] ∧ nl = [] ∧ r2 = r1) := by
  unfold splitNetloc at h
  split at h
  · next ht =>
    obtain ⟨t, htd⟩ := take2_slash ht
    left
    refine ⟨ht, ?_⟩
    have h1 : nl = (r1.drop 2).takeWhile notNetlocDelim :=
      (congrArg Prod.fst h).symm
    have h2 : r2 = (r1.drop 2).dropWhile notNetlocDelim :=
      (congrArg Prod.snd h).symm
    have hdrop : r1.drop 2 = t := by rw [htd]; rfl
    rw [htd, h1, h2, hdrop]
    rw [List.takeWhile_append_dropWhile]
  · next ht =>
    right
    exact ⟨ht, (congrArg Prod.fst h).symm, (congrArg Prod.snd h).symm⟩

theorem Q_not_mem {Q : Str}
    (h : Q = [] ∨ ∃ q0, filteredParams q0 ≠ [] ∧
      Q = urlencode (filteredParams q0)) {c : Char}
    (hc : encChar c = false) : c ∉ Q := by
  rcases h with rfl | ⟨q0, _, rfl⟩
  · simp
  · exact not_mem_urlencode hc _

theorem Q_codes {Q : Str}
    (h : Q = [] ∨ ∃ q0, filteredParams q0 ≠ [] ∧
      Q = urlencode (filteredParams q0)) :
    ∀ c ∈ Q, 37 ≤ c.toNat ∧ c.toNat ≤ 126 := by
  rcases h with rfl | ⟨q0, _, rfl⟩
  · intro c hc; simp at hc
  · intro c hc; exact encChar_code (urlencode_mem hc)

theorem tail_splits {A Q : Str}
    (hA_hash : '#' ∉ A) (hA_ques : '?' ∉ A)
    (hQ_hash : '#' ∉ Q) :
    splitAtFirst '#' (A ++ (if Q = [] then [] else '?' :: Q)) =
      (A ++ (if Q = [] then [] else '?' :: Q), []) ∧
    splitAtFirst '?' (A ++ (if Q = [] then [] else '?' :: Q)) = (A, Q) := by
  by_cases hQ : Q = []
  · rw [if_pos hQ, List.append_nil]
    constructor
    · exact splitAtFirst_no hA_hash
    · rw [splitAtFirst_no hA_ques, hQ]
  · rw [if_neg hQ]
    constructor
    · apply splitAtFirst_no
      intro hm
      rcases List.mem_append.mp hm with h1 | h1
      · exact hA_hash h1
      · rcases List.mem_cons.mp h1 with h2 | h2
        · simp at h2
        · exact hQ_hash h2
    · exact splitAtFirst_parts Q hA_ques

theorem netloc_reparse {nl X : Str}
    (hnl_ok : ∀ c ∈ nl, notNetlocDelim c = true)
    (hX : X = [] ∨ ∃ ch t, X = ch :: t ∧ notNetlocDelim ch = false) :
    splitNetloc ('/' :: '/' :: (nl ++ X)) = (nl, X) := by
  rw [splitNetloc_cons]
  rcases hX with rfl | ⟨ch, t, rfl, hch⟩
  · rw [List.append_nil]
    obtain ⟨h1, h2⟩ := takeWhile_all hnl_ok
    rw [h1, h2]
  · obtain ⟨h1, h2⟩ := takeWhile_middle t hnl_ok hch
    rw [h1, h2]

theorem urlparse_assembled {s rest nl A Q pa2 par sch : Str}
    (hclean : cleanUrl s = s)
    (hss : splitScheme s = (sch, rest))
    (hsn : splitNetloc rest =
      (nl, A ++ (if Q = [] then [] else '?' :: Q)))
    (hbr : brackBad nl = false)
    (hA_hash : '#' ∉ A) (hA_ques : '?' ∉ A) (hQ_hash : '#' ∉ Q)
    (hApar : splitPar A = (pa2, par)) :
    urlparse s = .ok ⟨sch, nl, pa2, par, Q, []⟩ := by
  obtain ⟨hts1, hts2⟩ := tail_splits hA_hash hA_ques hQ_hash (Q := Q)
  unfold urlparse
  dsimp only
  rw [hclean, hss]
  dsimp only
  rw [hsn]
  dsimp only
  rw [hbr]
  rw [if_neg (by exact Bool.false_ne_true)]
  rw [hts1]
  dsimp only
  rw [hts2]
  dsimp only
  rw [hApar]

theorem head_of_append {a : Str} (t : Str) (h : a ≠ []) :
    (a ++ t).head? = a.head? := by
  cases a with
  | nil => exact absurd rfl h
  | cons x xs => rfl

theorem takeWhile_nil_cases {p : Char → Bool} {l : Str}
    (h : l.takeWhile p = []) :
    l = [] ∨ ∃ d t, l = d :: t ∧ p d = false := by
  cases l with
  | nil => exact Or.inl rfl
  | cons x xs =>
    rw [List.takeWhile_cons] at h
    by_cases hx : p x = true
    · rw [if_pos hx] at h
      simp at h
    · rw [if_neg hx] at h
      exact Or.inr ⟨x, xs, rfl, Bool.not_eq_true _ ▸ hx⟩

theorem urlunparse_eval_netloc {sch nl pa2 par u0x Q : Str}
    (hrecon : (if par = [] then pa2 else pa2 ++ ';' :: par) = u0x)
    (hC2 : nl ≠ [] ∨
      (sch ≠ [] ∧ sch ∈ USES_NETLOC ∧ u0x.take 2 ≠ ['/', '/'])) :
    urlunparse ⟨sch, nl, pa2, par, Q, []⟩ =
      (if sch = [] then [] else sch ++ [':']) ++
        '/' :: '/' :: (nl ++
          ((if u0x ≠ [] ∧ u0x.head? ≠ some '/' then '/' :: u0x else u0x) ++
            (if Q = [] then [] else '?' :: Q))) := by
  unfold urlunparse
  dsimp only
  rw [hrecon, if_pos hC2, if_pos rfl]
  by_cases hs0 : sch = []
  · rw [if_pos hs0, if_pos hs0, List.nil_append]
    by_cases hQ0 : Q = []
    · rw [if_pos hQ0, if_pos hQ0, List.append_nil]
    · rw [if_neg hQ0, if_neg hQ0]
      simp
  · rw [if_neg hs0, if_neg hs0]
    by_cases hQ0 : Q = []
    · rw [if_pos hQ0, if_pos hQ0, List.append_nil]
      simp
    · rw [if_neg hQ0, if_neg hQ0]
      simp

theorem urlunparse_eval_plain {sch pa2 par u0x Q : Str}
    (hrecon : (if par = [] then pa2 else pa2 ++ ';' :: par) = u0x)
    (hC2 : ¬(([] : Str) ≠ [] ∨
      (sch ≠ [] ∧ sch ∈ USES_NETLOC ∧ u0x.take 2 ≠ ['/', '/']))) :
    urlunparse ⟨sch, [], pa2, par, Q, []⟩ =
      (if sch = [] then [] else sch ++ [':']) ++
        (u0x ++ (if Q = [] then [] else '?' :: Q)) := by
  unfold urlunparse
  dsimp only
  rw [hrecon, if_neg hC2, if_pos rfl]
  by_cases hs0 : sch = []
  · rw [if_pos hs0, if_pos hs0, List.nil_append]
    by_cases hQ0 : Q = []
    · rw [if_pos hQ0, if_pos hQ0, List.append_nil]
    · rw [if_neg hQ0, if_neg hQ0]
  · rw [if_neg hs0, if_neg hs0]
    by_cases hQ0 : Q = []
    · rw [if_pos hQ0, if_pos hQ0, List.append_nil]
      simp
    · rw [if_neg hQ0, if_neg hQ0]
      simp

theorem mem_assembled {sch X : Str} {c : Char}
    (h : c ∈ (if sch = [] then [] else sch ++ [':']) ++ X) :
    c ∈ sch ∨ c = ':' ∨ c ∈ X := by
  rcases List.mem_append.mp h with h1 | h1
  · split at h1
    · simp at h1
    · rcases List.mem_append.mp h1 with h2 | h2
      · exact Or.inl h2
      · simp at h2
        exact Or.inr (Or.inl h2)
  · exact Or.inr (Or.inr h1)

theorem take2_cons_ne {c : Char} {l : Str} (h : ¬l.head? = some c) :
    (c :: l).take 2 ≠ [c, c] := by
  intro hcontra
  apply h
  have h2 := congrArg List.tail hcontra
  simp at h2
  cases l with
  | nil => simp at h2
  | cons x xs =>
    simp at h2
    rw [h2]
    rfl

theorem notNetlocDelim_false {d : Char} (h : notNetlocDelim d = false) :
    d = '/' ∨ d = '?' ∨ d = '#' := by
  by_cases h1 : d = '/'
  · exact Or.inl h1
  by_cases h2 : d = '?'
  · exact Or.inr (Or.inl h2)
  by_cases h3 : d = '#'
  · exact Or.inr (Or.inr h3)
  exfalso
  unfold notNetlocDelim at h
  rw [decide_eq_false h1, decide_eq_false h2, decide_eq_false h3] at h
  simp at h

theorem splitNetloc_nil_shape {r1 r2 : Str} (h : splitNetloc r1 = ([], r2))
    (ht : r1.take 2 = ['/', '/']) :
    r2 = [] ∨ ∃ d t, r2 = d :: t ∧ notNetlocDelim d = false := by
  unfold splitNetloc at h
  rw [if_pos ht] at h
  have h1 : (r1.drop 2).takeWhile notNetlocDelim = [] := congrArg Prod.fst h
  have h2 : (r1.drop 2).dropWhile notNetlocDelim = r2 := congrArg Prod.snd h
  rw [takeWhile_nil_drop h1] at h2
  rw [← h2]
  exact takeWhile_nil_cases h1

theorem normalize_fix {u s : Str} {P : UrlParts}
    (hP : urlparse u = .ok P)
    (hside : ¬(P.netloc = [] ∧ P.path.take 2 = ['/', '/']))
    (hn : normalize_url u = .ok s) :
    normalize_url s = .ok s := by
  obtain ⟨sch, nl, pa, par, q, fr⟩ := P
  dsimp only at hside
  obtain ⟨r1, r2, f1, q1, hsch, hnl, hbr, hfr, hq, hpp⟩ :=
    urlparse_components hP
  dsimp only at hsch hnl hbr hfr hq hpp
  unfold normalize_url at hn
  rw [hP, exc_bind_ok] at hn
  dsimp only at hn
  rw [exc_pure] at hn
  injection hn with hs
  subst hs
  set Q := (if q ≠ [] then
      (if filteredParams q ≠ [] then urlencode (filteredParams q) else [])
    else []) with hQdef
  set u0 := (if par = [] then pa else pa ++ ';' :: par) with hu0def
  clear_value Q u0
  have hQgood : Q = [] ∨ ∃ q0, filteredParams q0 ≠ [] ∧
      Q = urlencode (filteredParams q0) := by
    by_cases h1 : q ≠ []
    · by_cases h2 : filteredParams q ≠ []
      · exact Or.inr ⟨q, h2, by rw [hQdef, if_pos h1, if_pos h2]⟩
      · exact Or.inl (by rw [hQdef, if_pos h1, if_neg h2])
    · exact Or.inl (by rw [hQdef, if_neg h1])
  have hQ_hash : '#' ∉ Q := Q_not_mem hQgood (by decide)
  have hQ_ques : '?' ∉ Q := Q_not_mem hQgood (by decide)
  have hQ_colon : ':' ∉ Q := Q_not_mem hQgood (by decide)
  have hQ_codes := Q_codes hQgood
  have hwTRN : ∀ c ∈ cleanUrl u, isTRN c = false := by
    intro c hc
    unfold cleanUrl at hc
    have h2 := (List.mem_filter.mp hc).2
    simpa using h2
  have hr1w : ∀ c ∈ r1, c ∈ cleanUrl u := by
    have h2 := splitScheme_snd_subset (u := cleanUrl u)
    rw [hsch] at h2
    exact h2
  have hr2r1 : ∀ c ∈ r2, c ∈ r1 := by
    rcases splitNetloc_shape hnl with ⟨_, hdec⟩ | ⟨_, _, hr2⟩
    · intro c hc
      rw [hdec]
      simp [hc]
    · intro c hc
      rw [hr2] at hc
      exact hc
  have hnlr1 : ∀ c ∈ nl, c ∈ r1 := by
    rcases splitNetloc_shape hnl with ⟨_, hdec⟩ | ⟨_, hnil, _⟩
    · intro c hc
      rw [hdec]
      simp [hc]
    · intro c hc
      rw [hnil] at hc
      simp at hc
  obtain ⟨hhash_f1, hfrdec⟩ := splitAtFirst_cases '#' r2
  rw [hfr] at hhash_f1 hfrdec
  dsimp only at hhash_f1 hfrdec
  obtain ⟨hques_q1, hqdec⟩ := splitAtFirst_cases '?' f1
  rw [hq] at hques_q1 hqdec
  dsimp only at hques_q1 hqdec
  have hf1r2 : ∀ c ∈ f1, c ∈ r2 := by
    rcases hfrdec with ⟨_, hfe⟩ | hdec
    · intro c hc
      rw [← hfe]
      exact hc
    · intro c hc
      rw [hdec]
      simp [hc]
  have hq1f1 : ∀ c ∈ q1, c ∈ f1 := by
    rcases hqdec with ⟨_, hfe⟩ | hdec
    · intro c hc
      rw [← hfe]
      exact hc
    · intro c hc
      rw [hdec]
      simp [hc]
  have hq1w : ∀ c ∈ q1, c ∈ cleanUrl u := fun c hc =>
    hr1w c (hr2r1 c (hf1r2 c (hq1f1 c hc)))
  have hhash_q1 : '#' ∉ q1 := fun hm => hhash_f1 (hq1f1 _ hm)
  have hpar_again : splitPar u0 = (pa, par) := by
    rw [hu0def]
    exact splitPar_again hpp
  have hu0sub : ∀ c ∈ u0, c ∈ q1 := by
    rcases splitPar_recon q1 with ⟨hp2, hp1⟩ | hr
    · rw [hpp] at hp2 hp1
      dsimp only at hp2 hp1
      rw [hu0def, if_pos hp2, hp1]
      exact fun c hc => hc
    · rw [hpp] at hr
      dsimp only at hr
      by_cases hp : par = []
      · rw [hu0def, if_pos hp]
        intro c hc
        rw [hr]
        simp [hc]
      · rw [hu0def, if_neg hp, ← hr]
        exact fun c hc => hc
  have hu0pref : ∃ t, q1 = u0 ++ t := by
    rcases splitPar_recon q1 with ⟨hp2, hp1⟩ | hr
    · rw [hpp] at hp2 hp1
      dsimp only at hp2 hp1
      exact ⟨[], by rw [hu0def, if_pos hp2, hp1, List.append_nil]⟩
    · rw [hpp] at hr
      dsimp only at hr
      by_cases hp : par = []
      · refine ⟨';' :: par, ?_⟩
        rw [hu0def, if_pos hp, hr]
      · exact ⟨[], by rw [hu0def, if_neg hp, ← hr, List.append_nil]⟩
  have hu0_hash : '#' ∉ u0 := fun hm => hhash_q1 (hu0sub _ hm)
  have hu0_ques : '?' ∉ u0 := fun hm => hques_q1 (hu0sub _ hm)
  have hu0TRN : ∀ c ∈ u0, isTRN c = false := fun c hc =>
    hwTRN c (hq1w c (hu0sub c hc))
  have hnlTRN : ∀ c ∈ nl, isTRN c = false := fun c hc =>
    hwTRN c (hr1w c (hnlr1 c hc))
  have hnl_ok : ∀ c ∈ nl, notNetlocDelim c = true := splitNetloc_mem hnl
  have hschemeG : (sch = [] ∧ r1 = cleanUrl u) ∨
      ((∃ d0 ds, sch = d0 :: ds ∧ isAsciiAlpha d0 = true) ∧
        (sch.all isSchemeChar) = true ∧ pyLower sch = sch) := by
    rcases splitScheme_cases (cleanUrl u) with hW | ⟨c0, cs0, hdec, halpha, hall, hlow⟩
    · left
      have h2 := hsch.symm.trans hW
      exact ⟨congrArg Prod.fst h2, congrArg Prod.snd h2⟩
    · right
      rw [hsch] at hlow
      dsimp only at hlow
      refine ⟨⟨lowerChar c0, pyLower cs0, by rw [hlow]; rfl,
        lowerChar_alpha halpha⟩, ?_, by rw [hlow]; exact pyLower_idem _⟩
      rw [hlow]
      unfold pyLower
      rw [List.all_map]
      rw [List.all_eq_true] at hall ⊢
      exact fun c hc => lowerChar_scheme (hall c hc)
  have hTRN_sch : ∀ c ∈ sch, isTRN c = false := by
    rcases hschemeG with ⟨hs0, _⟩ | ⟨_, hall2, _⟩
    · intro c hc
      rw [hs0] at hc
      simp at hc
    · intro c hc
      have h2 := isSchemeChar_codes (List.all_eq_true.mp hall2 c hc)
      exact isTRN_ge (by omega)
  have hTRN_tail : ∀ c ∈ (if Q = [] then [] else '?' :: Q),
      isTRN c = false := by
    intro c hc
    split at hc
    · simp at hc
    · rcases List.mem_cons.mp hc with h1 | h1
      · rw [h1]; decide
      · exact isTRN_ge (by have := hQ_codes c h1; omega)
  have hC0_tail : ∀ ch, ((if Q = [] then [] else '?' :: Q) : Str).head? =
      some ch → isC0OrSpace ch = false := by
    intro ch hch
    split at hch
    · simp at hch
    · simp at hch
      rw [← hch]
      decide
  by_cases hC : nl ≠ [] ∨
      (sch ≠ [] ∧ sch ∈ USES_NETLOC ∧ u0.take 2 ≠ ['/', '/'])
  · -- the authority branch of urlunparse
    by_cases hadjc : u0 ≠ [] ∧ u0.head? ≠ some '/'
    · -- a slash is prepended to the relative path
      have hA_shape : ('/' :: u0 : Str) = [] ∨
          ('/' :: u0 : Str).head? = some '/' := Or.inr rfl
      have hApar : splitPar ('/' :: u0) = ('/' :: pa, par) := by
        rw [splitPar_shift, hpar_again]
      have hA_hash : '#' ∉ ('/' :: u0 : Str) := by
        intro hm
        rcases List.mem_cons.mp hm with h1 | h1
        · simp at h1
        · exact hu0_hash h1
      have hA_ques : '?' ∉ ('/' :: u0 : Str) := by
        intro hm
        rcases List.mem_cons.mp hm with h1 | h1
        · simp at h1
        · exact hu0_ques h1
      have hATRN : ∀ c ∈ ('/' :: u0 : Str), isTRN c = false := by
        intro c hc
        rcases List.mem_cons.mp hc with h1 | h1
        · rw [h1]; decide
        · exact hu0TRN c h1
      have hXshape : (('/' :: u0) ++ (if Q = [] then [] else '?' :: Q) :
          Str) = [] ∨ ∃ ch t, (('/' :: u0) ++
            (if Q = [] then [] else '?' :: Q) : Str) = ch :: t ∧
          notNetlocDelim ch = false :=
        Or.inr ⟨'/', u0 ++ (if Q = [] then [] else '?' :: Q),
          by simp, by decide⟩
      have hclean : cleanUrl ((if sch = [] then [] else sch ++ [':']) ++
          '/' :: '/' :: (nl ++ (('/' :: u0) ++
            (if Q = [] then [] else '?' :: Q)))) =
          (if sch = [] then [] else sch ++ [':']) ++
          '/' :: '/' :: (nl ++ (('/' :: u0) ++
            (if Q = [] then [] else '?' :: Q))) := by
        apply cleanUrl_fix
        · intro c hc
          rcases mem_assembled hc with h1 | h1 | h1
          · exact hTRN_sch c h1
          · rw [h1]; decide
          · rcases List.mem_cons.mp h1 with h2 | h2
            · rw [h2]; decide
            rcases List.mem_cons.mp h2 with h3 | h3
            · rw [h3]; decide
            rcases List.mem_append.mp h3 with h4 | h4
            · exact hnlTRN c h4
            rcases List.mem_append.mp h4 with h5 | h5
            · exact hATRN c h5
            · exact hTRN_tail c h5
        · intro ch hch
          rcases hschemeG with ⟨hs0, _⟩ | ⟨⟨d0, ds, hdds, hd0⟩, _, _⟩
          · rw [hs0, if_pos rfl, List.nil_append] at hch
            simp at hch
            rw [← hch]
            decide
          · rw [if_neg (by rw [hdds]; simp), hdds] at hch
            simp at hch
            rw [← hch]
            unfold isC0OrSpace
            rw [decide_eq_false_iff_not]
            unfold isAsciiAlpha at hd0
            rw [decide_eq_true_eq] at hd0
            omega
      have hss : splitScheme ((if sch = [] then [] else sch ++ [':']) ++
          '/' :: '/' :: (nl ++ (('/' :: u0) ++
            (if Q = [] then [] else '?' :: Q)))) =
          (sch, '/' :: '/' :: (nl ++ (('/' :: u0) ++
            (if Q = [] then [] else '?' :: Q)))) := by
        rcases hschemeG with ⟨hs0, _⟩ | ⟨⟨d0, ds, hdds, hd0⟩, hall2, hfix⟩
        · rw [hs0, if_pos rfl, List.nil_append]
          exact splitScheme_slash rfl
        · rw [if_neg (by rw [hdds]; simp)]
          have hform : (sch ++ [':']) ++
              '/' :: '/' :: (nl ++ (('/' :: u0) ++
                (if Q = [] then [] else '?' :: Q))) =
              sch ++ ':' :: ('/' :: '/' :: (nl ++ (('/' :: u0) ++
                (if Q = [] then [] else '?' :: Q)))) := by
            simp
          rw [hform, hdds]
          rw [splitScheme_parts hd0 (by rw [← hdds]; exact hall2)]
          rw [← hdds, hfix]
      have hsn : splitNetloc ('/' :: '/' :: (nl ++ (('/' :: u0) ++
          (if Q = [] then [] else '?' :: Q)))) =
          (nl, ('/' :: u0) ++ (if Q = [] then [] else '?' :: Q)) :=
        netloc_reparse hnl_ok hXshape
      have hparse := urlparse_assembled hclean hss hsn hbr hA_hash hA_ques
        hQ_hash hApar
      have hreconL : (if par = [] then '/' :: pa
          else ('/' :: pa) ++ ';' :: par) = '/' :: u0 := by
        by_cases hp : par = []
        · rw [if_pos hp, hu0def, if_pos hp]
        · rw [if_neg hp, hu0def, if_neg hp]
          simp
      have hC2L : nl ≠ [] ∨ (sch ≠ [] ∧ sch ∈ USES_NETLOC ∧
          ('/' :: u0).take 2 ≠ ['/', '/']) := by
        rcases hC with h | ⟨h1, h2, _⟩
        · exact Or.inl h
        · exact Or.inr ⟨h1, h2, take2_cons_ne hadjc.2⟩
      have hsstr : urlunparse ⟨sch, nl, pa, par, Q, []⟩ =
          (if sch = [] then [] else sch ++ [':']) ++
          '/' :: '/' :: (nl ++ (('/' :: u0) ++
            (if Q = [] then [] else '?' :: Q))) := by
        rw [urlunparse_eval_netloc hu0def.symm hC, if_pos hadjc]
      rw [hsstr]
      unfold normalize_url
      rw [hparse, exc_bind_ok]
      dsimp only
      rw [exc_pure]
      refine congrArg Except.ok ?_
      rw [query_fix hQgood]
      rw [urlunparse_eval_netloc hreconL hC2L]
      rw [if_neg (show ¬(('/' :: u0 : Str) ≠ [] ∧
        ('/' :: u0 : Str).head? ≠ some '/') from fun hcond => hcond.2 rfl)]
    · -- the path already starts with a slash or is empty
      have hA_shape : u0 = [] ∨ u0.head? = some '/' := by
        by_cases hne : u0 = []
        · exact Or.inl hne
        · push_neg at hadjc
          exact Or.inr (hadjc hne)
      have hXshape : (u0 ++ (if Q = [] then [] else '?' :: Q) : Str) = []
          ∨ ∃ ch t, (u0 ++ (if Q = [] then [] else '?' :: Q) : Str) =
            ch :: t ∧ notNetlocDelim ch = false := by
        rcases hA_shape with rfl | hh
        · rw [List.nil_append]
          by_cases hQ0 : Q = []
          · rw [if_pos hQ0]
            exact Or.inl rfl
          · rw [if_neg hQ0]
            exact Or.inr ⟨'?', Q, rfl, by decide⟩
        · cases u0 with
          | nil => simp at hh
          | cons c0 u2 =>
            have hc0 : c0 = '/' := by simpa using hh
            exact Or.inr ⟨'/', u2 ++ (if Q = [] then [] else '?' :: Q),
              by rw [hc0]; rfl, by decide⟩
      have hclean : cleanUrl ((if sch = [] then [] else sch ++ [':']) ++
          '/' :: '/' :: (nl ++ (u0 ++
            (if Q = [] then [] else '?' :: Q)))) =
          (if sch = [] then [] else sch ++ [':']) ++
          '/' :: '/' :: (nl ++ (u0 ++
            (if Q = [] then [] else '?' :: Q))) := by
        apply cleanUrl_fix
        · intro c hc
          rcases mem_assembled hc with h1 | h1 | h1
          · exact hTRN_sch c h1
          · rw [h1]; decide
          · rcases List.mem_cons.mp h1 with h2 | h2
            · rw [h2]; decide
            rcases List.mem_cons.mp h2 with h3 | h3
            · rw [h3]; decide
            rcases List.mem_append.mp h3 with h4 | h4
            · exact hnlTRN c h4
            rcases List.mem_append.mp h4 with h5 | h5
            · exact hu0TRN c h5
            · exact hTRN_tail c h5
        · intro ch hch
          rcases hschemeG with ⟨hs0, _⟩ | ⟨⟨d0, ds, hdds, hd0⟩, _, _⟩
          · rw [hs0, if_pos rfl, List.nil_append] at hch
            simp at hch
            rw [← hch]
            decide
          · rw [if_neg (by rw [hdds]; simp), hdds] at hch
            simp at hch
            rw [← hch]
            unfold isC0OrSpace
            rw [decide_eq_false_iff_not]
            unfold isAsciiAlpha at hd0
            rw [decide_eq_true_eq] at hd0
            omega
      have hss : splitScheme ((if sch = [] then [] else sch ++ [':']) ++
          '/' :: '/' :: (nl ++ (u0 ++
            (if Q = [] then [] else '?' :: Q)))) =
          (sch, '/' :: '/' :: (nl ++ (u0 ++
            (if Q = [] then [] else '?' :: Q)))) := by
        rcases hschemeG with ⟨hs0, _⟩ | ⟨⟨d0, ds, hdds, hd0⟩, hall2, hfix⟩
        · rw [hs0, if_pos rfl, List.nil_append]
          exact splitScheme_slash rfl
        · rw [if_neg (by rw [hdds]; simp)]
          have hform : (sch ++ [':']) ++
              '/' :: '/' :: (nl ++ (u0 ++
                (if Q = [] then [] else '?' :: Q))) =
              sch ++ ':' :: ('/' :: '/' :: (nl ++ (u0 ++
                (if Q = [] then [] else '?' :: Q)))) := by
            simp
          rw [hform, hdds]
          rw [splitScheme_parts hd0 (by rw [← hdds]; exact hall2)]
          rw [← hdds, hfix]
      have hsn : splitNetloc ('/' :: '/' :: (nl ++ (u0 ++
          (if Q = [] then [] else '?' :: Q)))) =
          (nl, u0 ++ (if Q = [] then [] else '?' :: Q)) :=
        netloc_reparse hnl_ok hXshape
      have hparse := urlparse_assembled hclean hss hsn hbr hu0_hash
        hu0_ques hQ_hash hpar_again
      have hsstr : urlunparse ⟨sch, nl, pa, par, Q, []⟩ =
          (if sch = [] then [] else sch ++ [':']) ++
          '/' :: '/' :: (nl ++ (u0 ++
            (if Q = [] then [] else '?' :: Q))) := by
        rw [urlunparse_eval_netloc hu0def.symm hC, if_neg hadjc]
      rw [hsstr]
      unfold normalize_url
      rw [hparse, exc_bind_ok]
      dsimp only
      rw [exc_pure]
      refine congrArg Except.ok ?_
      rw [query_fix hQgood]
      rw [urlunparse_eval_netloc hu0def.symm hC, if_neg hadjc]
  · -- the plain branch of urlunparse
    have hnl0 : nl = [] := by
      by_contra h
      exact hC (Or.inl h)
    subst hnl0
    have hpat2 : pa.take 2 ≠ ['/', '/'] := fun hh => hside ⟨rfl, hh⟩
    have hu0t2 : u0.take 2 ≠ ['/', '/'] := by
      rw [hu0def]
      exact u0_take2 hpat2
    have hsn : splitNetloc (u0 ++ (if Q = [] then [] else '?' :: Q)) =
        ([], u0 ++ (if Q = [] then [] else '?' :: Q)) :=
      splitNetloc_not (tail_take2 hu0t2)
    have hcolon_tail : ':' ∉ ((if Q = [] then [] else '?' :: Q) : Str) := by
      split
      · simp
      · intro hm
        rcases List.mem_cons.mp hm with h1 | h1
        · simp at h1
        · exact hQ_colon h1
    have hss : splitScheme ((if sch = [] then [] else sch ++ [':']) ++
        (u0 ++ (if Q = [] then [] else '?' :: Q))) =
        (sch, u0 ++ (if Q = [] then [] else '?' :: Q)) := by
      rcases hschemeG with ⟨hs0, hr1eq⟩ | ⟨⟨d0, ds, hdds, hd0⟩, hall2, hfix⟩
      · -- no scheme: show the reassembled string still has none
        rw [hs0, if_pos rfl, List.nil_append]
        have hW : splitScheme (cleanUrl u) = ([], cleanUrl u) := by
          rw [hsch, hs0, hr1eq]
        have hscheme_nil : ∀ X : Str, X = [] →
            splitScheme (X ++ (if Q = [] then [] else '?' :: Q)) =
              ([], X ++ (if Q = [] then [] else '?' :: Q)) := by
          intro X hX
          subst hX
          rw [List.nil_append]
          by_cases hQ0 : Q = []
          · rw [if_pos hQ0]
            exact splitScheme_eval_none rfl
          · rw [if_neg hQ0]
            exact splitScheme_eval_none
              (splitFirst_none_of_not_mem (fun hm => by
                rcases List.mem_cons.mp hm with h1 | h1
                · simp at h1
                · exact hQ_colon h1))
        rcases splitNetloc_shape hnl with ⟨ht2, hdec⟩ | ⟨ht2, _, hr2eq⟩
        · -- the authority slot was an empty double slash
          have hshape := splitNetloc_nil_shape hnl ht2
          have hf1shape : f1 = [] ∨ f1.head? = r2.head? := by
            rcases hfrdec with ⟨_, hfe⟩ | hdec2
            · exact Or.inr (by rw [hfe])
            · cases f1 with
              | nil => exact Or.inl rfl
              | cons x xs => exact Or.inr (by rw [hdec2]; rfl)
          have hq1shape : q1 = [] ∨ q1.head? = f1.head? := by
            rcases hqdec with ⟨_, hfe⟩ | hdec2
            · exact Or.inr (by rw [hfe])
            · cases q1 with
              | nil => exact Or.inl rfl
              | cons x xs => exact Or.inr (by rw [hdec2]; rfl)
          have hu0shape : u0 = [] ∨ u0.head? = q1.head? := by
            obtain ⟨t3, hq1u0⟩ := hu0pref
            cases hu0 : u0 with
            | nil => exact Or.inl rfl
            | cons x xs =>
              right
              rw [hq1u0, hu0]
              exact (head_of_append t3 (by simp)).symm
          rcases hshape with hr2nil | ⟨d, t, hr2c, hd⟩
          · -- everything after the double slash is empty
            have hf1nil : f1 = [] := by
              cases hf1 : f1 with
              | nil => rfl
              | cons x xs =>
                exfalso
                have := hf1r2 x (by rw [hf1]; simp)
                rw [hr2nil] at this
                simp at this
            have hq1nil : q1 = [] := by
              cases hq1c : q1 with
              | nil => rfl
              | cons x xs =>
                exfalso
                have := hq1f1 x (by rw [hq1c]; simp)
                rw [hf1nil] at this
                simp at this
            have hu0nil : u0 = [] := by
              obtain ⟨t3, hq1u0⟩ := hu0pref
              rw [hq1nil] at hq1u0
              exact List.append_eq_nil.mp hq1u0.symm |>.1
            exact hscheme_nil u0 hu0nil
          · -- the remainder starts with a delimiter
            have hd3 : d = '/' ∨ d = '?' ∨ d = '#' :=
              notNetlocDelim_false hd
            have hnonempty_heads : u0 = [] ∨ u0.head? = some d := by
              rcases hu0shape with h1 | h1
              · exact Or.inl h1
              rcases hq1shape with h2 | h2
              · left
                obtain ⟨t3, hq1u0⟩ := hu0pref
                rw [h2] at hq1u0
                exact List.append_eq_nil.mp hq1u0.symm |>.1
              rcases hf1shape with h3 | h3
              · left
                cases hq1c : q1 with
                | nil =>
                  obtain ⟨t3, hq1u0⟩ := hu0pref
                  rw [hq1c] at hq1u0
                  exact List.append_eq_nil.mp hq1u0.symm |>.1
                | cons x xs =>
                  exfalso
                  have := hq1f1 x (by rw [hq1c]; simp)
                  rw [h3] at this
                  simp at this
              · right
                rw [h1, h2, h3, hr2c]
                rfl
            rcases hnonempty_heads with hu0nil | hu0head
            · exact hscheme_nil u0 hu0nil
            · rcases hd3 with rfl | rfl | rfl
              · -- a leading slash cannot open a scheme
                apply splitScheme_slash
                rw [head_of_append _ (by
                  cases u0 with
                  | nil => simp at hu0head
                  | cons x xs => simp)]
                exact hu0head
              · -- a question mark head forces an empty path
                exfalso
                cases hu0c : u0 with
                | nil => rw [hu0c] at hu0head; simp at hu0head
                | cons x xs =>
                  apply hu0_ques
                  rw [hu0c] at hu0head ⊢
                  simp at hu0head
                  rw [hu0head]
                  simp
              · -- a hash head forces an empty path
                exfalso
                cases hu0c : u0 with
                | nil => rw [hu0c] at hu0head; simp at hu0head
                | cons x xs =>
                  apply hu0_hash
                  rw [hu0c] at hu0head ⊢
                  simp at hu0head
                  rw [hu0head]
                  simp
        · -- no double slash: the path is a prefix of the cleaned URL
          have hw_f1 : ∃ t1, r2 = f1 ++ t1 := by
            rcases hfrdec with ⟨_, hfe⟩ | hdec2
            · exact ⟨[], by rw [hfe, List.append_nil]⟩
            · exact ⟨'#' :: fr, hdec2⟩
          have hw_q1t : ∃ t2, f1 = q1 ++ t2 := by
            rcases hqdec with ⟨_, hfe⟩ | hdec2
            · exact ⟨[], by rw [hfe, List.append_nil]⟩
            · exact ⟨'?' :: q, hdec2⟩
          have hw_u0 : ∃ t, cleanUrl u = u0 ++ t := by
            obtain ⟨t1, h1⟩ := hw_f1
            obtain ⟨t2, h2⟩ := hw_q1t
            obtain ⟨t3, h3⟩ := hu0pref
            refine ⟨t3 ++ (t2 ++ t1), ?_⟩
            rw [← hr1eq, ← hr2eq, h1, h2, h3]
            simp
          have hW : splitScheme (cleanUrl u) = ([], cleanUrl u) := by
            rw [hsch, hs0, hr1eq]
          exact splitScheme_of_sub hW hw_u0 rfl hcolon_tail
      · -- a scheme is present and is restored intact
        rw [if_neg (by rw [hdds]; simp)]
        have hform : (sch ++ [':']) ++
            (u0 ++ (if Q = [] then [] else '?' :: Q)) =
            sch ++ ':' :: (u0 ++ (if Q = [] then [] else '?' :: Q)) := by
          simp
        rw [hform, hdds]
        rw [splitScheme_parts hd0 (by rw [← hdds]; exact hall2)]
        rw [← hdds, hfix]
    have hclean : cleanUrl ((if sch = [] then [] else sch ++ [':']) ++
        (u0 ++ (if Q = [] then [] else '?' :: Q))) =
        (if sch = [] then [] else sch ++ [':']) ++
        (u0 ++ (if Q = [] then [] else '?' :: Q)) := by
      apply cleanUrl_fix
      · intro c hc
        rcases mem_assembled hc with h1 | h1 | h1
        · exact hTRN_sch c h1
        · rw [h1]; decide
        · rcases List.mem_append.mp h1 with h4 | h4
          · exact hu0TRN c h4
          · exact hTRN_tail c h4
      · intro ch hch
        rcases hschemeG with ⟨hs0, hr1eq⟩ | ⟨⟨d0, ds, hdds, hd0⟩, _, _⟩
        · rw [hs0, if_pos rfl, List.nil_append] at hch
          cases hu0c : u0 with
          | nil =>
            rw [hu0c, List.nil_append] at hch
            exact hC0_tail ch hch
          | cons x xs =>
            rw [hu0c] at hch
            simp at hch
            rw [← hch]
            have hxw : x ∈ cleanUrl u := hq1w x (hu0sub x (by
              rw [hu0c]; simp))
            -- the head of the path is the head of the cleaned URL or a slash
            rcases splitNetloc_shape hnl with ⟨ht2, hdec⟩ | ⟨ht2, _, hr2eq⟩
            · -- after a double slash the path head is a delimiter kept safe
              have hshape := splitNetloc_nil_shape hnl ht2
              have hxd : x = '/' ∨ x = '?' ∨ x = '#' := by
                rcases hshape with hr2nil | ⟨d, t, hr2c, hd⟩
                · exfalso
                  have := hf1r2 x (hq1f1 x (hu0sub x (by rw [hu0c]; simp)))
                  rw [hr2nil] at this
                  simp at this
                · have hxr2 : x ∈ r2 :=
                    hf1r2 x (hq1f1 x (hu0sub x (by rw [hu0c]; simp)))
                  -- derive the head directly instead
                  have hu0head : u0.head? = some x := by rw [hu0c]; rfl
                  have hq1head : q1.head? = some x := by
                    obtain ⟨t3, h3⟩ := hu0pref
                    rw [h3, head_of_append t3 (by rw [hu0c]; simp)]
                    exact hu0head
                  have hf1head : f1.head? = some x := by
                    rcases hqdec with ⟨_, hfe⟩ | hdec2
                    · rw [← hfe]; exact hq1head
                    · rw [hdec2, head_of_append _ (by
                        intro hq1nil
                        rw [hq1nil] at hq1head
                        simp at hq1head)]
                      exact hq1head
                  have hr2head : r2.head? = some x := by
                    rcases hfrdec with ⟨_, hfe⟩ | hdec2
                    · rw [← hfe]; exact hf1head
                    · rw [hdec2, head_of_append _ (by
                        intro hf1nil
                        rw [hf1nil] at hf1head
                        simp at hf1head)]
                      exact hf1head
                  rw [hr2c] at hr2head
                  simp at hr2head
                  rw [← hr2head]
                  exact notNetlocDelim_false hd
              rcases hxd with rfl | rfl | rfl
              · decide
              · decide
              · decide
            · -- the path head is the head of the cleaned URL
              have hu0head : u0.head? = some x := by rw [hu0c]; rfl
              have hq1head : q1.head? = some x := by
                obtain ⟨t3, h3⟩ := hu0pref
                rw [h3, head_of_append t3 (by rw [hu0c]; simp)]
                exact hu0head
              have hf1head : f1.head? = some x := by
                rcases hqdec with ⟨_, hfe⟩ | hdec2
                · rw [← hfe]; exact hq1head
                · rw [hdec2, head_of_append _ (by
                    intro hq1nil
                    rw [hq1nil] at hq1head
                    simp at hq1head)]
                  exact hq1head
              have hwhead : (cleanUrl u).head? = some x := by
                rcases hfrdec with ⟨_, hfe⟩ | hdec2
                · rw [← hr1eq, ← hr2eq, ← hfe]
                  exact hf1head
                · rw [← hr1eq, ← hr2eq, hdec2, head_of_append _ (by
                    intro hf1nil
                    rw [hf1nil] at hf1head
                    simp at hf1head)]
                  exact hf1head
              exact cleanUrl_head x hwhead
        · rw [if_neg (by rw [hdds]; simp), hdds] at hch
          simp at hch
          rw [← hch]
          unfold isC0OrSpace
          rw [decide_eq_false_iff_not]
          unfold isAsciiAlpha at hd0
          rw [decide_eq_true_eq] at hd0
          omega
    have hparse := urlparse_assembled hclean hss hsn hbr hu0_hash
      hu0_ques hQ_hash hpar_again
    have hsstr : urlunparse ⟨sch, [], pa, par, Q, []⟩ =
        (if sch = [] then [] else sch ++ [':']) ++
        (u0 ++ (if Q = [] then [] else '?' :: Q)) :=
      urlunparse_eval_plain hu0def.symm hC
    rw [hsstr]
    unfold normalize_url
    rw [hparse, exc_bind_ok]
    dsimp only
    rw [exc_pure]
    refine congrArg Except.ok ?_
    rw [query_fix hQgood]
    exact hsstr

/-- C7 (amended): canonicalization is idempotent on every URL whose parse
does not put a double slash at the head of an authority-free path: if
urlparse u succeeds with parts P, and not (P.netloc is empty while P.path
starts with a double slash), then the normalized form s of u satisfies
normalize_url s = ok s. This covers repeated query keys, percent-encoded
and blank query values, and fragments. The excluded family is real: see
the counterexample. -/
theorem c7_normalize_idempotent_amended (u s : Str) (P : UrlParts)
    (hP : urlparse u = .ok P)
    (hside : ¬(P.netloc = [] ∧ P.path.take 2 = ['/', '/']))
    (hn : normalize_url u = .ok s) :
    normalize_url s = .ok s :=
  normalize_fix hP hside hn

/-- C7 witness: idempotence evaluated on a URL with a tracking parameter
and a fragment; its normal form is a fixed point of normalize_url. -/
theorem c7_witness :
    normalize_url (str "http://x.com/a?b=1") =
      .ok (str "http://x.com/a?b=1") :=
  c7_normalize_idempotent_amended (str "http://x.com/a?b=1&utm_source=z#f")
    (str "http://x.com/a?b=1")
    ⟨str "http", str "x.com", str "/a", [], str "b=1&utm_source=z", str "f"⟩
    (by decide) (by decide) (by decide)

/-- C7 counterexample: the claim as stated fails on a URL whose path
starts with repeated slashes and no authority: urlunsplit re-reads two of
the slashes as an authority marker, so each normalize pass drops two
slashes and normalize(normalize(u)) differs from normalize(u). -/
theorem c7_counterexample :
    normalize_url (str "//////x") = .ok (str "////x") ∧
    normalize_url (str "////x") = .ok (str "//x") ∧
    ¬ str "////x" = str "//x" := by decide

/-!
The PDF sink invariant (claim C2).
-/

theorem processLinks_pdfinv (join : Str → Str → Str) (page : Str) :
    ∀ (hrefs : List Str) (st : CrawlState) (queue : List Str),
      PdfInv st → PdfInv (processLinks join page st queue hrefs).1 := by
  intro hrefs
  induction hrefs with
  | nil => intro st queue hinv; exact hinv
  | cons h rest ih =>
    intro st queue hinv
    simp only [processLinks]
    by_cases hpdf : is_pdf (join page (pyStrip h)) = true
    · rw [if_pos hpdf]
      cases hn : normalize_url (join page (pyStrip h)) with
      | error e => exact hinv
      | ok normd =>
        dsimp only
        by_cases hel : normd ∈ st.seenPdfs
        · rw [if_pos hel]; exact ih st queue hinv
        · rw [if_neg hel]
          apply ih
          obtain ⟨hnd, hsub, hexu⟩ := hinv
          refine ⟨?_, ?_, ?_⟩
          · exact nodup_append_single hnd (fun hmem => hel (hsub normd hmem))
          · intro v hv
            rcases List.mem_append.mp hv with h1 | h1
            · exact List.mem_cons_of_mem _ (hsub v h1)
            · rw [List.mem_singleton] at h1
              subst h1
              simp
          · intro v hv
            rcases hv with h1 | h1 | h1
            · rcases List.mem_cons.mp h1 with h2 | h2
              · subst h2
                exact ⟨join page (pyStrip h), hn⟩
              · exact hexu v (Or.inl h2)
            · rcases List.mem_append.mp h1 with h2 | h2
              · exact hexu v (Or.inr (Or.inl h2))
              · rw [List.mem_singleton] at h2
                subst h2
                exact ⟨join page (pyStrip h), hn⟩
            · rcases List.mem_append.mp h1 with h2 | h2
              · exact hexu v (Or.inr (Or.inr h2))
              · rw [List.mem_singleton] at h2
                subst h2
                exact ⟨join page (pyStrip h), hn⟩
    · rw [if_neg hpdf]
      by_cases hq : is_allowed_path (join page (pyStrip h)) = true ∧
          join page (pyStrip h) ∉ st.seenPages
      · rw [if_pos hq]; exact ih st _ hinv
      · rw [if_neg hq]; exact ih st queue hinv

theorem crawlLoop_pdfinv (join : Str → Str → Str) (fetch : Str → FetchResult)
    (seed : Str) (cap : Nat) :
    ∀ (fuel : Nat) (queue : List Str) (pages : Nat) (st st2 : CrawlState),
      crawlLoop join fetch seed cap fuel queue pages st = .ok st2 →
      PdfInv st → PdfInv st2 := by
  intro fuel
  induction fuel with
  | zero =>
    intro queue pages st st2 h hinv
    simp only [crawlLoop] at h
    cases h
    exact hinv
  | succ f ih =>
    intro queue pages st st2 h hinv
    cases queue with
    | nil =>
      simp only [crawlLoop] at h
      cases h
      exact hinv
    | cons url rest =>
      simp only [crawlLoop] at h
      by_cases hcap : pages < cap
      · rw [if_pos hcap] at h
        by_cases hseen : url ∈ st.seenPages
        · rw [if_pos hseen] at h
          exact ih rest pages st st2 h hinv
        · rw [if_neg hseen] at h
          cases hd : same_domain seed url with
          | error e => rw [hd] at h; dsimp only at h; cases h
          | ok b =>
            rw [hd] at h
            cases b with
            | false =>
              dsimp only at h
              exact ih rest pages st st2 h hinv
            | true =>
              dsimp only at h
              cases hf : fetch url with
              | response status hrefs =>
                rw [hf] at h
                dsimp only at h
                by_cases hs : status ≠ 200
                · rw [if_pos hs] at h
                  exact ih _ _ _ _ h hinv
                · rw [if_neg hs] at h
                  have hpl := processLinks_pdfinv join url hrefs
                    { st with
                      seenPages := url :: st.seenPages,
                      seenPagesLog := st.seenPagesLog ++ [url],
                      totalPages := st.totalPages + 1,
                      fetched := st.fetched ++ [url] } rest hinv
                  cases hexc : (processLinks join url
                      { st with
                        seenPages := url :: st.seenPages,
                        seenPagesLog := st.seenPagesLog ++ [url],
                        totalPages := st.totalPages + 1,
                        fetched := st.fetched ++ [url] } rest hrefs).2.2 with
                  | false =>
                    rw [hexc] at h
                    simp only [Bool.false_eq_true, if_false] at h
                    exact ih _ _ _ _ h hpl
                  | true =>
                    rw [hexc] at h
                    simp only [if_true] at h
                    exact ih _ _ _ _ h hpl
              | excTimeout =>
                rw [hf] at h
                dsimp only at h
                exact ih _ _ _ _ h hinv
              | excConn =>
                rw [hf] at h
                dsimp only at h
                exact ih _ _ _ _ h hinv
              | excHTTP =>
                rw [hf] at h
                dsimp only at h
                exact ih _ _ _ _ h hinv
              | excOther =>
                rw [hf] at h
                dsimp only at h
                exact ih _ _ _ _ h hinv
      · rw [if_neg hcap] at h
        cases h
        exact hinv

theorem crawlSeeds_pdfinv (join : Str → Str → Str)
    (fetch : Str → FetchResult) (cap fuel : Nat) :
    ∀ (seeds : List Str) (st st2 : CrawlState),
      crawlSeeds join fetch cap fuel seeds st = .ok st2 →
      PdfInv st → PdfInv st2 := by
  intro seeds
  induction seeds with
  | nil =>
    intro st st2 h hinv
    simp only [crawlSeeds] at h
    cases h
    exact hinv
  | cons seed rest ih =>
    intro st st2 h hinv
    simp only [crawlSeeds] at h
    cases hp : urlparse seed with
    | error e => rw [hp, exc_bind_error] at h; cases h
    | ok p =>
      rw [hp, exc_bind_ok] at h
      cases hc : crawlLoop join fetch seed cap fuel [seed] 0 st with
      | error e => rw [hc, exc_bind_error] at h; cases h
      | ok st1 =>
        rw [hc, exc_bind_ok] at h
        exact ih st1 st2 h
          (crawlLoop_pdfinv join fetch seed cap fuel [seed] 0 st st1 hc hinv)

/-- C2: every URL recorded to the PDF seen set, appended to the durable PDF
file or emitted to the output stream is the normalize_url canonical image
of some discovered link, the output stream stays duplicate-free and inside
the seen set; and crawling a page carrying the same PDF in two spellings
that normalize identically (a tracking parameter versus a fragment) emits
exactly one canonical entry. -/
theorem c2_pdf_canonical_dedup (join : Str → Str → Str)
    (fetch : Str → FetchResult) (cap fuel : Nat) (seeds : List Str)
    (st0 st2 : CrawlState)
    (hrun : crawlSeeds join fetch cap fuel seeds st0 = .ok st2)
    (h0 : PdfInv st0) :
    PdfInv st2 ∧
      crawlSeeds joinAbs twoSpellFetch 1 2 [str "http://x.com/policy"]
        initState = .ok ⟨[str "http://x.com/policy"],
          [str "http://x.com/policy"], [str "http://x.com/p.pdf"],
          [str "http://x.com/p.pdf"], [str "http://x.com/p.pdf"],
          [str "http://x.com/policy"], 1, 1, []⟩ :=
  ⟨crawlSeeds_pdfinv join fetch cap fuel seeds st0 st2 hrun h0, by decide⟩

/-- C2 witness: the invariant transported through the dedup scenario run
from the initial state. -/
theorem c2_witness :
    PdfInv ⟨[str "http://x.com/policy"], [str "http://x.com/policy"],
      [str "http://x.com/p.pdf"], [str "http://x.com/p.pdf"],
      [str "http://x.com/p.pdf"], [str "http://x.com/policy"], 1, 1, []⟩ ∧
    crawlSeeds joinAbs twoSpellFetch 1 2 [str "http://x.com/policy"]
        initState = .ok ⟨[str "http://x.com/policy"],
          [str "http://x.com/policy"], [str "http://x.com/p.pdf"],
          [str "http://x.com/p.pdf"], [str "http://x.com/p.pdf"],
          [str "http://x.com/policy"], 1, 1, []⟩ :=
  (c2_pdf_canonical_dedup joinAbs twoSpellFetch 1 2
    [str "http://x.com/policy"] initState
    ⟨[str "http://x.com/policy"], [str "http://x.com/policy"],
      [str "http://x.com/p.pdf"], [str "http://x.com/p.pdf"],
      [str "http://x.com/p.pdf"], [str "http://x.com/policy"], 1, 1, []⟩
    (by decide)
    ⟨List.nodup_nil, fun v hv => absurd hv (List.not_mem_nil v),
      fun v hv => by
        rcases hv with h1 | h1 | h1 <;>
          exact absurd h1 (List.not_mem_nil v)⟩)

/-- C4 (amended): normalize_url leaves the authority exactly as parsed: the
canonical form keeps the scheme, netloc, path and params of the parse and
only rebuilds the query and drops the fragment, so no case folding and no
www stripping happens there; the host-insensitive comparison of the
crawler is same_domain, which folds case and strips the leading www
characters of both hosts before comparing. -/
theorem c4_normalizer_host_amended (u : Str) (P : UrlParts)
    (hP : urlparse u = .ok P) :
    (∃ Q, normalize_url u =
      .ok (urlunparse ⟨P.scheme, P.netloc, P.path, P.params, Q, []⟩)) ∧
    same_domain (str "https://WWW.Acme.com/a") (str "http://acme.com/b") =
      .ok true := by
  constructor
  · refine ⟨(if P.query ≠ [] then
        (if filteredParams P.query ≠ [] then urlencode (filteredParams P.query)
         else [])
       else []), ?_⟩
    unfold normalize_url
    rw [hP, exc_bind_ok]
    rfl
  · decide

/-- C4 witness: the host is kept verbatim, uppercase letters and leading
www included, on a concrete URL. -/
theorem c4_witness :
    (∃ Q, normalize_url (str "http://WWW.acme.com/a?x=1") =
      .ok (urlunparse ⟨str "http", str "WWW.acme.com", str "/a", [],
        Q, []⟩)) ∧
    same_domain (str "https://WWW.Acme.com/a") (str "http://acme.com/b") =
      .ok true :=
  c4_normalizer_host_amended (str "http://WWW.acme.com/a?x=1")
    ⟨str "http", str "WWW.acme.com", str "/a", [], str "x=1", []⟩
    (by decide)

/-- C4 counterexample: two URLs that differ only in host case and a leading
www both normalize to themselves, hence to different canonical URLs, so
the normalizer does not canonicalize the host. -/
theorem c4_counterexample :
    normalize_url (str "http://WWW.acme.com/a") =
      .ok (str "http://WWW.acme.com/a") ∧
    normalize_url (str "http://acme.com/a") =
      .ok (str "http://acme.com/a") ∧
    ¬ str "http://WWW.acme.com/a" = str "http://acme.com/a" := by decide
